import Mathlib

/-!
# HiPerC diffusion benchmarks: boundary conditions, convolution, time stepping

A shallow embedding of the numerical core of the diffusion benchmark
(`serial_boundaries.c`, `serial_discretization.c`, `phi_discretization.c`,
`gpu/openacc/discretization.c`, `openacc_boundaries.c`, `tbb_boundaries.cpp`,
`opencl_main.c`) together with properties of that code.

Conventions of the embedding.

* A C buffer `fp_t** conc` is a total function from a row index `j` and a column
  index `i` to a value, `conc[j][i]` being `conc j i`.  An assignment
  `conc[j][i] = v` is `Buf.set`.  Values live in an arbitrary type (or field):
  arithmetic is exact, floating-point rounding is not modelled.  Two parts of
  `gpu/openacc/discretization.c` are embedded a second time with the arithmetic of
  `double`: the stencil and the convolution with every operation rounded to binary64
  (`Binary64.round`, `OpenACC.Rounded`), and `check_solution` with the infinities and
  NaN that a division by zero produces (`Fp`, `OpenACC.IEEE`).
* C `int` values are unbounded integers; `/` on `int` truncates toward zero
  (`cdiv`).
* `for (int k = lo; k < hi; k++) body` is `forLoop lo hi body`, a fold of the
  loop body over `lo, lo+1, ..., hi-1` in increasing order.  Parallel loops
  (OpenMP, OpenACC) are run sequentially in index order.
* Functions of the C library (`sqrt`, the constant `M_PI`, the clock behind
  `GetTimer`) and helpers declared in headers that are not part of the sources
  (`distance_point_to_segment`, `analytical_value`) are parameters.
* The two concentration buffers passed to `solve_diffusion_equation` live in a
  two-slot heap (`BufId`); the local pointers `conc_old` and `conc_new` are slot
  names, exchanged by `swap_pointers`.
-/

set_option autoImplicit false

universe u

/-! ## Data model -/

/-- A two-dimensional buffer `fp_t**`: `c j i` is the C expression `c[j][i]`. -/
abbrev Buf (α : Type u) : Type u := Int → Int → α

/-- The boundary-value table `fp_t bc[2][2]`. -/
abbrev BCTable (α : Type u) : Type u := Fin 2 → Fin 2 → α

/-- The assignment `bc[a][b] = v`. -/
def BCTable.set {α : Type u} (bc : BCTable α) (a b : Fin 2) (v : α) : BCTable α :=
  fun a' b' => if a' = a ∧ b' = b then v else bc a' b'

/-- The assignment `c[j][i] = v`. -/
def Buf.set {α : Type u} (c : Buf α) (j i : Int) (v : α) : Buf α :=
  fun j' i' => if j' = j ∧ i' = i then v else c j' i'

/-- C division of `int` values: the quotient is truncated toward zero. -/
def cdiv (a b : Int) : Int := Int.tdiv a b

/-- Run `n` iterations of a loop body, the loop variable taking the values
`lo, lo+1, ..., lo+n-1` in this order. -/
def loopN {σ : Type u} (lo : Int) (body : Int → σ → σ) : Nat → σ → σ
  | 0, s => s
  | n + 1, s => body (lo + n) (loopN lo body n s)

/-- The C loop `for (int k = lo; k < hi; k++) body`. -/
def forLoop {σ : Type u} (lo hi : Int) (body : Int → σ → σ) (s : σ) : σ :=
  loopN lo body (hi - lo).toNat s

/-! ## `serial_boundaries.c` -/

namespace Serial

/-- `set_boundaries`: background value `clo = 0`, source value `chi = 1`. -/
def set_boundaries {α : Type u} [Zero α] [One α] (bc : BCTable α) : BCTable α :=
  let clo : α := 0
  let chi : α := 1
  let bc := bc.set 0 0 clo
  let bc := bc.set 0 1 clo
  let bc := bc.set 1 0 chi
  bc.set 1 1 chi

/-- Both fixed-value writes shared by `apply_initial_conditions` and
`apply_boundary_conditions`: the left half-wall, then the right half-wall. -/
def fixed_values {α : Type u} (conc : Buf α) (nx ny nm : Int) (bc : BCTable α) : Buf α :=
  let conc := forLoop 0 (cdiv ny 2) (fun j conc =>
    forLoop 0 (1 + cdiv nm 2) (fun i conc => conc.set j i (bc 1 0)) conc) conc
  forLoop (cdiv ny 2) ny (fun j conc =>
    forLoop (nx - 1 - cdiv nm 2) nx (fun i conc => conc.set j i (bc 1 1)) conc) conc

/-- `apply_initial_conditions`: flat background field, then the two half-walls. -/
def apply_initial_conditions {α : Type u} (conc : Buf α) (nx ny nm : Int)
    (bc : BCTable α) : Buf α :=
  let conc := forLoop 0 ny (fun j conc =>
    forLoop 0 nx (fun i conc => conc.set j i (bc 0 0)) conc) conc
  fixed_values conc nx ny nm bc

/-- The first no-flux loop nest of `apply_boundary_conditions` (left and right
conditions), offsets from the inside to the outside. -/
def noflux_columns {α : Type u} (conc : Buf α) (nx ny nm : Int) : Buf α :=
  forLoop 0 (cdiv nm 2) (fun offset conc =>
    let ilo := cdiv nm 2 - offset
    let ihi := nx - 1 - cdiv nm 2 + offset
    forLoop 0 ny (fun j conc =>
      let conc := conc.set j (ilo - 1) (conc j ilo)
      conc.set j (ihi + 1) (conc j ihi)) conc) conc

/-- The second no-flux loop nest of `apply_boundary_conditions` (bottom and top
conditions). -/
def noflux_rows {α : Type u} (conc : Buf α) (nx ny nm : Int) : Buf α :=
  forLoop 0 (cdiv nm 2) (fun offset conc =>
    let jlo := cdiv nm 2 - offset
    let jhi := ny - 1 - cdiv nm 2 + offset
    forLoop 0 nx (fun i conc =>
      let conc := conc.set (jlo - 1) i (conc jlo i)
      conc.set (jhi + 1) i (conc jhi i)) conc) conc

/-- `apply_boundary_conditions`: fixed values, then no-flux columns, then no-flux
rows. -/
def apply_boundary_conditions {α : Type u} (conc : Buf α) (nx ny nm : Int)
    (bc : BCTable α) : Buf α :=
  noflux_rows (noflux_columns (fixed_values conc nx ny nm bc) nx ny nm) nx ny nm

end Serial

/-! ## `gpu/openacc/discretization.c`: stencils and convolution -/

namespace OpenACC

/-- `five_point_Laplacian_stencil`: writes the five entries of the cross of a
3 x 3 mask and leaves the four corners as they were. -/
def five_point_Laplacian_stencil {α : Type u} [Field α] (dx dy : α) (M : Buf α) : Buf α :=
  let M := M.set 0 1 (1 / (dy * dy))
  let M := M.set 1 0 (1 / (dx * dx))
  let M := M.set 1 1 ((-2) * (dx * dx + dy * dy) / (dx * dx * dy * dy))
  let M := M.set 1 2 (1 / (dx * dx))
  M.set 2 1 (1 / (dy * dy))

/-- `nine_point_Laplacian_stencil`: writes all nine entries of a 3 x 3 mask. -/
def nine_point_Laplacian_stencil {α : Type u} [Field α] (dx dy : α) (M : Buf α) : Buf α :=
  let M := M.set 0 0 (1 / (6 * dx * dy))
  let M := M.set 0 1 (4 / (6 * dy * dy))
  let M := M.set 0 2 (1 / (6 * dx * dy))
  let M := M.set 1 0 (4 / (6 * dx * dx))
  let M := M.set 1 1 ((-10) * (dx * dx + dy * dy) / (6 * dx * dx * dy * dy))
  let M := M.set 1 2 (4 / (6 * dx * dx))
  let M := M.set 2 0 (1 / (6 * dx * dy))
  let M := M.set 2 1 (4 / (6 * dy * dy))
  M.set 2 2 (1 / (6 * dx * dy))

/-- `set_mask`: always the five-point stencil, whatever `nm`. -/
def set_mask {α : Type u} [Field α] (dx dy : α) (_nm : Int) (M : Buf α) : Buf α :=
  five_point_Laplacian_stencil dx dy M

/-- The accumulation `value = 0.; for mj for mi value += M[mj+nm/2][mi+nm/2] * A[j+mj][i+mi]`
of `compute_convolution` at the cell `(j, i)`. -/
def stencil_value {α : Type u} [Semiring α] (A M : Buf α) (nm j i : Int) : α :=
  forLoop (cdiv (-nm) 2) (1 + cdiv nm 2) (fun mj value =>
    forLoop (cdiv (-nm) 2) (1 + cdiv nm 2) (fun mi value =>
      value + M (mj + cdiv nm 2) (mi + cdiv nm 2) * A (j + mj) (i + mi)) value) 0

/-- `compute_convolution` (OpenACC): the loop nest over the interior cells, run
sequentially; the block size `bs` is not used. -/
def compute_convolution {α : Type u} [Semiring α] (A C M : Buf α) (nx ny nm : Int)
    (_bs : Int) : Buf α :=
  forLoop (cdiv nm 2) (ny - cdiv nm 2) (fun j C =>
    forLoop (cdiv nm 2) (nx - cdiv nm 2) (fun i C =>
      C.set j i (stencil_value A M nm j i)) C) C

/-- The truncated Maclaurin series of `check_solution`, with its saturation:
`poly_erf = (z < 1.5) ? 2 z (1 + z2 (-1/3 + z2 (1/10 + z2 (-1/42 + z2/216)))) / sqrt(M_PI) : 1`.
The library function `sqrt` and the constant `M_PI` are parameters. -/
def poly_erf {α : Type u} [LinearOrderedField α] (sqrt : α → α) (pi : α) (z : α) : α :=
  let z2 := z * z
  if z < 3 / 2 then
    2 * z * (1 + z2 * ((-1) / 3 + z2 * (1 / 10 + z2 * ((-1) / 42 + z2 / 216)))) / sqrt pi
  else 1

/-- The distance `r` to the left-wall source used by `check_solution` at cell `(j, i)`. -/
def r_left {α : Type u} [LinearOrderedField α] (sqrt : α → α) (ny : Int) (dx dy : α)
    (nm j i : Int) : α :=
  if j < cdiv ny 2 then dx * ((i - cdiv nm 2 : Int) : α)
  else sqrt (dx * dx * ((i - cdiv nm 2 : Int) : α) * ((i - cdiv nm 2 : Int) : α)
    + dy * dy * ((j - cdiv ny 2 : Int) : α) * ((j - cdiv ny 2 : Int) : α))

/-- The distance `r` to the right-wall source used by `check_solution` at cell `(j, i)`. -/
def r_right {α : Type u} [LinearOrderedField α] (sqrt : α → α) (nx ny : Int) (dx dy : α)
    (nm j i : Int) : α :=
  if j ≥ cdiv ny 2 then dx * ((nx - nm + 1 - i : Int) : α)
  else sqrt (dx * dx * ((nx - nm + 1 - i : Int) : α) * ((nx - nm + 1 - i : Int) : α)
    + dy * dy * ((cdiv ny 2 - j : Int) : α) * ((cdiv ny 2 - j : Int) : α))

/-- The left analytical value `cal` of `check_solution` at cell `(j, i)`. -/
def cal {α : Type u} [LinearOrderedField α] (sqrt : α → α) (pi : α) (ny : Int) (dx dy : α)
    (nm : Int) (elapsed D : α) (bc : BCTable α) (j i : Int) : α :=
  let r := r_left sqrt ny dx dy nm j i
  let z := r / sqrt (4 * D * elapsed)
  bc 1 0 * (1 - poly_erf sqrt pi z)

/-- The right analytical value `car` of `check_solution` at cell `(j, i)`. -/
def car {α : Type u} [LinearOrderedField α] (sqrt : α → α) (pi : α) (nx ny : Int)
    (dx dy : α) (nm : Int) (elapsed D : α) (bc : BCTable α) (j i : Int) : α :=
  let r := r_right sqrt nx ny dx dy nm j i
  let z := r / sqrt (4 * D * elapsed)
  bc 1 0 * (1 - poly_erf sqrt pi z)

/-- The divisor `(nx-nm+1) * (ny-nm+1)` of `check_solution`. -/
def rss_divisor (nx ny nm : Int) : Int := (nx - nm + 1) * (ny - nm + 1)

/-- `check_solution` (OpenACC): the reduction of the weighted squared residuals over
the interior cells, run sequentially; the block size `bs` is not used. -/
def check_solution {α : Type u} [LinearOrderedField α] (sqrt : α → α) (pi : α) (A : Buf α)
    (nx ny : Int) (dx dy : α) (nm : Int) (_bs : Int) (elapsed D : α) (bc : BCTable α) : α :=
  forLoop (cdiv nm 2) (ny - cdiv nm 2) (fun j sum =>
    forLoop (cdiv nm 2) (nx - cdiv nm 2) (fun i sum =>
      let cn := A j i
      let ca := cal sqrt pi ny dx dy nm elapsed D bc j i
        + car sqrt pi nx ny dx dy nm elapsed D bc j i
      let trss := (ca - cn) * (ca - cn) / ((rss_divisor nx ny nm : Int) : α)
      sum + trss) sum) 0

end OpenACC

/-! ## `serial_discretization.c` (and, pragmas apart, `phi_discretization.c`) -/

/-- The timing record `struct Stopwatch`: accumulated seconds per phase. -/
structure Stopwatch (α : Type u) where
  conv : α
  step : α
  file : α
  soln : α

/-- The two concentration buffers owned by the caller of `solve_diffusion_equation`. -/
inductive BufId where
  | A : BufId
  | B : BufId
  deriving DecidableEq

namespace Serial

/-- The accumulation `value += mask_lap[mj+nm/2][mi+nm/2] * conc_old[j+mj][i+mi]` of
`compute_convolution` at the cell `(j, i)`, starting from `value = 0.0`. -/
def stencil_value {α : Type u} [Semiring α] (conc_old mask_lap : Buf α) (nm j i : Int) : α :=
  forLoop (cdiv (-nm) 2) (cdiv nm 2 + 1) (fun mj value =>
    forLoop (cdiv (-nm) 2) (cdiv nm 2 + 1) (fun mi value =>
      value + mask_lap (mj + cdiv nm 2) (mi + cdiv nm 2) * conc_old (j + mj) (i + mi))
      value) 0

/-- `compute_convolution`: writes the stencil sum into every interior cell of
`conc_lap`. -/
def compute_convolution {α : Type u} [Semiring α] (conc_old conc_lap mask_lap : Buf α)
    (nx ny nm : Int) : Buf α :=
  forLoop (cdiv nm 2) (ny - cdiv nm 2) (fun j conc_lap =>
    forLoop (cdiv nm 2) (nx - cdiv nm 2) (fun i conc_lap =>
      conc_lap.set j i (stencil_value conc_old mask_lap nm j i)) conc_lap) conc_lap

/-- The explicit-Euler loop nest of `solve_diffusion_equation`:
`conc_new[j][i] = conc_old[j][i] + dt * D * conc_lap[j][i]` on the interior. -/
def euler_update {α : Type u} [Semiring α] (conc_old conc_new conc_lap : Buf α)
    (nx ny nm : Int) (D dt : α) : Buf α :=
  forLoop (cdiv nm 2) (ny - cdiv nm 2) (fun j conc_new =>
    forLoop (cdiv nm 2) (nx - cdiv nm 2) (fun i conc_new =>
      conc_new.set j i (conc_old j i + dt * D * conc_lap j i)) conc_new) conc_new

/-- The memory and the local variables of `solve_diffusion_equation`.  `heap` holds
the two buffers of the caller, `conc_old` and `conc_new` are the local pointer
variables, `reads` counts the calls of `GetTimer` made so far. -/
structure SolveState (α : Type u) where
  heap : BufId → Buf α
  conc_lap : Buf α
  conc_old : BufId
  conc_new : BufId
  elapsed : α
  sw : Stopwatch α
  reads : Nat

/-- Modelled from the spec: `swap_pointers` (declared in a header that is not part of
the sources) exchanges the two pointer variables; no cell is copied. -/
def swap_pointers {α : Type u} (s : SolveState α) : SolveState α :=
  { s with conc_old := s.conc_new, conc_new := s.conc_old }

/-- One iteration of the loop of `solve_diffusion_equation`.  `GetTimer` is the
sequence of clock readings: its `k`-th call returns `GetTimer k`. -/
def solve_iteration {α : Type u} [Ring α] (GetTimer : Nat → α) (mask_lap : Buf α)
    (nx ny nm : Int) (bc : BCTable α) (D dt : α) (s : SolveState α) : SolveState α :=
  let heap := Function.update s.heap s.conc_old
    (apply_boundary_conditions (s.heap s.conc_old) nx ny nm bc)
  let start_time := GetTimer s.reads
  let conc_lap := compute_convolution (heap s.conc_old) s.conc_lap mask_lap nx ny nm
  let sw := { s.sw with conv := s.sw.conv + (GetTimer (s.reads + 1) - start_time) }
  let start_time := GetTimer (s.reads + 2)
  let heap := Function.update heap s.conc_new
    (euler_update (heap s.conc_old) (heap s.conc_new) conc_lap nx ny nm D dt)
  let elapsed := s.elapsed + dt
  let sw := { sw with step := sw.step + (GetTimer (s.reads + 3) - start_time) }
  swap_pointers
    { heap := heap, conc_lap := conc_lap, conc_old := s.conc_old, conc_new := s.conc_new,
      elapsed := elapsed, sw := sw, reads := s.reads + 4 }

/-- `solve_diffusion_equation`: `checks` iterations of boundary conditions,
convolution, explicit-Euler update and pointer swap. -/
def solve_diffusion_equation {α : Type u} [Ring α] (GetTimer : Nat → α) (mask_lap : Buf α)
    (nx ny nm : Int) (bc : BCTable α) (D dt : α) (checks : Int) (s : SolveState α) :
    SolveState α :=
  forLoop 0 checks (fun _check s => solve_iteration GetTimer mask_lap nx ny nm bc D dt s) s

/-- The divisor `(nx-1-nm/2) * (ny-1-nm/2)` applied by `check_solution` to every
squared residual. -/
def rss_divisor (nx ny nm : Int) : Int := (nx - 1 - cdiv nm 2) * (ny - 1 - cdiv nm 2)

/-- `check_solution` (the text is the same in `phi_discretization.c`): the weighted
squared residual of every interior cell goes to `conc_lap`, then the interior of
`conc_lap` is summed.  The helpers `distance_point_to_segment` and
`analytical_value` are not part of the sources and are parameters.  Returns the
final `conc_lap` and `*rss`. -/
def check_solution {α : Type u} [Field α]
    (distance_point_to_segment : α → α → α → α → α → α → α)
    (analytical_value : α → α → α → BCTable α → α)
    (conc_new conc_lap : Buf α) (nx ny : Int) (dx dy : α) (nm : Int) (elapsed D : α)
    (bc : BCTable α) : Buf α × α :=
  let conc_lap := forLoop (cdiv nm 2) (ny - cdiv nm 2) (fun j conc_lap =>
    forLoop (cdiv nm 2) (nx - cdiv nm 2) (fun i conc_lap =>
      let cn := conc_new j i
      let r := distance_point_to_segment
        (dx * ((cdiv nm 2 : Int) : α)) (dy * ((cdiv nm 2 : Int) : α))
        (dx * ((cdiv nm 2 : Int) : α)) (dy * ((cdiv ny 2 : Int) : α))
        (dx * ((i : Int) : α)) (dy * ((j : Int) : α))
      let cal := analytical_value r elapsed D bc
      let r := distance_point_to_segment
        (dx * ((nx - 1 - cdiv nm 2 : Int) : α)) (dy * ((cdiv ny 2 : Int) : α))
        (dx * ((nx - 1 - cdiv nm 2 : Int) : α)) (dy * ((ny - 1 - cdiv nm 2 : Int) : α))
        (dx * ((i : Int) : α)) (dy * ((j : Int) : α))
      let car := analytical_value r elapsed D bc
      let ca := cal + car
      conc_lap.set j i ((ca - cn) * (ca - cn) / ((rss_divisor nx ny nm : Int) : α)))
      conc_lap) conc_lap
  let sum := forLoop (cdiv nm 2) (ny - cdiv nm 2) (fun j sum =>
    forLoop (cdiv nm 2) (nx - cdiv nm 2) (fun i sum => sum + conc_lap j i) sum) 0
  (conc_lap, sum)

end Serial

/-! ## `openacc_boundaries.c` -/

namespace OpenACC

/-- `set_boundaries` of `openacc_boundaries.c`: background value `clo = 0`, one source
value `chi = 1` stored in both `bc[1][0]` (left boundary) and `bc[1][1]` (right
boundary). -/
def set_boundaries {α : Type u} [Zero α] [One α] (bc : BCTable α) : BCTable α :=
  let clo : α := 0
  let chi : α := 1
  let bc := bc.set 0 0 clo
  let bc := bc.set 0 1 clo
  let bc := bc.set 1 0 chi
  bc.set 1 1 chi

/-- `boundary_kernel`: the two fixed-value loop nests, then one loop over the offsets
whose body copies the left/right columns and then the bottom/top rows.  All loops are
run sequentially in index order. -/
def boundary_kernel {α : Type u} (conc : Buf α) (nx ny nm : Int) (bc : BCTable α) : Buf α :=
  let conc := forLoop 0 (cdiv ny 2) (fun j conc =>
    forLoop 0 (1 + cdiv nm 2) (fun i conc => conc.set j i (bc 1 0)) conc) conc
  let conc := forLoop (cdiv ny 2) ny (fun j conc =>
    forLoop (nx - 1 - cdiv nm 2) nx (fun i conc => conc.set j i (bc 1 1)) conc) conc
  forLoop 0 (cdiv nm 2) (fun offset conc =>
    let ilo := cdiv nm 2 - offset
    let ihi := nx - 1 - cdiv nm 2 + offset
    let jlo := cdiv nm 2 - offset
    let jhi := ny - 1 - cdiv nm 2 + offset
    let conc := forLoop 0 ny (fun j conc =>
      let conc := conc.set j (ilo - 1) (conc j ilo)
      conc.set j (ihi + 1) (conc j ihi)) conc
    forLoop 0 nx (fun i conc =>
      let conc := conc.set (jlo - 1) i (conc jlo i)
      conc.set (jhi + 1) i (conc jhi i)) conc) conc

/-- `apply_boundary_conditions` (OpenACC): `boundary_kernel` inside a data region. -/
def apply_boundary_conditions {α : Type u} (conc : Buf α) (nx ny nm : Int)
    (bc : BCTable α) : Buf α :=
  boundary_kernel conc nx ny nm bc

end OpenACC

/-! ## `gpu/openacc/discretization.c`: the time step -/

namespace OpenACC

/-- `solve_diffusion_equation` (OpenACC): one explicit-Euler update of the interior
cells of `B`, then `*elapsed += dt`.  Returns `B` and `*elapsed`; the block size `bs`
is not used. -/
def solve_diffusion_equation {α : Type u} [Semiring α] (A B C : Buf α) (nx ny nm : Int)
    (_bs : Int) (D dt : α) (elapsed : α) : Buf α × α :=
  let B := forLoop (cdiv nm 2) (ny - cdiv nm 2) (fun j B =>
    forLoop (cdiv nm 2) (nx - cdiv nm 2) (fun i B =>
      B.set j i (A j i + dt * D * C j i)) B) B
  (B, elapsed + dt)

end OpenACC

/-! ## `compute_convolution` on named buffers -/

namespace Serial

/-- `compute_convolution` on a memory of named buffers: `conc_old`, `conc_lap` and
`mask_lap` are pointers, every iteration reads the memory as the previous iterations
left it and assigns one cell of the buffer `conc_lap` points to. -/
def compute_convolution_ptr {ι : Type} [DecidableEq ι] {α : Type u} [Semiring α]
    (mem : ι → Buf α) (conc_old conc_lap mask_lap : ι) (nx ny nm : Int) : ι → Buf α :=
  forLoop (cdiv nm 2) (ny - cdiv nm 2) (fun j mem =>
    forLoop (cdiv nm 2) (nx - cdiv nm 2) (fun i mem =>
      Function.update mem conc_lap
        ((mem conc_lap).set j i (stencil_value (mem conc_old) (mem mask_lap) nm j i)))
      mem) mem

end Serial

/-! ## `tbb_boundaries.cpp` -/

namespace TBB

/-- `tbb::blocked_range<int>(begin, end)`. -/
structure blocked_range where
  range_begin : Int
  range_end : Int

/-- `tbb::blocked_range2d<int>(row_begin, row_end, col_begin, col_end)`: `rows()` is
`[row_begin, row_end)` and `cols()` is `[col_begin, col_end)`. -/
structure blocked_range2d where
  rows : blocked_range
  cols : blocked_range

/-- `tbb::parallel_for` over a one-dimensional range, run sequentially: the body is
called once with the whole range, and not at all when the range is empty. -/
def parallel_for {σ : Type u} (r : blocked_range) (body : blocked_range → σ → σ)
    (s : σ) : σ :=
  if r.range_begin < r.range_end then body r s else s

/-- `tbb::parallel_for` over a two-dimensional range, run sequentially: the body is
called once with the whole range, and not at all when `rows()` or `cols()` is empty. -/
def parallel_for2d {σ : Type u} (r : blocked_range2d) (body : blocked_range2d → σ → σ)
    (s : σ) : σ :=
  if r.rows.range_begin < r.rows.range_end ∧ r.cols.range_begin < r.cols.range_end
  then body r s else s

/-- `apply_initial_conditions` (TBB): flat field `0.`, left and right half-walls `1.`.
Inside a body, `for (j = r.cols().begin(); j != r.cols().end(); j++)` runs over a
non-empty range and is the loop `forLoop`. -/
def apply_initial_conditions {α : Type u} [Zero α] [One α] (conc : Buf α)
    (nx ny nm : Int) : Buf α :=
  let conc := parallel_for2d ⟨⟨0, nx⟩, ⟨0, ny⟩⟩ (fun r conc =>
    forLoop r.cols.range_begin r.cols.range_end (fun j conc =>
      forLoop r.rows.range_begin r.rows.range_end (fun i conc => conc.set j i 0) conc) conc)
    conc
  let conc := parallel_for2d ⟨⟨0, 1 + cdiv nm 2⟩, ⟨0, cdiv ny 2⟩⟩ (fun r conc =>
    forLoop r.cols.range_begin r.cols.range_end (fun j conc =>
      forLoop r.rows.range_begin r.rows.range_end (fun i conc => conc.set j i 1) conc) conc)
    conc
  parallel_for2d ⟨⟨nx - 1 - cdiv nm 2, nx⟩, ⟨cdiv ny 2, ny⟩⟩ (fun r conc =>
    forLoop r.cols.range_begin r.cols.range_end (fun j conc =>
      forLoop r.rows.range_begin r.rows.range_end (fun i conc => conc.set j i 1) conc) conc)
    conc

/-- `apply_boundary_conditions` (TBB): the two half-walls, then for every offset a
`parallel_for` over the rows (left and right conditions), then for every offset a
`parallel_for` over the columns (bottom and top conditions). -/
def apply_boundary_conditions {α : Type u} [Zero α] [One α] (conc : Buf α)
    (nx ny nm : Int) : Buf α :=
  let conc := parallel_for2d ⟨⟨0, 1 + cdiv nm 2⟩, ⟨0, cdiv ny 2⟩⟩ (fun r conc =>
    forLoop r.cols.range_begin r.cols.range_end (fun j conc =>
      forLoop r.rows.range_begin r.rows.range_end (fun i conc => conc.set j i 1) conc) conc)
    conc
  let conc := parallel_for2d ⟨⟨nx - 1 - cdiv nm 2, nx⟩, ⟨cdiv ny 2, ny⟩⟩ (fun r conc =>
    forLoop r.cols.range_begin r.cols.range_end (fun j conc =>
      forLoop r.rows.range_begin r.rows.range_end (fun i conc => conc.set j i 1) conc) conc)
    conc
  let conc := forLoop 0 (cdiv nm 2) (fun offset conc =>
    let ilo := cdiv nm 2 - offset
    let ihi := nx - 1 - cdiv nm 2 + offset
    parallel_for ⟨0, ny⟩ (fun r conc =>
      forLoop r.range_begin r.range_end (fun j conc =>
        let conc := conc.set j (ilo - 1) (conc j ilo)
        conc.set j (ihi + 1) (conc j ihi)) conc) conc) conc
  forLoop 0 (cdiv nm 2) (fun offset conc =>
    let jlo := cdiv nm 2 - offset
    let jhi := ny - 1 - cdiv nm 2 + offset
    parallel_for ⟨0, nx⟩ (fun r conc =>
      forLoop r.range_begin r.range_end (fun i conc =>
        let conc := conc.set (jlo - 1) i (conc jlo i)
        conc.set (jhi + 1) i (conc jhi i)) conc) conc) conc

end TBB

/-! ## Bounds-checked indexing -/

/-- Read `c[j][i]` from a buffer of `ny` rows and `nx` columns; `none` when the index
is out of range. -/
def Buf.read {α : Type u} (c : Buf α) (ny nx j i : Int) : Option α :=
  if (0 ≤ j ∧ j < ny) ∧ (0 ≤ i ∧ i < nx) then some (c j i) else none

/-- Assign `c[j][i] = v` in a buffer of `ny` rows and `nx` columns; `none` when the
index is out of range. -/
def Buf.write {α : Type u} (c : Buf α) (ny nx j i : Int) (v : α) : Option (Buf α) :=
  if (0 ≤ j ∧ j < ny) ∧ (0 ≤ i ∧ i < nx) then some (c.set j i v) else none

/-- The loop `loopN` with a body that can fail: the first failure ends the loop. -/
def loopNM {σ : Type u} (lo : Int) (body : Int → σ → Option σ) : Nat → σ → Option σ
  | 0, s => some s
  | n + 1, s => (loopNM lo body n s).bind (body (lo + n))

/-- The C loop `for (int k = lo; k < hi; k++) body` with a body that can fail. -/
def forLoopM {σ : Type u} (lo hi : Int) (body : Int → σ → Option σ) (s : σ) : Option σ :=
  loopNM lo body (hi - lo).toNat s

namespace Serial

/-- `apply_boundary_conditions` with every access to `conc` (a buffer of `ny` rows and
`nx` columns) bounds-checked. -/
def apply_boundary_conditions_checked {α : Type u} (conc : Buf α) (nx ny nm : Int)
    (bc : BCTable α) : Option (Buf α) :=
  (forLoopM 0 (cdiv ny 2) (fun j conc =>
    forLoopM 0 (1 + cdiv nm 2) (fun i conc => conc.write ny nx j i (bc 1 0)) conc)
    conc).bind (fun conc =>
  (forLoopM (cdiv ny 2) ny (fun j conc =>
    forLoopM (nx - 1 - cdiv nm 2) nx (fun i conc => conc.write ny nx j i (bc 1 1)) conc)
    conc).bind (fun conc =>
  (forLoopM 0 (cdiv nm 2) (fun offset conc =>
    let ilo := cdiv nm 2 - offset
    let ihi := nx - 1 - cdiv nm 2 + offset
    forLoopM 0 ny (fun j conc =>
      (conc.read ny nx j ilo).bind (fun v =>
      (conc.write ny nx j (ilo - 1) v).bind (fun conc =>
      (conc.read ny nx j ihi).bind (fun v =>
      conc.write ny nx j (ihi + 1) v)))) conc) conc).bind (fun conc =>
  forLoopM 0 (cdiv nm 2) (fun offset conc =>
    let jlo := cdiv nm 2 - offset
    let jhi := ny - 1 - cdiv nm 2 + offset
    forLoopM 0 nx (fun i conc =>
      (conc.read ny nx jlo i).bind (fun v =>
      (conc.write ny nx (jlo - 1) i v).bind (fun conc =>
      (conc.read ny nx jhi i).bind (fun v =>
      conc.write ny nx (jhi + 1) i v)))) conc) conc)))

/-- `compute_convolution` with every access bounds-checked: `conc_old` and `conc_lap`
have `ny` rows and `nx` columns, `mask_lap` has `nm` rows and `nm` columns. -/
def compute_convolution_checked {α : Type u} [Semiring α]
    (conc_old conc_lap mask_lap : Buf α) (nx ny nm : Int) : Option (Buf α) :=
  forLoopM (cdiv nm 2) (ny - cdiv nm 2) (fun j conc_lap =>
    forLoopM (cdiv nm 2) (nx - cdiv nm 2) (fun i conc_lap =>
      (forLoopM (cdiv (-nm) 2) (cdiv nm 2 + 1) (fun mj value =>
        forLoopM (cdiv (-nm) 2) (cdiv nm 2 + 1) (fun mi value =>
          (mask_lap.read nm nm (mj + cdiv nm 2) (mi + cdiv nm 2)).bind (fun m =>
          (conc_old.read ny nx (j + mj) (i + mi)).bind (fun a =>
          some (value + m * a)))) value) 0).bind (fun value =>
      conc_lap.write ny nx j i value)) conc_lap) conc_lap

end Serial

/-! ## `opencl_main.c`: the time-stepping loop of `main` -/

namespace OpenCL

/-- One line of `runlog.csv`:
`iter,sim_time,wrss,conv_time,step_time,IO_time,soln_time,run_time`. -/
structure LogRecord (α : Type u) where
  iter : Int
  sim_time : α
  wrss : α
  conv_time : α
  step_time : α
  IO_time : α
  soln_time : α
  run_time : α

/-- The variables of `main` that the time-stepping loop changes: the device data
`dev`, the host buffer `conc_new`, `elapsed`, `rss`, the stopwatch `watch`, the lines
written to `runlog.csv`, and the number of calls of `GetTimer` made so far. -/
structure MainState (δ : Type u) (α : Type u) where
  dev : δ
  conc_new : Buf α
  elapsed : α
  rss : α
  watch : Stopwatch α
  runlog : List (LogRecord α)
  reads : Nat

/-- The functions called by the loop that are not part of the sources: the three
device kernels (they receive `dev` and `flip`), `read_out_result` (it receives `dev`,
`flip` and the host buffer), and `check_solution` (it receives the host buffer and
`elapsed`; its scratch buffer `conc_lap` is not tracked). `print_progress` and
`write_png` only produce output. -/
structure Externals (δ : Type u) (α : Type u) where
  device_boundaries : δ → Int → δ
  device_convolution : δ → Int → δ
  device_diffusion : δ → Int → δ
  read_out_result : δ → Int → Buf α → Buf α
  check_solution : Buf α → α → α

/-- The body of `for (step = 1; step < steps+1; step++)` in `main`.  `GetTimer` is the
sequence of clock readings: its `k`-th call returns `GetTimer k`. -/
def main_iteration {δ : Type u} {α : Type u} [Ring α] (GetTimer : Nat → α)
    (ext : Externals δ α) (checks : Int) (dt : α) (step : Int) (s : MainState δ α) :
    MainState δ α :=
  let flip : Int := if Int.tmod step 2 = 0 then 0 else 1
  let dev := ext.device_boundaries s.dev flip
  let start_time := GetTimer s.reads
  let dev := ext.device_convolution dev flip
  let watch := { s.watch with conv := s.watch.conv + (GetTimer (s.reads + 1) - start_time) }
  let start_time := GetTimer (s.reads + 2)
  let dev := ext.device_diffusion dev flip
  let watch := { watch with conv := watch.conv + (GetTimer (s.reads + 3) - start_time) }
  let elapsed := s.elapsed + dt
  if Int.tmod step checks = 0 then
    let start_time := GetTimer (s.reads + 4)
    let conc_new := ext.read_out_result dev flip s.conc_new
    let watch := { watch with file := watch.file + (GetTimer (s.reads + 5) - start_time) }
    let start_time := GetTimer (s.reads + 6)
    let watch := { watch with file := watch.file + (GetTimer (s.reads + 7) - start_time) }
    let start_time := GetTimer (s.reads + 8)
    let rss := ext.check_solution conc_new elapsed
    let watch := { watch with soln := watch.soln + (GetTimer (s.reads + 9) - start_time) }
    let record : LogRecord α :=
      { iter := step, sim_time := elapsed, wrss := rss, conv_time := watch.conv,
        step_time := watch.step, IO_time := watch.file, soln_time := watch.soln,
        run_time := GetTimer (s.reads + 10) }
    { dev := dev, conc_new := conc_new, elapsed := elapsed, rss := rss, watch := watch,
      runlog := s.runlog ++ [record], reads := s.reads + 11 }
  else
    { dev := dev, conc_new := s.conc_new, elapsed := elapsed, rss := s.rss, watch := watch,
      runlog := s.runlog, reads := s.reads + 4 }

/-- The loop `for (step = 1; step < steps+1; step++)` of `main`. -/
def main_loop {δ : Type u} {α : Type u} [Ring α] (GetTimer : Nat → α)
    (ext : Externals δ α) (steps checks : Int) (dt : α) (s : MainState δ α) :
    MainState δ α :=
  forLoop 1 (steps + 1) (fun step s => main_iteration GetTimer ext checks dt step s) s

end OpenCL

/-! ## Rounding to binary64 -/

namespace Binary64

/-- The nearest integer to a rational number, the even one of the two at a tie. -/
def round_even (q : ℚ) : Int :=
  let f := Rat.floor q
  let r := q - f
  if r < 1 / 2 then f else if 1 / 2 < r then f + 1 else if f % 2 = 0 then f else f + 1

/-- Scale a positive rational number by powers of two into `[2^52, 2^53)`: the result
`(a', e)` satisfies `a = a' * 2^e`, for at most `fuel` doublings or halvings. -/
def normalize : Nat → ℚ → Int → ℚ × Int
  | 0, a, e => (a, e)
  | fuel + 1, a, e =>
    if 2 ^ 53 ≤ a then normalize fuel (a / 2) (e + 1)
    else if a < 2 ^ 52 then normalize fuel (a * 2) (e - 1)
    else (a, e)

/-- The power `2^e` of an integer exponent. -/
def pow2 (e : Int) : ℚ := if 0 ≤ e then 2 ^ e.toNat else 1 / 2 ^ (-e).toNat

/-- Round to the nearest number with a 53-bit significand, ties to even: the result of
one binary64 operation from its exact value.  The exponent is not bounded (no overflow
to infinity, no subnormal numbers). -/
def round (x : ℚ) : ℚ :=
  if x = 0 then 0
  else
    let ae := normalize 2200 |x| 0
    let m : ℚ := round_even ae.1
    if x < 0 then -(m * pow2 ae.2) else m * pow2 ae.2

end Binary64

/-! ## `gpu/openacc/discretization.c`: stencil and convolution with rounded operations -/

namespace OpenACC.Rounded

variable {α : Type u} [Field α]

/-- `five_point_Laplacian_stencil` with the result of every operation rounded by `rnd`;
the constants `1.` and `-2.` are exact. -/
def five_point_Laplacian_stencil (rnd : α → α) (dx dy : α) (M : Buf α) : Buf α :=
  let M := M.set 0 1 (rnd (1 / rnd (dy * dy)))
  let M := M.set 1 0 (rnd (1 / rnd (dx * dx)))
  let M := M.set 1 1 (rnd (rnd ((-2) * rnd (rnd (dx * dx) + rnd (dy * dy))) /
    rnd (rnd (rnd (dx * dx) * dy) * dy)))
  let M := M.set 1 2 (rnd (1 / rnd (dx * dx)))
  M.set 2 1 (rnd (1 / rnd (dy * dy)))

/-- The accumulation `value += M[mj+nm/2][mi+nm/2] * A[j+mj][i+mi]` of
`compute_convolution` at the cell `(j, i)`, the product and the sum each rounded. -/
def stencil_value (rnd : α → α) (A M : Buf α) (nm j i : Int) : α :=
  forLoop (cdiv (-nm) 2) (1 + cdiv nm 2) (fun mj value =>
    forLoop (cdiv (-nm) 2) (1 + cdiv nm 2) (fun mi value =>
      rnd (value + rnd (M (mj + cdiv nm 2) (mi + cdiv nm 2) * A (j + mj) (i + mi)))) value) 0

/-- `compute_convolution` (OpenACC) with rounded operations. -/
def compute_convolution (rnd : α → α) (A C M : Buf α) (nx ny nm : Int) (_bs : Int) : Buf α :=
  forLoop (cdiv nm 2) (ny - cdiv nm 2) (fun j C =>
    forLoop (cdiv nm 2) (nx - cdiv nm 2) (fun i C =>
      C.set j i (stencil_value rnd A M nm j i)) C) C

end OpenACC.Rounded

/-! ## `fp_t` with the IEEE-754 special values -/

/-- An `fp_t` value when divisions by zero are followed: a finite number, an infinity
(`neg = true` for the negative one) or NaN.  Finite results are exact and there is one
zero, which divides like `+0.`. -/
inductive Fp (α : Type u) where
  | fin (x : α)
  | inf (neg : Bool)
  | nan

namespace Fp

variable {α : Type u} [LinearOrderedField α]

/-- IEEE-754 addition. -/
def add : Fp α → Fp α → Fp α
  | fin a, fin b => fin (a + b)
  | fin _, inf s => inf s
  | inf s, fin _ => inf s
  | inf s, inf t => if s = t then inf s else nan
  | nan, _ => nan
  | _, nan => nan

/-- IEEE-754 subtraction. -/
def sub : Fp α → Fp α → Fp α
  | fin a, fin b => fin (a - b)
  | fin _, inf s => inf (!s)
  | inf s, fin _ => inf s
  | inf s, inf t => if s = t then nan else inf s
  | nan, _ => nan
  | _, nan => nan

/-- IEEE-754 multiplication: `0 * inf` is NaN. -/
def mul : Fp α → Fp α → Fp α
  | fin a, fin b => fin (a * b)
  | fin a, inf s => if a = 0 then nan else inf (xor (decide (a < 0)) s)
  | inf s, fin b => if b = 0 then nan else inf (xor s (decide (b < 0)))
  | inf s, inf t => inf (xor s t)
  | nan, _ => nan
  | _, nan => nan

/-- IEEE-754 division: `0 / 0` and `inf / inf` are NaN, a non-zero finite number
divided by zero is the infinity of its sign. -/
def div : Fp α → Fp α → Fp α
  | fin a, fin b =>
    if b = 0 then (if a = 0 then nan else inf (decide (a < 0))) else fin (a / b)
  | fin _, inf _ => fin 0
  | inf s, fin b => inf (xor s (decide (b < 0)))
  | inf _, inf _ => nan
  | nan, _ => nan
  | _, nan => nan

/-- The C comparison `x < y`: false as soon as one operand is NaN. -/
def lt : Fp α → Fp α → Bool
  | fin a, fin b => decide (a < b)
  | fin _, inf s => !s
  | inf s, fin _ => s
  | inf s, inf t => s && !t
  | nan, _ => false
  | _, nan => false

/-- The library function `sqrt` on the special values: NaN for a negative argument,
`+inf` for `+inf`; on a finite non-negative argument it is the parameter `sqrt`. -/
def sqrt (sqrt : α → α) : Fp α → Fp α
  | fin a => if a < 0 then nan else fin (sqrt a)
  | inf false => inf false
  | inf true => nan
  | nan => nan

instance : Add (Fp α) := ⟨add⟩
instance : Sub (Fp α) := ⟨sub⟩
instance : Mul (Fp α) := ⟨mul⟩
instance : Div (Fp α) := ⟨div⟩

end Fp

/-! ## `gpu/openacc/discretization.c`: `check_solution` with the special values -/

namespace OpenACC.IEEE

variable {α : Type u} [LinearOrderedField α]

/-- The expression `poly_erf` of `check_solution`; the comparison `z < 1.5` is false
for a NaN. -/
def poly_erf (sqrt : α → α) (pi : α) (z : Fp α) : Fp α :=
  let z2 := z * z
  if Fp.lt z (Fp.fin (3 / 2)) then
    Fp.fin 2 * z * (Fp.fin 1 + z2 * (Fp.fin ((-1) / 3) + z2 * (Fp.fin (1 / 10)
      + z2 * (Fp.fin ((-1) / 42) + z2 / Fp.fin 216)))) / Fp.sqrt sqrt (Fp.fin pi)
  else Fp.fin 1

/-- The distance `r` to the left-wall source at cell `(j, i)`. -/
def r_left (sqrt : α → α) (ny : Int) (dx dy : Fp α) (nm j i : Int) : Fp α :=
  if j < cdiv ny 2 then dx * Fp.fin ((i - cdiv nm 2 : Int) : α)
  else Fp.sqrt sqrt
    (dx * dx * Fp.fin ((i - cdiv nm 2 : Int) : α) * Fp.fin ((i - cdiv nm 2 : Int) : α)
      + dy * dy * Fp.fin ((j - cdiv ny 2 : Int) : α) * Fp.fin ((j - cdiv ny 2 : Int) : α))

/-- The distance `r` to the right-wall source at cell `(j, i)`. -/
def r_right (sqrt : α → α) (nx ny : Int) (dx dy : Fp α) (nm j i : Int) : Fp α :=
  if j ≥ cdiv ny 2 then dx * Fp.fin ((nx - nm + 1 - i : Int) : α)
  else Fp.sqrt sqrt
    (dx * dx * Fp.fin ((nx - nm + 1 - i : Int) : α) * Fp.fin ((nx - nm + 1 - i : Int) : α)
      + dy * dy * Fp.fin ((cdiv ny 2 - j : Int) : α) * Fp.fin ((cdiv ny 2 - j : Int) : α))

/-- The left analytical value `cal` at cell `(j, i)`. -/
def cal (sqrt : α → α) (pi : α) (ny : Int) (dx dy : Fp α) (nm : Int) (elapsed D : Fp α)
    (bc : BCTable (Fp α)) (j i : Int) : Fp α :=
  let r := r_left sqrt ny dx dy nm j i
  let z := r / Fp.sqrt sqrt (Fp.fin 4 * D * elapsed)
  bc 1 0 * (Fp.fin 1 - poly_erf sqrt pi z)

/-- The right analytical value `car` at cell `(j, i)`. -/
def car (sqrt : α → α) (pi : α) (nx ny : Int) (dx dy : Fp α) (nm : Int) (elapsed D : Fp α)
    (bc : BCTable (Fp α)) (j i : Int) : Fp α :=
  let r := r_right sqrt nx ny dx dy nm j i
  let z := r / Fp.sqrt sqrt (Fp.fin 4 * D * elapsed)
  bc 1 0 * (Fp.fin 1 - poly_erf sqrt pi z)

/-- `check_solution` (OpenACC) with the special values followed through every
operation: the same loop nest and the same expressions as `OpenACC.check_solution`. -/
def check_solution (sqrt : α → α) (pi : α) (A : Buf (Fp α)) (nx ny : Int) (dx dy : Fp α)
    (nm : Int) (_bs : Int) (elapsed D : Fp α) (bc : BCTable (Fp α)) : Fp α :=
  forLoop (cdiv nm 2) (ny - cdiv nm 2) (fun j sum =>
    forLoop (cdiv nm 2) (nx - cdiv nm 2) (fun i sum =>
      let cn := A j i
      let ca := cal sqrt pi ny dx dy nm elapsed D bc j i
        + car sqrt pi nx ny dx dy nm elapsed D bc j i
      let trss := (ca - cn) * (ca - cn) / Fp.fin ((rss_divisor nx ny nm : Int) : α)
      sum + trss) sum) (Fp.fin 0)

end OpenACC.IEEE

/-! ## Specification vocabulary -/

/-- The number of interior cells: the number of iterations of the loop nest
`for (j = nm/2; j < ny-nm/2; j++) for (i = nm/2; i < nx-nm/2; i++)` shared by the
convolution, the update and the residual sum. -/
def interior_cells (nx ny nm : Int) : Int :=
  forLoop (cdiv nm 2) (ny - cdiv nm 2) (fun _ count =>
    forLoop (cdiv nm 2) (nx - cdiv nm 2) (fun _ count => count + 1) count) 0

/-- The smallest of the four boundary values. -/
def bc_min {α : Type u} [LinearOrder α] (bc : BCTable α) : α :=
  min (min (bc 0 0) (bc 0 1)) (min (bc 1 0) (bc 1 1))

/-- The largest of the four boundary values. -/
def bc_max {α : Type u} [LinearOrder α] (bc : BCTable α) : α :=
  max (max (bc 0 0) (bc 0 1)) (max (bc 1 0) (bc 1 1))

/-- The state at the entry of `solve_diffusion_equation`: the pointer `conc_old`
holds the caller's first buffer, `conc_new` the second. -/
def Serial.entry_state {α : Type u} (conc_old conc_new conc_lap : Buf α) (elapsed : α)
    (sw : Stopwatch α) (reads : Nat) : Serial.SolveState α :=
  { heap := fun b => match b with
      | BufId.A => conc_old
      | BufId.B => conc_new
    conc_lap := conc_lap
    conc_old := BufId.A
    conc_new := BufId.B
    elapsed := elapsed
    sw := sw
    reads := reads }

/-- The nearest interior index along one axis of length `n` with halo width `h`:
halo indices are sent to the first or last interior index. -/
def halo_clamp (h n k : Int) : Int :=
  if k < h then h else if n - h ≤ k then n - 1 - h else k

/-- The stencil sum in the words of the specification: the sum over `mj` and `mi` in
`[-nm/2, nm/2]` of `mask[mj+nm/2][mi+nm/2] * buf_in[j+mj][i+mi]`. -/
def stencil_sum {α : Type u} [Semiring α] (mask buf_in : Buf α) (nm j i : Int) : α :=
  ∑ mj in Finset.Icc (-(cdiv nm 2)) (cdiv nm 2),
    ∑ mi in Finset.Icc (-(cdiv nm 2)) (cdiv nm 2),
      mask (mj + cdiv nm 2) (mi + cdiv nm 2) * buf_in (j + mj) (i + mi)

/-- The cell `(j, i)` lies in the left half-wall region: rows `[0, ny/2)`, columns
`[0, 1+nm/2)`. -/
def in_left_wall (ny nm j i : Int) : Prop :=
  (0 ≤ j ∧ j < cdiv ny 2) ∧ (0 ≤ i ∧ i < 1 + cdiv nm 2)

instance (ny nm j i : Int) : Decidable (in_left_wall ny nm j i) := by
  unfold in_left_wall
  infer_instance

/-- The cell `(j, i)` lies in the right half-wall region: rows `[ny/2, ny)`, columns
`[nx-1-nm/2, nx)`. -/
def in_right_wall (nx ny nm j i : Int) : Prop :=
  (cdiv ny 2 ≤ j ∧ j < ny) ∧ (nx - 1 - cdiv nm 2 ≤ i ∧ i < nx)

instance (nx ny nm j i : Int) : Decidable (in_right_wall nx ny nm j i) := by
  unfold in_right_wall
  infer_instance

/-- The left/right no-flux copies of `apply_boundary_conditions` with the offsets
taken in decreasing order (`nm/2 - 1` first, `0` last).  The sources only contain the
increasing order (`Serial.noflux_columns`); this variant states what executing the
offsets out of order would compute. -/
def noflux_columns_decreasing {α : Type u} (conc : Buf α) (nx ny nm : Int) : Buf α :=
  forLoop 0 (cdiv nm 2) (fun k conc =>
    let offset := cdiv nm 2 - 1 - k
    let ilo := cdiv nm 2 - offset
    let ihi := nx - 1 - cdiv nm 2 + offset
    forLoop 0 ny (fun j conc =>
      let conc := conc.set j (ilo - 1) (conc j ilo)
      conc.set j (ihi + 1) (conc j ihi)) conc) conc

/-- The interior index pairs `(j, i)` in the row-major order of the serial loop nest
`for (j = nm/2; j < ny-nm/2; j++) for (i = nm/2; i < nx-nm/2; i++)`. -/
def interior_pairs (nx ny nm : Int) : List (Int × Int) :=
  (List.range (ny - cdiv nm 2 - cdiv nm 2).toNat).flatMap (fun (a : Nat) =>
    (List.range (nx - cdiv nm 2 - cdiv nm 2).toNat).map (fun (b : Nat) =>
      (cdiv nm 2 + (a : Int), cdiv nm 2 + (b : Int))))

/-- Perform the per-cell writes `out[j][i] = value j i` for the cells of a list, in
the order of the list. -/
def sweep {α : Type u} (cells : List (Int × Int)) (value : Int → Int → α) (out : Buf α) :
    Buf α :=
  cells.foldl (fun out c => out.set c.1 c.2 (value c.1 c.2)) out

/-- The polynomial inside `poly_erf`: the first five terms of the Maclaurin series of
`erf` without the factor `2/sqrt(pi)`, `z - z^3/3 + z^5/10 - z^7/42 + z^9/216`. -/
def maclaurin_erf5 {α : Type u} [Field α] (z : α) : α :=
  z - z ^ 3 / 3 + z ^ 5 / 10 - z ^ 7 / 42 + z ^ 9 / 216

section LoopLemmas

variable {α : Type u}

theorem cdiv_two_of_nonneg {a : Int} (h : 0 ≤ a) : cdiv a 2 = a / 2 := by
  unfold cdiv
  exact Int.tdiv_eq_ediv h (by decide)

theorem cdiv_two_nonpos {a : Int} (h : a ≤ 0) : cdiv a 2 ≤ 0 := by
  unfold cdiv
  have h1 : (-a).tdiv 2 = (-a) / 2 := Int.tdiv_eq_ediv (by omega) (by decide)
  have h2 : (-a).tdiv 2 = -(a.tdiv 2) := Int.neg_tdiv a 2
  omega

theorem forLoop_eq_self_of_le {σ : Type u} {lo hi : Int} (h : hi ≤ lo) (body : Int → σ → σ)
    (s : σ) : forLoop lo hi body s = s := by
  unfold forLoop
  have : (hi - lo).toNat = 0 := by omega
  rw [this]
  rfl

theorem buf_congr (c : Buf α) {j j' i i' : Int} (hj : j = j') (hi : i = i') :
    c j i = c j' i' := by
  rw [hj, hi]

/-- A loop whose iteration `k` only touches the cells of slice `k` (a row or a
column) and only depends on them: every iteration acts on the initial buffer. -/
theorem loopN_slice (slice : Int → Int → Int) (body : Int → Buf α → Buf α)
    (hframe : ∀ k (c : Buf α) j i, slice j i ≠ k → body k c j i = c j i)
    (hlocal : ∀ k (c c' : Buf α), (∀ j i, slice j i = k → c j i = c' j i) →
      ∀ j i, slice j i = k → body k c j i = body k c' j i)
    (lo : Int) (n : Nat) (c : Buf α) (j i : Int) :
    loopN lo body n c j i =
      if lo ≤ slice j i ∧ slice j i < lo + n then body (slice j i) c j i else c j i := by
  induction n generalizing j i with
  | zero =>
    have : ¬ (lo ≤ slice j i ∧ slice j i < lo + ((0 : Nat) : Int)) := by
      simp only [Nat.cast_zero, add_zero]; omega
    rw [if_neg this]; rfl
  | succ n ih =>
    show body (lo + n) (loopN lo body n c) j i = _
    by_cases hk : slice j i = lo + n
    · have h1 : lo ≤ slice j i ∧ slice j i < lo + ((n + 1 : Nat) : Int) := by
        push_cast; omega
      rw [if_pos h1, hk]
      apply hlocal _ _ _ _ _ _ hk
      intro j' i' hs
      rw [ih]
      have : ¬ (lo ≤ slice j' i' ∧ slice j' i' < lo + (n : Int)) := by omega
      rw [if_neg this]
    · rw [hframe _ _ _ _ hk, ih]
      have : (lo ≤ slice j i ∧ slice j i < lo + ((n + 1 : Nat) : Int)) ↔
          (lo ≤ slice j i ∧ slice j i < lo + (n : Int)) := by
        push_cast; omega
      simp only [this]

theorem forLoop_slice (slice : Int → Int → Int) (body : Int → Buf α → Buf α)
    (hframe : ∀ k (c : Buf α) j i, slice j i ≠ k → body k c j i = c j i)
    (hlocal : ∀ k (c c' : Buf α), (∀ j i, slice j i = k → c j i = c' j i) →
      ∀ j i, slice j i = k → body k c j i = body k c' j i)
    (lo hi : Int) (c : Buf α) (j i : Int) :
    forLoop lo hi body c j i =
      if lo ≤ slice j i ∧ slice j i < hi then body (slice j i) c j i else c j i := by
  unfold forLoop
  rw [loopN_slice slice body hframe hlocal]
  have : (lo ≤ slice j i ∧ slice j i < lo + ((hi - lo).toNat : Int)) ↔
      (lo ≤ slice j i ∧ slice j i < hi) := by omega
  simp only [this]

/-- A rectangular fill `for j in [jlo,jhi) for i in [ilo,ihi) c[j][i] = v j i`. -/
theorem fill_rect (v : Int → Int → α) (jlo jhi ilo ihi : Int) (c : Buf α) (j i : Int) :
    forLoop jlo jhi (fun j c => forLoop ilo ihi (fun i c => c.set j i (v j i)) c) c j i =
      if (jlo ≤ j ∧ j < jhi) ∧ (ilo ≤ i ∧ i < ihi) then v j i else c j i := by
  have inner : ∀ (j0 : Int) (c : Buf α) (j i : Int),
      forLoop ilo ihi (fun i c => c.set j0 i (v j0 i)) c j i =
        if (ilo ≤ i ∧ i < ihi) ∧ j = j0 then v j0 i else c j i := by
    intro j0 c j i
    rw [forLoop_slice (fun _ i => i)]
    · simp only [Buf.set]
      by_cases h1 : ilo ≤ i ∧ i < ihi <;> by_cases h2 : j = j0 <;> simp [h1, h2]
    · intro k c j i hk
      simp only [Buf.set]
      rw [if_neg]; intro h; exact hk h.2
    · intro k c c' hcc j i hk
      simp only [Buf.set]
      split
      · rfl
      · exact hcc j i hk
  rw [forLoop_slice (fun j _ => j)]
  · simp only [inner]
    by_cases h1 : jlo ≤ j ∧ j < jhi <;> by_cases h2 : ilo ≤ i ∧ i < ihi <;> simp [h1, h2]
  · intro k c j i hk
    rw [inner, if_neg]; intro h; exact hk h.2
  · intro k c c' hcc j i hk
    rw [inner, inner]
    split
    · rfl
    · exact hcc j i hk

end LoopLemmas

/-! ## Closed forms of the boundary passes -/

section BoundaryLemmas

variable {α : Type u}

theorem fixed_values_apply (conc : Buf α) (nx ny nm : Int) (bc : BCTable α) (j i : Int) :
    Serial.fixed_values conc nx ny nm bc j i =
      if (cdiv ny 2 ≤ j ∧ j < ny) ∧ (nx - 1 - cdiv nm 2 ≤ i ∧ i < nx) then bc 1 1
      else if (0 ≤ j ∧ j < cdiv ny 2) ∧ (0 ≤ i ∧ i < 1 + cdiv nm 2) then bc 1 0
      else conc j i := by
  unfold Serial.fixed_values
  rw [fill_rect (fun _ _ => bc 1 1), fill_rect (fun _ _ => bc 1 0)]

theorem apply_initial_conditions_apply (conc : Buf α) (nx ny nm : Int) (bc : BCTable α)
    (j i : Int) :
    Serial.apply_initial_conditions conc nx ny nm bc j i =
      if (cdiv ny 2 ≤ j ∧ j < ny) ∧ (nx - 1 - cdiv nm 2 ≤ i ∧ i < nx) then bc 1 1
      else if (0 ≤ j ∧ j < cdiv ny 2) ∧ (0 ≤ i ∧ i < 1 + cdiv nm 2) then bc 1 0
      else if (0 ≤ j ∧ j < ny) ∧ (0 ≤ i ∧ i < nx) then bc 0 0
      else conc j i := by
  unfold Serial.apply_initial_conditions
  rw [fixed_values_apply, fill_rect (fun _ _ => bc 0 0)]

/-- One offset of the left/right no-flux pass. -/
theorem column_step_apply (ilo ihi ny : Int) (hne : ilo - 1 ≠ ihi) (c : Buf α) (j i : Int) :
    forLoop 0 ny (fun j (conc : Buf α) =>
      let conc := conc.set j (ilo - 1) (conc j ilo)
      conc.set j (ihi + 1) (conc j ihi)) c j i =
      if 0 ≤ j ∧ j < ny then
        (if i = ihi + 1 then c j ihi else if i = ilo - 1 then c j ilo else c j i)
      else c j i := by
  rw [forLoop_slice (fun j _ => j)]
  · simp only [Buf.set]
    by_cases hj : 0 ≤ j ∧ j < ny
    · simp only [hj, and_self, if_true, true_and]
      have : ¬ ihi = ilo - 1 := fun h => hne h.symm
      simp only [this, if_false]
    · simp only [hj, if_false]
  · intro k c j i hk
    simp only [Buf.set]
    rw [if_neg (fun h => hk h.1), if_neg (fun h => hk h.1)]
  · intro k c c' hcc j i hk
    simp only [Buf.set, true_and]
    rw [hcc k ilo rfl, hcc k ihi rfl, hcc j i hk]

/-- One offset of the bottom/top no-flux pass. -/
theorem row_step_apply (jlo jhi nx : Int) (hne : jlo - 1 ≠ jhi) (c : Buf α) (j i : Int) :
    forLoop 0 nx (fun i (conc : Buf α) =>
      let conc := conc.set (jlo - 1) i (conc jlo i)
      conc.set (jhi + 1) i (conc jhi i)) c j i =
      if 0 ≤ i ∧ i < nx then
        (if j = jhi + 1 then c jhi i else if j = jlo - 1 then c jlo i else c j i)
      else c j i := by
  rw [forLoop_slice (fun _ i => i)]
  · simp only [Buf.set]
    by_cases hi : 0 ≤ i ∧ i < nx
    · simp only [hi, and_self, if_true, and_true]
      have : ¬ jhi = jlo - 1 := fun h => hne h.symm
      simp only [this, if_false]
    · simp only [hi, if_false]
  · intro k c j i hk
    simp only [Buf.set]
    rw [if_neg (fun h => hk h.2), if_neg (fun h => hk h.2)]
  · intro k c c' hcc j i hk
    simp only [Buf.set, and_true]
    rw [hcc jlo k rfl, hcc jhi k rfl, hcc j i hk]

/-- The left/right no-flux pass after `k` offsets. -/
theorem column_offsets_apply (nx ny h : Int) (hnx : 2 * h + 1 ≤ nx) (k : Nat)
    (hk : (k : Int) ≤ h) (c : Buf α) (j i : Int) :
    loopN 0 (fun offset (conc : Buf α) =>
      let ilo := h - offset
      let ihi := nx - 1 - h + offset
      forLoop 0 ny (fun j (conc : Buf α) =>
        let conc := conc.set j (ilo - 1) (conc j ilo)
        conc.set j (ihi + 1) (conc j ihi)) conc) k c j i =
      if 0 ≤ j ∧ j < ny then
        (if h - k ≤ i ∧ i < h then c j h
         else if nx - 1 - h < i ∧ i ≤ nx - 1 - h + k then c j (nx - 1 - h)
         else c j i)
      else c j i := by
  induction k generalizing j i with
  | zero =>
    show c j i = _
    have h1 : ¬ (h - ((0 : Nat) : Int) ≤ i ∧ i < h) := by push_cast; omega
    have h2 : ¬ (nx - 1 - h < i ∧ i ≤ nx - 1 - h + ((0 : Nat) : Int)) := by push_cast; omega
    simp only [h1, h2, if_false, ite_self]
  | succ k ih =>
    have hk' : (k : Int) ≤ h := by push_cast at hk; omega
    rw [loopN]
    simp only []
    rw [column_step_apply _ _ _ (by push_cast at hk; omega)]
    simp only [ih hk']
    push_cast
    by_cases hj : 0 ≤ j ∧ j < ny
    · simp only [hj, and_self, if_true]
      split_ifs <;> first | rfl | (congr 1; omega)
    · simp only [hj, if_false]

theorem noflux_columns_apply (conc : Buf α) (nx ny nm : Int) (hh : 0 ≤ cdiv nm 2)
    (hnx : 2 * cdiv nm 2 + 1 ≤ nx) (j i : Int) :
    Serial.noflux_columns conc nx ny nm j i =
      if 0 ≤ j ∧ j < ny then
        (if 0 ≤ i ∧ i < cdiv nm 2 then conc j (cdiv nm 2)
         else if nx - 1 - cdiv nm 2 < i ∧ i < nx then conc j (nx - 1 - cdiv nm 2)
         else conc j i)
      else conc j i := by
  unfold Serial.noflux_columns
  rw [forLoop]
  rw [column_offsets_apply nx ny (cdiv nm 2) hnx _ (by omega)]
  have e : (((cdiv nm 2 - 0).toNat : Nat) : Int) = cdiv nm 2 := by omega
  rw [e]
  by_cases hj : 0 ≤ j ∧ j < ny
  · simp only [hj, and_self, if_true]
    split_ifs <;> first | rfl | (exfalso; omega)
  · simp only [hj, if_false]

/-- The bottom/top no-flux pass after `k` offsets. -/
theorem row_offsets_apply (nx ny h : Int) (hny : 2 * h + 1 ≤ ny) (k : Nat)
    (hk : (k : Int) ≤ h) (c : Buf α) (j i : Int) :
    loopN 0 (fun offset (conc : Buf α) =>
      let jlo := h - offset
      let jhi := ny - 1 - h + offset
      forLoop 0 nx (fun i (conc : Buf α) =>
        let conc := conc.set (jlo - 1) i (conc jlo i)
        conc.set (jhi + 1) i (conc jhi i)) conc) k c j i =
      if 0 ≤ i ∧ i < nx then
        (if h - k ≤ j ∧ j < h then c h i
         else if ny - 1 - h < j ∧ j ≤ ny - 1 - h + k then c (ny - 1 - h) i
         else c j i)
      else c j i := by
  induction k generalizing j i with
  | zero =>
    show c j i = _
    have h1 : ¬ (h - ((0 : Nat) : Int) ≤ j ∧ j < h) := by push_cast; omega
    have h2 : ¬ (ny - 1 - h < j ∧ j ≤ ny - 1 - h + ((0 : Nat) : Int)) := by push_cast; omega
    simp only [h1, h2, if_false, ite_self]
  | succ k ih =>
    have hk' : (k : Int) ≤ h := by push_cast at hk; omega
    rw [loopN]
    simp only []
    rw [row_step_apply _ _ _ (by push_cast at hk; omega)]
    simp only [ih hk']
    push_cast
    by_cases hi : 0 ≤ i ∧ i < nx
    · simp only [hi, and_self, if_true]
      split_ifs <;> first | rfl | (congr 1; omega)
    · simp only [hi, if_false]

theorem noflux_rows_apply (conc : Buf α) (nx ny nm : Int) (hh : 0 ≤ cdiv nm 2)
    (hny : 2 * cdiv nm 2 + 1 ≤ ny) (j i : Int) :
    Serial.noflux_rows conc nx ny nm j i =
      if 0 ≤ i ∧ i < nx then
        (if 0 ≤ j ∧ j < cdiv nm 2 then conc (cdiv nm 2) i
         else if ny - 1 - cdiv nm 2 < j ∧ j < ny then conc (ny - 1 - cdiv nm 2) i
         else conc j i)
      else conc j i := by
  unfold Serial.noflux_rows
  rw [forLoop]
  rw [row_offsets_apply nx ny (cdiv nm 2) hny _ (by omega)]
  have e : (((cdiv nm 2 - 0).toNat : Nat) : Int) = cdiv nm 2 := by omega
  rw [e]
  by_cases hi : 0 ≤ i ∧ i < nx
  · simp only [hi, and_self, if_true]
    split_ifs <;> first | rfl | (exfalso; omega)
  · simp only [hi, if_false]

/-- Closed form of `apply_boundary_conditions` on a grid that can hold its halo:
a cell of the grid receives the fixed-value field at the nearest interior cell. -/
theorem apply_boundary_conditions_apply (conc : Buf α) (nx ny nm : Int) (bc : BCTable α)
    (hh : 0 ≤ cdiv nm 2) (hnx : 2 * cdiv nm 2 + 1 ≤ nx) (hny : 2 * cdiv nm 2 + 1 ≤ ny)
    (j i : Int) :
    Serial.apply_boundary_conditions conc nx ny nm bc j i =
      if (0 ≤ j ∧ j < ny) ∧ (0 ≤ i ∧ i < nx) then
        Serial.fixed_values conc nx ny nm bc
          (halo_clamp (cdiv nm 2) ny j) (halo_clamp (cdiv nm 2) nx i)
      else conc j i := by
  unfold Serial.apply_boundary_conditions
  rw [noflux_rows_apply _ _ _ _ hh hny]
  simp only [noflux_columns_apply _ _ _ _ hh hnx]
  have hny2 : cdiv ny 2 = ny / 2 := cdiv_two_of_nonneg (by omega)
  have hout : ∀ j' i', ¬ ((0 ≤ j' ∧ j' < ny) ∧ (0 ≤ i' ∧ i' < nx)) →
      Serial.fixed_values conc nx ny nm bc j' i' = conc j' i' := by
    intro j' i' hji
    rw [fixed_values_apply, if_neg (by omega), if_neg (by omega)]
  simp only [halo_clamp]
  split_ifs <;>
    first | rfl | (apply buf_congr <;> omega) | (apply hout; omega) | (exfalso; omega)

end BoundaryLemmas

/-! ## Properties of `apply_boundary_conditions` -/

section BoundaryClaims

variable {α : Type u}

theorem halo_width_of_odd {nm : Int} (hodd : Odd nm) (hnm : 1 ≤ nm) :
    0 ≤ cdiv nm 2 ∧ 2 * cdiv nm 2 + 1 = nm := by
  have h1 : cdiv nm 2 = nm / 2 := cdiv_two_of_nonneg (by omega)
  have h2 : nm % 2 = 1 := Int.odd_iff.mp hodd
  omega

theorem halo_clamp_interior {h n : Int} (hn : 2 * h + 1 ≤ n) (k : Int) :
    (h ≤ halo_clamp h n k ∧ halo_clamp h n k < n - h) ∧
      halo_clamp h n (halo_clamp h n k) = halo_clamp h n k := by
  simp only [halo_clamp]
  split_ifs <;> omega

/-- C1 (no-flux law). For odd `nm ≥ 3` and `nx, ny ≥ nm`, after one call of the serial
`apply_boundary_conditions` every halo cell of the grid equals its nearest interior
neighbour along the axis it borders: with `h = nm/2`, in every row the columns `i < h`
equal column `h` and the columns `i ≥ nx-h` equal column `nx-1-h`; in every column
the rows `j < h` equal row `h` and the rows `j ≥ ny-h` equal row `ny-1-h` (corner
cells included). -/
theorem noflux_law (conc : Buf α) (bc : BCTable α) (nx ny nm : Int)
    (hodd : Odd nm) (hnm : 3 ≤ nm) (hnx : nm ≤ nx) (hny : nm ≤ ny) :
    (∀ j i, 0 ≤ j → j < ny → 0 ≤ i → i < cdiv nm 2 →
      Serial.apply_boundary_conditions conc nx ny nm bc j i =
        Serial.apply_boundary_conditions conc nx ny nm bc j (cdiv nm 2)) ∧
    (∀ j i, 0 ≤ j → j < ny → nx - cdiv nm 2 ≤ i → i < nx →
      Serial.apply_boundary_conditions conc nx ny nm bc j i =
        Serial.apply_boundary_conditions conc nx ny nm bc j (nx - 1 - cdiv nm 2)) ∧
    (∀ j i, 0 ≤ i → i < nx → 0 ≤ j → j < cdiv nm 2 →
      Serial.apply_boundary_conditions conc nx ny nm bc j i =
        Serial.apply_boundary_conditions conc nx ny nm bc (cdiv nm 2) i) ∧
    (∀ j i, 0 ≤ i → i < nx → ny - cdiv nm 2 ≤ j → j < ny →
      Serial.apply_boundary_conditions conc nx ny nm bc j i =
        Serial.apply_boundary_conditions conc nx ny nm bc (ny - 1 - cdiv nm 2) i) := by
  obtain ⟨hh, hw⟩ := halo_width_of_odd hodd (by omega)
  have hx : 2 * cdiv nm 2 + 1 ≤ nx := by omega
  have hy : 2 * cdiv nm 2 + 1 ≤ ny := by omega
  refine ⟨?_, ?_, ?_, ?_⟩ <;> intro j i h1 h2 h3 h4 <;>
    rw [apply_boundary_conditions_apply _ _ _ _ _ hh hx hy,
      apply_boundary_conditions_apply _ _ _ _ _ hh hx hy,
      if_pos (by omega), if_pos (by omega)] <;>
    apply buf_congr <;> simp only [halo_clamp] <;> split_ifs <;> omega

/-- Witness of `noflux_law` on a 4 x 5 grid with `nm = 3`: the corner cell equals
its right neighbour and the cell above it. -/
theorem noflux_law_witness :
    (Odd (3 : Int) ∧ (3 : Int) ≤ 3 ∧ (3 : Int) ≤ 5 ∧ (3 : Int) ≤ 4) ∧
    Serial.apply_boundary_conditions (fun j i => 10 * j + i) 5 4 3
        (fun a b => 100 + 2 * (a : Int) + b) 0 0 =
      Serial.apply_boundary_conditions (fun j i => 10 * j + i) 5 4 3
        (fun a b => 100 + 2 * (a : Int) + b) 0 (cdiv 3 2) :=
  ⟨⟨by decide, by decide, by decide, by decide⟩,
    (noflux_law (fun j i => 10 * j + i) (fun a b => 100 + 2 * (a : Int) + b) 5 4 3
      (by decide) (by decide) (by decide) (by decide)).1 0 0
      (by decide) (by decide) (by decide) (by decide)⟩

/-- C2 as stated fails when the grid has exactly `nm` rows. On the 3 x 10 grid with
`nm = 3`, the table of `set_boundaries` and the buffer of `apply_initial_conditions`,
cell `(0,0)` lies in the left half-wall region but holds the background value `0`
after `apply_boundary_conditions`, not the source value `bc[1][0] = 1`: the bottom
no-flux copy overwrote it with row `1`. -/
theorem fixed_regions_counterexample :
    (Odd (3 : Int) ∧ (3 : Int) ≤ 3 ∧ (3 : Int) ≤ 10 ∧ (3 : Int) ≤ 3) ∧
    ((0 : Int) ≤ 0 ∧ (0 : Int) < cdiv 3 2 ∧ (0 : Int) ≤ 0 ∧ (0 : Int) < 1 + cdiv 3 2) ∧
    Serial.apply_boundary_conditions
      (Serial.apply_initial_conditions (fun _ _ => (0 : Int)) 10 3 3
        (Serial.set_boundaries (fun _ _ => 0)))
      10 3 3 (Serial.set_boundaries (fun _ _ => 0)) 0 0 = 0 ∧
    Serial.set_boundaries (fun _ _ => (0 : Int)) 1 0 = 1 ∧
    Serial.apply_boundary_conditions
      (Serial.apply_initial_conditions (fun _ _ => (0 : Int)) 10 3 3
        (Serial.set_boundaries (fun _ _ => 0)))
      10 3 3 (Serial.set_boundaries (fun _ _ => 0)) 0 0 ≠
        Serial.set_boundaries (fun _ _ => (0 : Int)) 1 0 := by
  decide

/-- C2 (amended: more rows than the stencil width). For odd `nm ≥ 3`, `nx ≥ nm` and
`ny > nm`, after one call of the serial `apply_boundary_conditions` every cell of the
left half-wall region (rows `[0, ny/2)`, columns `[0, 1+nm/2)`) equals `bc[1][0]` and
every cell of the right half-wall region (rows `[ny/2, ny)`, columns `[nx-1-nm/2, nx)`)
equals `bc[1][1]`. -/
theorem fixed_regions (conc : Buf α) (bc : BCTable α) (nx ny nm : Int)
    (hodd : Odd nm) (hnm : 3 ≤ nm) (hnx : nm ≤ nx) (hny : nm < ny) :
    (∀ j i, 0 ≤ j → j < cdiv ny 2 → 0 ≤ i → i < 1 + cdiv nm 2 →
      Serial.apply_boundary_conditions conc nx ny nm bc j i = bc 1 0) ∧
    (∀ j i, cdiv ny 2 ≤ j → j < ny → nx - 1 - cdiv nm 2 ≤ i → i < nx →
      Serial.apply_boundary_conditions conc nx ny nm bc j i = bc 1 1) := by
  obtain ⟨hh, hw⟩ := halo_width_of_odd hodd (by omega)
  have hx : 2 * cdiv nm 2 + 1 ≤ nx := by omega
  have hy : 2 * cdiv nm 2 + 1 ≤ ny := by omega
  have hny2 : cdiv ny 2 = ny / 2 := cdiv_two_of_nonneg (by omega)
  constructor <;> intro j i h1 h2 h3 h4 <;>
    rw [apply_boundary_conditions_apply _ _ _ _ _ hh hx hy, if_pos (by omega),
      fixed_values_apply] <;>
    simp only [halo_clamp] <;> split_ifs <;> first | rfl | (exfalso; omega)

/-- Witness of `fixed_regions`, the scenario of the specification: `nx = ny = 10`,
`nm = 3`, the table of `set_boundaries`, the buffer of `apply_initial_conditions`.
Cell `(j=0, i=0)` and cell `(j=9, i=9)` both hold `1`. -/
theorem fixed_regions_witness :
    (Odd (3 : Int) ∧ (3 : Int) ≤ 3 ∧ (3 : Int) ≤ 10 ∧ (3 : Int) < 10) ∧
    Serial.apply_boundary_conditions
      (Serial.apply_initial_conditions (fun _ _ => (0 : ℚ)) 10 10 3
        (Serial.set_boundaries (fun _ _ => 0)))
      10 10 3 (Serial.set_boundaries (fun _ _ => 0)) 0 0 = 1 ∧
    Serial.apply_boundary_conditions
      (Serial.apply_initial_conditions (fun _ _ => (0 : ℚ)) 10 10 3
        (Serial.set_boundaries (fun _ _ => 0)))
      10 10 3 (Serial.set_boundaries (fun _ _ => 0)) 9 9 = 1 :=
  ⟨⟨by decide, by decide, by decide, by decide⟩,
    (fixed_regions _ (Serial.set_boundaries (fun _ _ => (0 : ℚ))) 10 10 3
      (by decide) (by decide) (by decide) (by decide)).1 0 0
      (by decide) (by decide) (by decide) (by decide),
    (fixed_regions _ (Serial.set_boundaries (fun _ _ => (0 : ℚ))) 10 10 3
      (by decide) (by decide) (by decide) (by decide)).2 9 9
      (by decide) (by decide) (by decide) (by decide)⟩

theorem fixed_values_idem (conc : Buf α) (bc : BCTable α) (nx ny nm : Int) :
    Serial.fixed_values (Serial.fixed_values conc nx ny nm bc) nx ny nm bc =
      Serial.fixed_values conc nx ny nm bc := by
  funext j i
  rw [fixed_values_apply, fixed_values_apply]
  split_ifs <;> rfl

/-- C3 (idempotence). For every odd `nm` and all `nx, ny ≥ nm`, applying the serial
`apply_boundary_conditions` twice gives, at every cell, the same buffer as applying
it once. -/
theorem apply_boundary_conditions_idempotent (conc : Buf α) (bc : BCTable α)
    (nx ny nm : Int) (hodd : Odd nm) (hnx : nm ≤ nx) (hny : nm ≤ ny) (j i : Int) :
    Serial.apply_boundary_conditions
        (Serial.apply_boundary_conditions conc nx ny nm bc) nx ny nm bc j i =
      Serial.apply_boundary_conditions conc nx ny nm bc j i := by
  by_cases hpos : 1 ≤ nm
  · obtain ⟨hh, hw⟩ := halo_width_of_odd hodd hpos
    have hx : 2 * cdiv nm 2 + 1 ≤ nx := by omega
    have hy : 2 * cdiv nm 2 + 1 ≤ ny := by omega
    have hny2 : cdiv ny 2 = ny / 2 := cdiv_two_of_nonneg (by omega)
    rw [apply_boundary_conditions_apply _ _ _ _ _ hh hx hy,
      apply_boundary_conditions_apply _ _ _ _ _ hh hx hy]
    by_cases hin : (0 ≤ j ∧ j < ny) ∧ (0 ≤ i ∧ i < nx)
    · rw [if_pos hin]
      obtain ⟨hcj, hcj'⟩ := halo_clamp_interior hy j
      obtain ⟨hci, hci'⟩ := halo_clamp_interior hx i
      generalize halo_clamp (cdiv nm 2) ny j = cj at hcj hcj'
      generalize halo_clamp (cdiv nm 2) nx i = ci at hci hci'
      have e : Serial.apply_boundary_conditions conc nx ny nm bc cj ci =
          Serial.fixed_values conc nx ny nm bc cj ci := by
        rw [apply_boundary_conditions_apply _ _ _ _ _ hh hx hy, if_pos (by omega),
          hcj', hci']
      rw [fixed_values_apply, e, fixed_values_apply]
      split_ifs <;> rfl
    · rw [if_neg hin, if_neg hin]
  · have hle : cdiv nm 2 ≤ 0 := cdiv_two_nonpos (by omega)
    have e : ∀ c : Buf α, Serial.apply_boundary_conditions c nx ny nm bc =
        Serial.fixed_values c nx ny nm bc := by
      intro c
      unfold Serial.apply_boundary_conditions Serial.noflux_rows Serial.noflux_columns
      rw [forLoop_eq_self_of_le hle, forLoop_eq_self_of_le hle]
    rw [e, e, fixed_values_idem]

/-- Witness of `apply_boundary_conditions_idempotent` on the 3 x 10 grid with `nm = 3`
at the corner cell. -/
theorem apply_boundary_conditions_idempotent_witness :
    (Odd (3 : Int) ∧ (3 : Int) ≤ 10 ∧ (3 : Int) ≤ 3) ∧
    Serial.apply_boundary_conditions
        (Serial.apply_boundary_conditions (fun j i => 10 * j + i) 10 3 3
          (fun a b => 100 + 2 * (a : Int) + b)) 10 3 3
          (fun a b => 100 + 2 * (a : Int) + b) 0 0 =
      Serial.apply_boundary_conditions (fun j i => 10 * j + i) 10 3 3
        (fun a b => 100 + 2 * (a : Int) + b) 0 0 :=
  ⟨⟨by decide, by decide, by decide⟩,
    apply_boundary_conditions_idempotent (fun j i => 10 * j + i)
      (fun a b => 100 + 2 * (a : Int) + b) 10 3 3 (by decide) (by decide) (by decide) 0 0⟩

end BoundaryClaims

/-! ## Convolution and stencils -/

section ConvolutionLemmas

variable {α : Type u}

theorem cdiv_three : cdiv 3 2 = 1 := by decide

theorem cdiv_neg_three : cdiv (-3) 2 = -1 := by decide

/-- Closed form of the serial `compute_convolution`. -/
theorem serial_compute_convolution_apply [Semiring α] (conc_old conc_lap mask_lap : Buf α)
    (nx ny nm j i : Int) :
    Serial.compute_convolution conc_old conc_lap mask_lap nx ny nm j i =
      if (cdiv nm 2 ≤ j ∧ j < ny - cdiv nm 2) ∧ (cdiv nm 2 ≤ i ∧ i < nx - cdiv nm 2) then
        Serial.stencil_value conc_old mask_lap nm j i
      else conc_lap j i := by
  unfold Serial.compute_convolution
  rw [fill_rect (fun j i => Serial.stencil_value conc_old mask_lap nm j i)]

/-- Closed form of the OpenACC `compute_convolution`. -/
theorem openacc_compute_convolution_apply [Semiring α] (A C M : Buf α)
    (nx ny nm bs j i : Int) :
    OpenACC.compute_convolution A C M nx ny nm bs j i =
      if (cdiv nm 2 ≤ j ∧ j < ny - cdiv nm 2) ∧ (cdiv nm 2 ≤ i ∧ i < nx - cdiv nm 2) then
        OpenACC.stencil_value A M nm j i
      else C j i := by
  unfold OpenACC.compute_convolution
  rw [fill_rect (fun j i => OpenACC.stencil_value A M nm j i)]

/-- Closed form of the euler loop nest. -/
theorem euler_update_apply [Semiring α] (conc_old conc_new conc_lap : Buf α)
    (nx ny nm : Int) (D dt : α) (j i : Int) :
    Serial.euler_update conc_old conc_new conc_lap nx ny nm D dt j i =
      if (cdiv nm 2 ≤ j ∧ j < ny - cdiv nm 2) ∧ (cdiv nm 2 ≤ i ∧ i < nx - cdiv nm 2) then
        conc_old j i + dt * D * conc_lap j i
      else conc_new j i := by
  unfold Serial.euler_update
  rw [fill_rect (fun j i => conc_old j i + dt * D * conc_lap j i)]

/-- Both back ends accumulate the same stencil sum. -/
theorem serial_stencil_value_eq [Semiring α] (conc_old mask_lap : Buf α) (nm j i : Int) :
    Serial.stencil_value conc_old mask_lap nm j i =
      OpenACC.stencil_value conc_old mask_lap nm j i := by
  unfold Serial.stencil_value OpenACC.stencil_value
  rw [add_comm (cdiv nm 2) 1]

/-- The 3 x 3 stencil sum, term by term in the order of the loops. -/
theorem openacc_stencil_value_three [Semiring α] (A M : Buf α) (j i : Int) :
    OpenACC.stencil_value A M 3 j i =
      M 0 0 * A (j + -1) (i + -1) + M 0 1 * A (j + -1) i + M 0 2 * A (j + -1) (i + 1) +
      M 1 0 * A j (i + -1) + M 1 1 * A j i + M 1 2 * A j (i + 1) +
      M 2 0 * A (j + 1) (i + -1) + M 2 1 * A (j + 1) i + M 2 2 * A (j + 1) (i + 1) := by
  simp [OpenACC.stencil_value, forLoop, loopN, cdiv_three, cdiv_neg_three]

/-- An accumulation loop is additive in the accumulated terms. -/
theorem loopN_additive [AddCommMonoid α] (F Fa Fb : Int → α → α)
    (h : ∀ k x y, F k (x + y) = Fa k x + Fb k y) (lo : Int) (n : Nat) (x y : α) :
    loopN lo F n (x + y) = loopN lo Fa n x + loopN lo Fb n y := by
  induction n with
  | zero => rfl
  | succ n ih =>
    show F (lo + n) (loopN lo F n (x + y)) = Fa (lo + n) _ + Fb (lo + n) _
    rw [ih, h]

theorem serial_stencil_value_add [Semiring α] (a b mask_lap : Buf α) (nm j i : Int) :
    Serial.stencil_value (fun j i => a j i + b j i) mask_lap nm j i =
      Serial.stencil_value a mask_lap nm j i + Serial.stencil_value b mask_lap nm j i := by
  unfold Serial.stencil_value forLoop
  have h0 : (0 : α) = 0 + 0 := (add_zero 0).symm
  conv_lhs => rw [h0]
  apply loopN_additive
  intro mj x y
  apply loopN_additive
  intro mi x y
  rw [mul_add]
  abel

end ConvolutionLemmas

section ConvolutionClaims

variable {α : Type u}

/-- C5 (linearity of the convolution). For every mask, every `nm`, `nx`, `ny` (in
particular odd `nm` and `nx, ny ≥ nm`) and any two input buffers `a` and `b`, the
serial `compute_convolution` applied to the cell-wise sum `a + b` writes, at every
interior cell, the sum of what it writes for `a` and for `b`, whatever the output
buffers held before. -/
theorem compute_convolution_linear [Semiring α] (a b mask_lap out out_a out_b : Buf α)
    (nx ny nm j i : Int)
    (hj : cdiv nm 2 ≤ j ∧ j < ny - cdiv nm 2) (hi : cdiv nm 2 ≤ i ∧ i < nx - cdiv nm 2) :
    Serial.compute_convolution (fun j i => a j i + b j i) out mask_lap nx ny nm j i =
      Serial.compute_convolution a out_a mask_lap nx ny nm j i +
        Serial.compute_convolution b out_b mask_lap nx ny nm j i := by
  rw [serial_compute_convolution_apply, serial_compute_convolution_apply,
    serial_compute_convolution_apply, if_pos ⟨hj, hi⟩, if_pos ⟨hj, hi⟩, if_pos ⟨hj, hi⟩,
    serial_stencil_value_add]

/-- Witness of `compute_convolution_linear` on a 5 x 5 grid with `nm = 3` at the
interior cell `(2, 2)`. -/
theorem compute_convolution_linear_witness :
    ((cdiv 3 2 ≤ 2 ∧ (2 : Int) < 5 - cdiv 3 2) ∧ (cdiv 3 2 ≤ 2 ∧ (2 : Int) < 5 - cdiv 3 2)) ∧
    Serial.compute_convolution (fun j i => (10 * j + i) + (j * i)) (fun _ _ => 0)
        (fun mj mi => mj - 2 * mi) 5 5 3 2 2 =
      Serial.compute_convolution (fun j i => 10 * j + i) (fun _ _ => 7)
          (fun mj mi => mj - 2 * mi) 5 5 3 2 2 +
        Serial.compute_convolution (fun j i => j * i) (fun _ _ => 9)
          (fun mj mi => mj - 2 * mi) 5 5 3 2 2 :=
  ⟨by decide,
    compute_convolution_linear (fun j i => 10 * j + i) (fun j i => j * i)
      (fun mj mi => mj - 2 * mi) (fun _ _ => 0) (fun _ _ => 7) (fun _ _ => 9) 5 5 3 2 2
      (by decide) (by decide)⟩

/-- C6 over exact arithmetic (zero Laplacian of a constant field, five-point). When the
operations of `fp_t` are taken without rounding, in any ordered field: for all
`dx, dy > 0` and every spatially constant input buffer, the OpenACC
`compute_convolution` with `nm = 3` and the mask written by
`five_point_Laplacian_stencil` on a zero-initialised table writes exactly `0` to every
interior cell; the five written coefficients sum to `0` and the four corner entries,
never assigned, are `0`. -/
theorem five_point_constant_field [LinearOrderedField α] (dx dy value : α) (C : Buf α)
    (nx ny bs : Int) (hdx : 0 < dx) (hdy : 0 < dy) :
    (∀ j i, (cdiv 3 2 ≤ j ∧ j < ny - cdiv 3 2) → (cdiv 3 2 ≤ i ∧ i < nx - cdiv 3 2) →
      OpenACC.compute_convolution (fun _ _ => value) C
        (OpenACC.five_point_Laplacian_stencil dx dy (fun _ _ => 0)) nx ny 3 bs j i = 0) ∧
    (OpenACC.five_point_Laplacian_stencil dx dy (fun _ _ => 0) 0 1 +
      OpenACC.five_point_Laplacian_stencil dx dy (fun _ _ => 0) 1 0 +
      OpenACC.five_point_Laplacian_stencil dx dy (fun _ _ => 0) 1 1 +
      OpenACC.five_point_Laplacian_stencil dx dy (fun _ _ => 0) 1 2 +
      OpenACC.five_point_Laplacian_stencil dx dy (fun _ _ => 0) 2 1 = 0) ∧
    (OpenACC.five_point_Laplacian_stencil dx dy (fun _ _ => 0) 0 0 = 0 ∧
      OpenACC.five_point_Laplacian_stencil dx dy (fun _ _ => 0) 0 2 = 0 ∧
      OpenACC.five_point_Laplacian_stencil dx dy (fun _ _ => 0) 2 0 = 0 ∧
      OpenACC.five_point_Laplacian_stencil dx dy (fun _ _ => 0) 2 2 = 0) := by
  have hx : dx ≠ 0 := ne_of_gt hdx
  have hy : dy ≠ 0 := ne_of_gt hdy
  refine ⟨?_, ?_, ?_⟩
  · intro j i hj hi
    rw [openacc_compute_convolution_apply, if_pos ⟨hj, hi⟩, openacc_stencil_value_three]
    simp [OpenACC.five_point_Laplacian_stencil, Buf.set]
    field_simp
    ring
  · simp [OpenACC.five_point_Laplacian_stencil, Buf.set]
    field_simp
    ring
  · simp [OpenACC.five_point_Laplacian_stencil, Buf.set]

/-- Witness of `five_point_constant_field`: `dx = dy = 1/2`, the constant field `3`
on a 5 x 5 grid, interior cell `(2, 2)`. -/
theorem five_point_constant_field_witness :
    ((0 : ℚ) < 1 / 2 ∧ (0 : ℚ) < 1 / 2) ∧
    OpenACC.compute_convolution (fun _ _ => (3 : ℚ)) (fun _ _ => 7)
      (OpenACC.five_point_Laplacian_stencil (1 / 2) (1 / 2) (fun _ _ => 0)) 5 5 3 32 2 2 = 0 :=
  ⟨⟨by norm_num, by norm_num⟩,
    (five_point_constant_field (1 / 2 : ℚ) (1 / 2) 3 (fun _ _ => 7) 5 5 32
      (by norm_num) (by norm_num)).1 2 2 (by decide) (by decide)⟩

/-- Without rounding the stencil and the convolution with rounded operations are the
exact ones. -/
theorem rounded_id_eq_exact {α : Type u} [Field α] (dx dy : α) (A C M : Buf α)
    (nx ny nm bs : Int) :
    OpenACC.Rounded.five_point_Laplacian_stencil id dx dy M =
      OpenACC.five_point_Laplacian_stencil dx dy M ∧
    OpenACC.Rounded.compute_convolution id A C M nx ny nm bs =
      OpenACC.compute_convolution A C M nx ny nm bs :=
  ⟨rfl, rfl⟩

/-- The rounding of a number with a 53-bit significand is the number itself, and the
decimal constant `1.1` is rounded to `2476979795053773 / 2^51`. -/
theorem binary64_round_values :
    Binary64.round 1 = 1 ∧ Binary64.round 3 = 3 ∧ Binary64.round (-2) = -2 ∧
    Binary64.round (1 / 2 ^ 51) = 1 / 2 ^ 51 ∧
    Binary64.round (11 / 10) = 2476979795053773 / 2 ^ 51 ∧
    Binary64.round (1 / 10) = 3602879701896397 / 2 ^ 55 ∧
    Binary64.round (1 / 3) = 6004799503160661 / 2 ^ 54 ∧
    Binary64.round (2 ^ 53 + 1) = 2 ^ 53 ∧ Binary64.round (2 ^ 53 + 3) = 2 ^ 53 + 4 := by
  decide!

/-- C6 fails on the code in binary64. With `dx = dy = 1.1` (the binary64 number nearest
to `11/10`) the five stored coefficients are `232623947694757 / 2^48` four times and
`-7443966326232223 / 2^51`; their exact sum is `2^-51` and `compute_convolution`, every
product and sum rounded, writes `2^-51` (about `4.4e-16`) at the interior cell `(2, 2)`
of the constant field `1`.  With `dx = 0.1`, `dy = 0.3` and the constant field `3` it
writes `-7 / 2^46` (about `-9.9e-14`), and with the exactly representable `dx = 1`,
`dy = 3` and the constant field `1` it writes `-2^-54`. -/
theorem five_point_constant_field_counterexample :
    OpenACC.Rounded.compute_convolution Binary64.round (fun _ _ => 1) (fun _ _ => 0)
      (OpenACC.Rounded.five_point_Laplacian_stencil Binary64.round (Binary64.round (11 / 10))
        (Binary64.round (11 / 10)) (fun _ _ => 0)) 5 5 3 32 2 2 = 1 / 2 ^ 51 ∧
    (OpenACC.Rounded.five_point_Laplacian_stencil Binary64.round (Binary64.round (11 / 10))
        (Binary64.round (11 / 10)) (fun _ _ => 0) 0 1 = 232623947694757 / 2 ^ 48 ∧
      OpenACC.Rounded.five_point_Laplacian_stencil Binary64.round (Binary64.round (11 / 10))
        (Binary64.round (11 / 10)) (fun _ _ => 0) 1 0 = 232623947694757 / 2 ^ 48 ∧
      OpenACC.Rounded.five_point_Laplacian_stencil Binary64.round (Binary64.round (11 / 10))
        (Binary64.round (11 / 10)) (fun _ _ => 0) 1 1 = -7443966326232223 / 2 ^ 51 ∧
      OpenACC.Rounded.five_point_Laplacian_stencil Binary64.round (Binary64.round (11 / 10))
        (Binary64.round (11 / 10)) (fun _ _ => 0) 1 2 = 232623947694757 / 2 ^ 48 ∧
      OpenACC.Rounded.five_point_Laplacian_stencil Binary64.round (Binary64.round (11 / 10))
        (Binary64.round (11 / 10)) (fun _ _ => 0) 2 1 = 232623947694757 / 2 ^ 48) ∧
    (232623947694757 / 2 ^ 48 + 232623947694757 / 2 ^ 48 + -7443966326232223 / 2 ^ 51 +
      232623947694757 / 2 ^ 48 + 232623947694757 / 2 ^ 48 : ℚ) = 1 / 2 ^ 51 ∧
    OpenACC.Rounded.compute_convolution Binary64.round (fun _ _ => 3) (fun _ _ => 0)
      (OpenACC.Rounded.five_point_Laplacian_stencil Binary64.round (Binary64.round (1 / 10))
        (Binary64.round (3 / 10)) (fun _ _ => 0)) 5 5 3 32 2 2 = -7 / 2 ^ 46 ∧
    OpenACC.Rounded.compute_convolution Binary64.round (fun _ _ => 1) (fun _ _ => 0)
      (OpenACC.Rounded.five_point_Laplacian_stencil Binary64.round 1 3 (fun _ _ => 0))
      5 5 3 32 2 2 = -1 / 2 ^ 54 := by
  refine ⟨by decide!, by decide!, by norm_num, by decide!, by decide!⟩

/-- The sum of the nine coefficients written by `nine_point_Laplacian_stencil`. -/
theorem nine_point_sum [LinearOrderedField α] (dx dy : α) (M : Buf α)
    (hdx : 0 < dx) (hdy : 0 < dy) :
    OpenACC.nine_point_Laplacian_stencil dx dy M 0 0 +
      OpenACC.nine_point_Laplacian_stencil dx dy M 0 1 +
      OpenACC.nine_point_Laplacian_stencil dx dy M 0 2 +
      OpenACC.nine_point_Laplacian_stencil dx dy M 1 0 +
      OpenACC.nine_point_Laplacian_stencil dx dy M 1 1 +
      OpenACC.nine_point_Laplacian_stencil dx dy M 1 2 +
      OpenACC.nine_point_Laplacian_stencil dx dy M 2 0 +
      OpenACC.nine_point_Laplacian_stencil dx dy M 2 1 +
      OpenACC.nine_point_Laplacian_stencil dx dy M 2 2 =
      -((dx - dy) ^ 2) / (3 * dx ^ 2 * dy ^ 2) := by
  have hx : dx ≠ 0 := ne_of_gt hdx
  have hy : dy ≠ 0 := ne_of_gt hdy
  simp [OpenACC.nine_point_Laplacian_stencil, Buf.set]
  field_simp
  ring

/-- C7 fails on the code. With `dx = 1`, `dy = 2` the nine coefficients written by
`nine_point_Laplacian_stencil` sum to `-1/12`, and `compute_convolution` with this mask
writes `-1/12` at the interior cell `(2, 2)` of the constant field `1`. -/
theorem nine_point_constant_field_nonzero :
    OpenACC.nine_point_Laplacian_stencil (1 : ℚ) 2 (fun _ _ => 0) 0 0 +
      OpenACC.nine_point_Laplacian_stencil (1 : ℚ) 2 (fun _ _ => 0) 0 1 +
      OpenACC.nine_point_Laplacian_stencil (1 : ℚ) 2 (fun _ _ => 0) 0 2 +
      OpenACC.nine_point_Laplacian_stencil (1 : ℚ) 2 (fun _ _ => 0) 1 0 +
      OpenACC.nine_point_Laplacian_stencil (1 : ℚ) 2 (fun _ _ => 0) 1 1 +
      OpenACC.nine_point_Laplacian_stencil (1 : ℚ) 2 (fun _ _ => 0) 1 2 +
      OpenACC.nine_point_Laplacian_stencil (1 : ℚ) 2 (fun _ _ => 0) 2 0 +
      OpenACC.nine_point_Laplacian_stencil (1 : ℚ) 2 (fun _ _ => 0) 2 1 +
      OpenACC.nine_point_Laplacian_stencil (1 : ℚ) 2 (fun _ _ => 0) 2 2 = -1 / 12 ∧
    OpenACC.compute_convolution (fun _ _ => (1 : ℚ)) (fun _ _ => 0)
      (OpenACC.nine_point_Laplacian_stencil 1 2 (fun _ _ => 0)) 5 5 3 32 2 2 = -1 / 12 := by
  constructor
  · simp [OpenACC.nine_point_Laplacian_stencil, Buf.set]
    norm_num
  · rw [openacc_compute_convolution_apply, if_pos (by decide), openacc_stencil_value_three]
    simp [OpenACC.nine_point_Laplacian_stencil, Buf.set]
    norm_num

end ConvolutionClaims

/-! ## The analytical validator -/

section ValidatorClaims

theorem loopN_count (lo : Int) (n : Nat) (c x : Int) :
    loopN lo (fun _ count => count + c) n x = x + n * c := by
  induction n with
  | zero => simp [loopN]
  | succ n ih =>
    show loopN lo (fun _ count => count + c) n x + c = _
    rw [ih]; push_cast; ring

/-- The loop nest over the interior visits `(nx - 2*(nm/2)) * (ny - 2*(nm/2))` cells. -/
theorem interior_cells_eq (nx ny nm : Int) (hx : 2 * cdiv nm 2 ≤ nx)
    (hy : 2 * cdiv nm 2 ≤ ny) :
    interior_cells nx ny nm = (nx - 2 * cdiv nm 2) * (ny - 2 * cdiv nm 2) := by
  unfold interior_cells forLoop
  have inner : ∀ count : Int,
      loopN (cdiv nm 2) (fun _ count => count + 1) (nx - cdiv nm 2 - cdiv nm 2).toNat count =
        count + (nx - 2 * cdiv nm 2) := by
    intro count
    rw [loopN_count]
    have : (((nx - cdiv nm 2 - cdiv nm 2).toNat : Nat) : Int) = nx - 2 * cdiv nm 2 := by omega
    rw [this]; ring
  simp only [inner]
  rw [loopN_count]
  have : (((ny - cdiv nm 2 - cdiv nm 2).toNat : Nat) : Int) = ny - 2 * cdiv nm 2 := by omega
  rw [this]; ring

/-- For the three-wide stencil the serial divisor is the number of interior cells. -/
theorem serial_rss_divisor_three (nx ny : Int) (hx : 3 ≤ nx) (hy : 3 ≤ ny) :
    Serial.rss_divisor nx ny 3 = interior_cells nx ny 3 := by
  rw [interior_cells_eq nx ny 3 (by rw [cdiv_three]; omega) (by rw [cdiv_three]; omega)]
  unfold Serial.rss_divisor
  rw [cdiv_three]; ring

/-- The OpenACC divisor is the number of interior cells for every odd `nm`. -/
theorem openacc_rss_divisor_eq (nx ny nm : Int) (hodd : Odd nm) (hnm : 1 ≤ nm)
    (hx : nm ≤ nx) (hy : nm ≤ ny) :
    OpenACC.rss_divisor nx ny nm = interior_cells nx ny nm := by
  obtain ⟨hh, hw⟩ := halo_width_of_odd hodd hnm
  rw [interior_cells_eq nx ny nm (by omega) (by omega)]
  unfold OpenACC.rss_divisor
  have e1 : nx - nm + 1 = nx - 2 * cdiv nm 2 := by omega
  have e2 : ny - nm + 1 = ny - 2 * cdiv nm 2 := by omega
  rw [e1, e2]

/-- The weighted squared residual that the serial `check_solution` stores in an
interior cell of `conc_lap`. -/
theorem serial_check_solution_cell {α : Type u} [Field α]
    (distance_point_to_segment : α → α → α → α → α → α → α)
    (analytical_value : α → α → α → BCTable α → α)
    (conc_new conc_lap : Buf α) (nx ny : Int) (dx dy : α) (nm : Int) (elapsed D : α)
    (bc : BCTable α) (j i : Int)
    (hj : cdiv nm 2 ≤ j ∧ j < ny - cdiv nm 2) (hi : cdiv nm 2 ≤ i ∧ i < nx - cdiv nm 2) :
    (Serial.check_solution distance_point_to_segment analytical_value conc_new conc_lap
        nx ny dx dy nm elapsed D bc).1 j i =
      (analytical_value (distance_point_to_segment
            (dx * ((cdiv nm 2 : Int) : α)) (dy * ((cdiv nm 2 : Int) : α))
            (dx * ((cdiv nm 2 : Int) : α)) (dy * ((cdiv ny 2 : Int) : α))
            (dx * ((i : Int) : α)) (dy * ((j : Int) : α))) elapsed D bc +
          analytical_value (distance_point_to_segment
            (dx * ((nx - 1 - cdiv nm 2 : Int) : α)) (dy * ((cdiv ny 2 : Int) : α))
            (dx * ((nx - 1 - cdiv nm 2 : Int) : α)) (dy * ((ny - 1 - cdiv nm 2 : Int) : α))
            (dx * ((i : Int) : α)) (dy * ((j : Int) : α))) elapsed D bc - conc_new j i) *
        (analytical_value (distance_point_to_segment
            (dx * ((cdiv nm 2 : Int) : α)) (dy * ((cdiv nm 2 : Int) : α))
            (dx * ((cdiv nm 2 : Int) : α)) (dy * ((cdiv ny 2 : Int) : α))
            (dx * ((i : Int) : α)) (dy * ((j : Int) : α))) elapsed D bc +
          analytical_value (distance_point_to_segment
            (dx * ((nx - 1 - cdiv nm 2 : Int) : α)) (dy * ((cdiv ny 2 : Int) : α))
            (dx * ((nx - 1 - cdiv nm 2 : Int) : α)) (dy * ((ny - 1 - cdiv nm 2 : Int) : α))
            (dx * ((i : Int) : α)) (dy * ((j : Int) : α))) elapsed D bc - conc_new j i) /
        ((Serial.rss_divisor nx ny nm : Int) : α) := by
  unfold Serial.check_solution
  simp only []
  rw [fill_rect, if_pos ⟨hj, hi⟩]

/-- C9 fails on the code for `nm = 5`. On the 10 x 10 grid the serial `check_solution`
divides every squared residual by `(nx-1-nm/2)*(ny-1-nm/2) = 49`, while the loops sum
over `(nx-2*(nm/2))*(ny-2*(nm/2)) = 36` interior cells; the OpenACC divisor
`(nx-nm+1)*(ny-nm+1)` is `36`.  With helpers returning the analytical value `1` for
each source and a numerical field `0`, every interior cell has the squared residual
`4` and `check_solution` stores `4/49` for it. -/
theorem serial_rss_divisor_five :
    Serial.rss_divisor 10 10 5 = 49 ∧ interior_cells 10 10 5 = 36 ∧
    (10 - 2 * cdiv 5 2) * (10 - 2 * cdiv 5 2) = 36 ∧ OpenACC.rss_divisor 10 10 5 = 36 ∧
    (Serial.check_solution (fun _ _ _ _ _ _ => (0 : ℚ)) (fun _ _ _ _ => 1)
      (fun _ _ => 0) (fun _ _ => 0) 10 10 (1 / 2) (1 / 2) 5 1 1
      (Serial.set_boundaries (fun _ _ => 0))).1 2 2 = 4 / 49 := by
  refine ⟨by decide, by decide, by decide, by decide, ?_⟩
  rw [serial_check_solution_cell _ _ _ _ _ _ _ _ _ _ _ _ _ _ (by decide) (by decide)]
  have h : Serial.rss_divisor 10 10 5 = 49 := by decide
  rw [h]
  norm_num

/-- C10 does not hold for every table. With `bc[1][0] = 1`, `bc[1][1] = 2` on the
10 x 10 grid (`nm = 3`, `dx = dy = 1/2`, `D = elapsed = 1`), at the interior cell
`(j, i) = (5, 8)`, where the distance to the right source is `0`, the OpenACC
`check_solution` computes the right analytical value `car = 1 = bc[1][0]`, whereas
`bc[1][1] * (1 - erf_approx(z_right)) = 2`. -/
theorem openacc_source_values_counterexample :
    OpenACC.car Real.sqrt Real.pi 10 10 (1 / 2) (1 / 2) 3 1 1
      (fun a b => if a = 0 then 0 else if b = 0 then 1 else 2) 5 8 = 1 ∧
    (fun a b => if a = 0 then (0 : ℝ) else if b = 0 then 1 else 2 : BCTable ℝ) 1 1 *
      (1 - OpenACC.poly_erf Real.sqrt Real.pi
        (OpenACC.r_right Real.sqrt 10 10 (1 / 2) (1 / 2) 3 5 8 / Real.sqrt (4 * 1 * 1))) = 2 ∧
    OpenACC.car Real.sqrt Real.pi 10 10 (1 / 2) (1 / 2) 3 1 1
      (fun a b => if a = 0 then 0 else if b = 0 then 1 else 2) 5 8 ≠
    (fun a b => if a = 0 then (0 : ℝ) else if b = 0 then 1 else 2 : BCTable ℝ) 1 1 *
      (1 - OpenACC.poly_erf Real.sqrt Real.pi
        (OpenACC.r_right Real.sqrt 10 10 (1 / 2) (1 / 2) 3 5 8 / Real.sqrt (4 * 1 * 1))) := by
  have h5 : cdiv 10 2 = 5 := by decide
  have hr : OpenACC.r_right Real.sqrt 10 10 (1 / 2 : ℝ) (1 / 2) 3 5 8 = 0 := by
    simp [OpenACC.r_right, h5]
  have hp : OpenACC.poly_erf Real.sqrt Real.pi (0 : ℝ) = 0 := by
    simp [OpenACC.poly_erf]
  have h1 : OpenACC.car Real.sqrt Real.pi 10 10 (1 / 2) (1 / 2) 3 1 1
      (fun a b => if a = 0 then 0 else if b = 0 then 1 else 2) 5 8 = 1 := by
    simp only [OpenACC.car, hr, zero_div, hp]
    norm_num
  have h2 : (fun a b => if a = 0 then (0 : ℝ) else if b = 0 then 1 else 2 : BCTable ℝ) 1 1 *
      (1 - OpenACC.poly_erf Real.sqrt Real.pi
        (OpenACC.r_right Real.sqrt 10 10 (1 / 2) (1 / 2) 3 5 8 / Real.sqrt (4 * 1 * 1))) = 2 := by
    rw [hr, zero_div, hp]
    norm_num
  refine ⟨h1, h2, ?_⟩
  rw [h1, h2]
  norm_num

/-- C10 for the tables whose two source entries agree. In the OpenACC `check_solution`,
for every table with `bc[1][1] = bc[1][0]`, at every cell the left analytical value is
`bc[1][0] * (1 - poly_erf(z_left))` and the right analytical value is
`bc[1][1] * (1 - poly_erf(z_right))`, and the returned sum runs over the interior cells
with these two values; the table written by `set_boundaries` is such a table.  The
code reads `bc[1][0]` for both sources. -/
theorem openacc_source_values {α : Type u} [LinearOrderedField α] (sqrt : α → α) (pi : α)
    (A : Buf α) (nx ny nm bs : Int) (dx dy elapsed D : α) (bc : BCTable α)
    (hbc : bc 1 1 = bc 1 0) :
    (∀ j i, OpenACC.cal sqrt pi ny dx dy nm elapsed D bc j i =
      bc 1 0 * (1 - OpenACC.poly_erf sqrt pi
        (OpenACC.r_left sqrt ny dx dy nm j i / sqrt (4 * D * elapsed)))) ∧
    (∀ j i, OpenACC.car sqrt pi nx ny dx dy nm elapsed D bc j i =
      bc 1 1 * (1 - OpenACC.poly_erf sqrt pi
        (OpenACC.r_right sqrt nx ny dx dy nm j i / sqrt (4 * D * elapsed)))) ∧
    OpenACC.check_solution sqrt pi A nx ny dx dy nm bs elapsed D bc =
      forLoop (cdiv nm 2) (ny - cdiv nm 2) (fun j sum =>
        forLoop (cdiv nm 2) (nx - cdiv nm 2) (fun i sum =>
          sum +
            (bc 1 0 * (1 - OpenACC.poly_erf sqrt pi
                (OpenACC.r_left sqrt ny dx dy nm j i / sqrt (4 * D * elapsed))) +
              bc 1 1 * (1 - OpenACC.poly_erf sqrt pi
                (OpenACC.r_right sqrt nx ny dx dy nm j i / sqrt (4 * D * elapsed))) -
              A j i) *
            (bc 1 0 * (1 - OpenACC.poly_erf sqrt pi
                (OpenACC.r_left sqrt ny dx dy nm j i / sqrt (4 * D * elapsed))) +
              bc 1 1 * (1 - OpenACC.poly_erf sqrt pi
                (OpenACC.r_right sqrt nx ny dx dy nm j i / sqrt (4 * D * elapsed))) -
              A j i) /
            ((OpenACC.rss_divisor nx ny nm : Int) : α)) sum) 0 ∧
    (OpenACC.set_boundaries bc 1 1 = OpenACC.set_boundaries bc 1 0 ∧
      OpenACC.set_boundaries bc 1 0 = 1) := by
  refine ⟨fun _ _ => rfl, fun _ _ => ?_, ?_, rfl, rfl⟩
  · rw [hbc]
    rfl
  · unfold OpenACC.check_solution OpenACC.cal OpenACC.car
    rw [hbc]

/-- Witness of `openacc_source_values`: the table of `set_boundaries` on the 10 x 10
grid, `nm = 3`, `dx = dy = 1/2`, `D = elapsed = 1`, at the interior cell `(5, 8)`. -/
theorem openacc_source_values_witness :
    OpenACC.set_boundaries (fun _ _ => (0 : ℝ)) 1 1 =
      OpenACC.set_boundaries (fun _ _ => (0 : ℝ)) 1 0 ∧
    OpenACC.car Real.sqrt Real.pi 10 10 (1 / 2) (1 / 2) 3 1 1
        (OpenACC.set_boundaries (fun _ _ => (0 : ℝ))) 5 8 =
      OpenACC.set_boundaries (fun _ _ => (0 : ℝ)) 1 1 *
        (1 - OpenACC.poly_erf Real.sqrt Real.pi
          (OpenACC.r_right Real.sqrt 10 10 (1 / 2) (1 / 2) 3 5 8 / Real.sqrt (4 * 1 * 1))) :=
  ⟨rfl,
    (openacc_source_values Real.sqrt Real.pi (fun _ _ => 0) 10 10 3 32 (1 / 2) (1 / 2) 1 1
      (OpenACC.set_boundaries (fun _ _ => (0 : ℝ))) rfl).2.1 5 8⟩

end ValidatorClaims

/-! ## The time-stepping loop and the maximum principle -/

/-- After the boundary conditions every cell of the grid satisfies a property that
holds of the interior cells and of the two source values. -/
theorem apply_boundary_conditions_forall {α : Type u} (P : α → Prop) (conc : Buf α)
    (nx ny nm : Int) (bc : BCTable α) (hh : 0 ≤ cdiv nm 2) (hnx : 2 * cdiv nm 2 + 1 ≤ nx)
    (hny : 2 * cdiv nm 2 + 1 ≤ ny) (h10 : P (bc 1 0)) (h11 : P (bc 1 1))
    (hin : ∀ j i, (cdiv nm 2 ≤ j ∧ j < ny - cdiv nm 2) →
      (cdiv nm 2 ≤ i ∧ i < nx - cdiv nm 2) → P (conc j i))
    (j i : Int) (hj : 0 ≤ j ∧ j < ny) (hi : 0 ≤ i ∧ i < nx) :
    P (Serial.apply_boundary_conditions conc nx ny nm bc j i) := by
  rw [apply_boundary_conditions_apply _ _ _ _ _ hh hnx hny, if_pos ⟨hj, hi⟩,
    fixed_values_apply]
  split_ifs
  · exact h11
  · exact h10
  · exact hin _ _ (halo_clamp_interior hny j).1 (halo_clamp_interior hnx i).1

section MaximumPrinciple

variable {α : Type u} [LinearOrderedField α]

theorem stability_weights (dx dy D linStab dt : α) (hdx : 0 < dx) (hdy : 0 < dy) (hD : 0 < D)
    (hl1 : linStab < 1) (hdt0 : 0 < dt)
    (hdt : dt ≤ linStab * (min dx dy) ^ 2 / (4 * D)) :
    0 ≤ dt * D / (dx * dx) ∧ 0 ≤ dt * D / (dy * dy) ∧
      2 * (dt * D / (dx * dx)) + 2 * (dt * D / (dy * dy)) ≤ 1 := by
  have hm0 : 0 < min dx dy := lt_min hdx hdy
  have hmx : min dx dy ≤ dx := min_le_left _ _
  have hmy : min dx dy ≤ dy := min_le_right _ _
  have hmx2 : (min dx dy) ^ 2 ≤ dx * dx := by nlinarith
  have hmy2 : (min dx dy) ^ 2 ≤ dy * dy := by nlinarith
  have hdtD : dt * D ≤ linStab * (min dx dy) ^ 2 / 4 := by
    have h1 := mul_le_mul_of_nonneg_right hdt hD.le
    have e : linStab * (min dx dy) ^ 2 / (4 * D) * D = linStab * (min dx dy) ^ 2 / 4 := by
      field_simp; ring
    rw [e] at h1; exact h1
  have hx2 : 0 < dx * dx := mul_pos hdx hdx
  have hy2 : 0 < dy * dy := mul_pos hdy hdy
  have hl0 : 0 ≤ linStab := by
    by_contra hneg
    have : linStab * (min dx dy) ^ 2 < 0 :=
      mul_neg_of_neg_of_pos (not_le.mp hneg) (by positivity)
    have h2 : 0 < dt * D := mul_pos hdt0 hD
    linarith
  have ha : dt * D / (dx * dx) ≤ linStab / 4 := by
    rw [div_le_iff₀ hx2]
    nlinarith
  have hb : dt * D / (dy * dy) ≤ linStab / 4 := by
    rw [div_le_iff₀ hy2]
    nlinarith
  exact ⟨by positivity, by positivity, by linarith⟩

theorem euler_five_point_eq (dx dy D dt x0 xu xd xl xr : α) (hdx : 0 < dx) (hdy : 0 < dy) :
    x0 + dt * D * (1 / (dy * dy) * xu + 1 / (dx * dx) * xl +
        (-2) * (dx * dx + dy * dy) / (dx * dx * dy * dy) * x0 + 1 / (dx * dx) * xr +
        1 / (dy * dy) * xd) =
      (1 - (2 * (dt * D / (dx * dx)) + 2 * (dt * D / (dy * dy)))) * x0 +
        dt * D / (dx * dx) * xl + dt * D / (dx * dx) * xr +
        dt * D / (dy * dy) * xu + dt * D / (dy * dy) * xd := by
  have hx : dx ≠ 0 := ne_of_gt hdx
  have hy : dy ≠ 0 := ne_of_gt hdy
  field_simp
  ring

theorem convex_five (a b lo hi x0 xu xd xl xr : α) (ha : 0 ≤ a) (hb : 0 ≤ b)
    (hab : 2 * a + 2 * b ≤ 1)
    (h0 : lo ≤ x0 ∧ x0 ≤ hi) (hu : lo ≤ xu ∧ xu ≤ hi) (hd : lo ≤ xd ∧ xd ≤ hi)
    (hl : lo ≤ xl ∧ xl ≤ hi) (hr : lo ≤ xr ∧ xr ≤ hi) :
    lo ≤ (1 - (2 * a + 2 * b)) * x0 + a * xl + a * xr + b * xu + b * xd ∧
      (1 - (2 * a + 2 * b)) * x0 + a * xl + a * xr + b * xu + b * xd ≤ hi := by
  have hw : 0 ≤ 1 - (2 * a + 2 * b) := by linarith
  constructor
  · nlinarith [mul_nonneg hw (sub_nonneg.mpr h0.1), mul_nonneg ha (sub_nonneg.mpr hl.1),
      mul_nonneg ha (sub_nonneg.mpr hr.1), mul_nonneg hb (sub_nonneg.mpr hu.1),
      mul_nonneg hb (sub_nonneg.mpr hd.1)]
  · nlinarith [mul_nonneg hw (sub_nonneg.mpr h0.2), mul_nonneg ha (sub_nonneg.mpr hl.2),
      mul_nonneg ha (sub_nonneg.mpr hr.2), mul_nonneg hb (sub_nonneg.mpr hu.2),
      mul_nonneg hb (sub_nonneg.mpr hd.2)]

theorem bc_bounds (bc : BCTable α) (a b : Fin 2) : bc_min bc ≤ bc a b ∧ bc a b ≤ bc_max bc := by
  unfold bc_min bc_max
  fin_cases a <;> fin_cases b <;> simp

theorem five_point_entries (dx dy : α) (M : Buf α) :
    OpenACC.five_point_Laplacian_stencil dx dy M 0 0 = M 0 0 ∧
    OpenACC.five_point_Laplacian_stencil dx dy M 0 1 = 1 / (dy * dy) ∧
    OpenACC.five_point_Laplacian_stencil dx dy M 0 2 = M 0 2 ∧
    OpenACC.five_point_Laplacian_stencil dx dy M 1 0 = 1 / (dx * dx) ∧
    OpenACC.five_point_Laplacian_stencil dx dy M 1 1 =
      (-2) * (dx * dx + dy * dy) / (dx * dx * dy * dy) ∧
    OpenACC.five_point_Laplacian_stencil dx dy M 1 2 = 1 / (dx * dx) ∧
    OpenACC.five_point_Laplacian_stencil dx dy M 2 0 = M 2 0 ∧
    OpenACC.five_point_Laplacian_stencil dx dy M 2 1 = 1 / (dy * dy) ∧
    OpenACC.five_point_Laplacian_stencil dx dy M 2 2 = M 2 2 := by
  simp [OpenACC.five_point_Laplacian_stencil, Buf.set]

/-- The buffer that the local pointer `conc_old` designates after one iteration is
the one written by the explicit-Euler update. -/
theorem solve_iteration_current (GetTimer : Nat → α) (mask_lap : Buf α) (nx ny nm : Int)
    (bc : BCTable α) (D dt : α) (s : Serial.SolveState α) :
    (Serial.solve_iteration GetTimer mask_lap nx ny nm bc D dt s).heap
        (Serial.solve_iteration GetTimer mask_lap nx ny nm bc D dt s).conc_old =
      Serial.euler_update
        (Serial.apply_boundary_conditions (s.heap s.conc_old) nx ny nm bc)
        (Function.update s.heap s.conc_old
          (Serial.apply_boundary_conditions (s.heap s.conc_old) nx ny nm bc) s.conc_new)
        (Serial.compute_convolution
          (Serial.apply_boundary_conditions (s.heap s.conc_old) nx ny nm bc)
          s.conc_lap mask_lap nx ny nm)
        nx ny nm D dt := by
  simp [Serial.solve_iteration, Serial.swap_pointers]

/-- One iteration keeps the interior of the current buffer between the extreme
boundary values. -/
theorem solve_iteration_bounded (GetTimer : Nat → α) (M : Buf α) (nx ny : Int)
    (bc : BCTable α) (dx dy D linStab dt : α) (hnx : 3 ≤ nx) (hny : 3 ≤ ny)
    (hdx : 0 < dx) (hdy : 0 < dy) (hD : 0 < D) (hl1 : linStab < 1) (hdt0 : 0 < dt)
    (hdt : dt ≤ linStab * (min dx dy) ^ 2 / (4 * D))
    (hM : M 0 0 = 0 ∧ M 0 2 = 0 ∧ M 2 0 = 0 ∧ M 2 2 = 0)
    (s : Serial.SolveState α)
    (hs : ∀ j i, (1 ≤ j ∧ j < ny - 1) → (1 ≤ i ∧ i < nx - 1) →
      bc_min bc ≤ s.heap s.conc_old j i ∧ s.heap s.conc_old j i ≤ bc_max bc)
    (j i : Int) (hj : 1 ≤ j ∧ j < ny - 1) (hi : 1 ≤ i ∧ i < nx - 1) :
    bc_min bc ≤
        (Serial.solve_iteration GetTimer (OpenACC.five_point_Laplacian_stencil dx dy M)
          nx ny 3 bc D dt s).heap
          (Serial.solve_iteration GetTimer (OpenACC.five_point_Laplacian_stencil dx dy M)
            nx ny 3 bc D dt s).conc_old j i ∧
      (Serial.solve_iteration GetTimer (OpenACC.five_point_Laplacian_stencil dx dy M)
          nx ny 3 bc D dt s).heap
          (Serial.solve_iteration GetTimer (OpenACC.five_point_Laplacian_stencil dx dy M)
            nx ny 3 bc D dt s).conc_old j i ≤ bc_max bc := by
  have hall : ∀ j i, (0 ≤ j ∧ j < ny) → (0 ≤ i ∧ i < nx) →
      bc_min bc ≤ Serial.apply_boundary_conditions (s.heap s.conc_old) nx ny 3 bc j i ∧
        Serial.apply_boundary_conditions (s.heap s.conc_old) nx ny 3 bc j i ≤ bc_max bc := by
    intro j i hj hi
    apply apply_boundary_conditions_forall (fun x => bc_min bc ≤ x ∧ x ≤ bc_max bc)
      _ _ _ _ _ (by rw [cdiv_three]; omega) (by rw [cdiv_three]; omega)
      (by rw [cdiv_three]; omega) (bc_bounds bc 1 0) (bc_bounds bc 1 1) _ j i hj hi
    intro j i hj hi
    rw [cdiv_three] at hj hi
    exact hs j i hj hi
  obtain ⟨ha, hb, hab⟩ := stability_weights dx dy D linStab dt hdx hdy hD hl1 hdt0 hdt
  obtain ⟨e00, e01, e02, e10, e11, e12, e20, e21, e22⟩ := five_point_entries dx dy M
  rw [solve_iteration_current, euler_update_apply, if_pos (by rw [cdiv_three]; exact ⟨hj, hi⟩),
    serial_compute_convolution_apply, if_pos (by rw [cdiv_three]; exact ⟨hj, hi⟩),
    serial_stencil_value_eq, openacc_stencil_value_three,
    e00, e01, e02, e10, e11, e12, e20, e21, e22, hM.1, hM.2.1, hM.2.2.1, hM.2.2.2]
  simp only [zero_mul, add_zero, zero_add]
  rw [euler_five_point_eq _ _ _ _ _ _ _ _ _ hdx hdy]
  exact convex_five _ _ _ _ _ _ _ _ _ ha hb hab (hall _ _ (by omega) (by omega))
    (hall _ _ (by omega) (by omega)) (hall _ _ (by omega) (by omega))
    (hall _ _ (by omega) (by omega)) (hall _ _ (by omega) (by omega))

/-- C4 (numerical maximum principle). Let `nm = 3`, `nx, ny ≥ 3`, `dx, dy > 0`,
`D > 0`, the mask be the five-point Laplacian stencil written on a table whose four
corner entries are `0`, `0 < linStab < 1` and `0 < dt ≤ linStab * min(dx,dy)^2 / (4 D)`.
Starting from the buffer produced by `apply_initial_conditions` (the other buffer,
`conc_lap`, the clock and the stopwatch being arbitrary), after any number `n ≥ 0` of
iterations of the loop of `solve_diffusion_equation` every interior cell of the most
recently written buffer, the one the pointer `conc_old` designates after the swap,
lies between the smallest and the largest boundary value. -/
theorem maximum_principle (GetTimer : Nat → α) (M conc0 conc_new conc_lap : Buf α)
    (nx ny : Int) (bc : BCTable α) (dx dy D linStab dt elapsed : α) (sw : Stopwatch α)
    (reads : Nat) (n : Nat) (hnx : 3 ≤ nx) (hny : 3 ≤ ny)
    (hdx : 0 < dx) (hdy : 0 < dy) (hD : 0 < D) (hl0 : 0 < linStab) (hl1 : linStab < 1)
    (hdt0 : 0 < dt) (hdt : dt ≤ linStab * (min dx dy) ^ 2 / (4 * D))
    (hM : M 0 0 = 0 ∧ M 0 2 = 0 ∧ M 2 0 = 0 ∧ M 2 2 = 0)
    (j i : Int) (hj : 1 ≤ j ∧ j < ny - 1) (hi : 1 ≤ i ∧ i < nx - 1) :
    bc_min bc ≤
        (Serial.solve_diffusion_equation GetTimer
          (OpenACC.five_point_Laplacian_stencil dx dy M) nx ny 3 bc D dt n
          (Serial.entry_state (Serial.apply_initial_conditions conc0 nx ny 3 bc)
            conc_new conc_lap elapsed sw reads)).heap
          (Serial.solve_diffusion_equation GetTimer
            (OpenACC.five_point_Laplacian_stencil dx dy M) nx ny 3 bc D dt n
            (Serial.entry_state (Serial.apply_initial_conditions conc0 nx ny 3 bc)
              conc_new conc_lap elapsed sw reads)).conc_old j i ∧
      (Serial.solve_diffusion_equation GetTimer
          (OpenACC.five_point_Laplacian_stencil dx dy M) nx ny 3 bc D dt n
          (Serial.entry_state (Serial.apply_initial_conditions conc0 nx ny 3 bc)
            conc_new conc_lap elapsed sw reads)).heap
          (Serial.solve_diffusion_equation GetTimer
            (OpenACC.five_point_Laplacian_stencil dx dy M) nx ny 3 bc D dt n
            (Serial.entry_state (Serial.apply_initial_conditions conc0 nx ny 3 bc)
              conc_new conc_lap elapsed sw reads)).conc_old j i ≤ bc_max bc := by
  have _ := hl0
  unfold Serial.solve_diffusion_equation forLoop
  have hn : ((n : Int) - 0).toNat = n := by omega
  rw [hn]
  have inv : ∀ k : Nat, ∀ j i, (1 ≤ j ∧ j < ny - 1) → (1 ≤ i ∧ i < nx - 1) →
      bc_min bc ≤
        (loopN 0 (fun _check s => Serial.solve_iteration GetTimer
          (OpenACC.five_point_Laplacian_stencil dx dy M) nx ny 3 bc D dt s) k
          (Serial.entry_state (Serial.apply_initial_conditions conc0 nx ny 3 bc)
            conc_new conc_lap elapsed sw reads)).heap
          (loopN 0 (fun _check s => Serial.solve_iteration GetTimer
            (OpenACC.five_point_Laplacian_stencil dx dy M) nx ny 3 bc D dt s) k
            (Serial.entry_state (Serial.apply_initial_conditions conc0 nx ny 3 bc)
              conc_new conc_lap elapsed sw reads)).conc_old j i ∧
      (loopN 0 (fun _check s => Serial.solve_iteration GetTimer
          (OpenACC.five_point_Laplacian_stencil dx dy M) nx ny 3 bc D dt s) k
          (Serial.entry_state (Serial.apply_initial_conditions conc0 nx ny 3 bc)
            conc_new conc_lap elapsed sw reads)).heap
          (loopN 0 (fun _check s => Serial.solve_iteration GetTimer
            (OpenACC.five_point_Laplacian_stencil dx dy M) nx ny 3 bc D dt s) k
            (Serial.entry_state (Serial.apply_initial_conditions conc0 nx ny 3 bc)
              conc_new conc_lap elapsed sw reads)).conc_old j i ≤ bc_max bc := by
    intro k
    induction k with
    | zero =>
      intro j i _ _
      show bc_min bc ≤ Serial.apply_initial_conditions conc0 nx ny 3 bc j i ∧
        Serial.apply_initial_conditions conc0 nx ny 3 bc j i ≤ bc_max bc
      rw [apply_initial_conditions_apply]
      split_ifs
      · exact bc_bounds bc 1 1
      · exact bc_bounds bc 1 0
      · exact bc_bounds bc 0 0
      · exfalso; omega
    | succ k ih =>
      intro j i hj hi
      rw [loopN]
      exact solve_iteration_bounded GetTimer M nx ny bc dx dy D linStab dt hnx hny hdx hdy hD
        hl1 hdt0 hdt hM _ ih j i hj hi
  exact inv n j i hj hi

/-- Witness of `maximum_principle`, the scenario of the specification: `nx = ny = 10`,
`dx = dy = 1/2`, `D = 1/160`, `linStab = 1/10`, `dt = 1` (the stability bound), the
table of `set_boundaries`, three iterations, interior cell `(1, 1)`. -/
theorem maximum_principle_witness :
    ((3 : Int) ≤ 10 ∧ (0 : ℚ) < 1 / 2 ∧ (0 : ℚ) < 1 / 160 ∧ (0 : ℚ) < 1 / 10 ∧
      (1 / 10 : ℚ) < 1 ∧ (0 : ℚ) < 1 ∧
      (1 : ℚ) ≤ 1 / 10 * (min (1 / 2) (1 / 2)) ^ 2 / (4 * (1 / 160))) ∧
    (bc_min (Serial.set_boundaries (fun _ _ => (0 : ℚ))) ≤
        (Serial.solve_diffusion_equation (fun k => (k : ℚ))
          (OpenACC.five_point_Laplacian_stencil (1 / 2) (1 / 2) (fun _ _ => 0)) 10 10 3
          (Serial.set_boundaries (fun _ _ => 0)) (1 / 160) 1 (3 : Nat)
          (Serial.entry_state
            (Serial.apply_initial_conditions (fun _ _ => 0) 10 10 3
              (Serial.set_boundaries (fun _ _ => 0)))
            (fun _ _ => 5) (fun _ _ => 0) 0 ⟨0, 0, 0, 0⟩ 0)).heap
          (Serial.solve_diffusion_equation (fun k => (k : ℚ))
            (OpenACC.five_point_Laplacian_stencil (1 / 2) (1 / 2) (fun _ _ => 0)) 10 10 3
            (Serial.set_boundaries (fun _ _ => 0)) (1 / 160) 1 (3 : Nat)
            (Serial.entry_state
              (Serial.apply_initial_conditions (fun _ _ => 0) 10 10 3
                (Serial.set_boundaries (fun _ _ => 0)))
              (fun _ _ => 5) (fun _ _ => 0) 0 ⟨0, 0, 0, 0⟩ 0)).conc_old 1 1 ∧
      (Serial.solve_diffusion_equation (fun k => (k : ℚ))
          (OpenACC.five_point_Laplacian_stencil (1 / 2) (1 / 2) (fun _ _ => 0)) 10 10 3
          (Serial.set_boundaries (fun _ _ => 0)) (1 / 160) 1 (3 : Nat)
          (Serial.entry_state
            (Serial.apply_initial_conditions (fun _ _ => 0) 10 10 3
              (Serial.set_boundaries (fun _ _ => 0)))
            (fun _ _ => 5) (fun _ _ => 0) 0 ⟨0, 0, 0, 0⟩ 0)).heap
          (Serial.solve_diffusion_equation (fun k => (k : ℚ))
            (OpenACC.five_point_Laplacian_stencil (1 / 2) (1 / 2) (fun _ _ => 0)) 10 10 3
            (Serial.set_boundaries (fun _ _ => 0)) (1 / 160) 1 (3 : Nat)
            (Serial.entry_state
              (Serial.apply_initial_conditions (fun _ _ => 0) 10 10 3
                (Serial.set_boundaries (fun _ _ => 0)))
              (fun _ _ => 5) (fun _ _ => 0) 0 ⟨0, 0, 0, 0⟩ 0)).conc_old 1 1 ≤
        bc_max (Serial.set_boundaries (fun _ _ => (0 : ℚ)))) :=
  ⟨⟨by decide, by norm_num, by norm_num, by norm_num, by norm_num, by norm_num,
      by norm_num⟩,
    maximum_principle (fun k => (k : ℚ)) (fun _ _ => 0) (fun _ _ => 0) (fun _ _ => 5)
      (fun _ _ => 0) 10 10 (Serial.set_boundaries (fun _ _ => 0)) (1 / 2) (1 / 2) (1 / 160)
      (1 / 10) 1 0 ⟨0, 0, 0, 0⟩ 0 3 (by decide) (by decide) (by norm_num) (by norm_num)
      (by norm_num) (by norm_num) (by norm_num) (by norm_num) (by norm_num)
      ⟨rfl, rfl, rfl, rfl⟩ 1 1 (by decide) (by decide)⟩

end MaximumPrinciple

/-! ## The OpenACC boundary kernel against the serial boundary conditions -/

section BoundaryKernel

variable {α : Type u}

/-- The interleaved no-flux pass after `k` offsets: outside the grid nothing changed,
and inside the band of half-width `k` around the interior every cell holds the initial
value of its nearest interior cell. -/
theorem interleaved_offsets_apply (nx ny h : Int) (hnx : 2 * h + 1 ≤ nx)
    (hny : 2 * h + 1 ≤ ny) (k : Nat) (hk : (k : Int) ≤ h) (c : Buf α) :
    (∀ j i, ¬ ((0 ≤ j ∧ j < ny) ∧ (0 ≤ i ∧ i < nx)) →
      loopN 0 (fun offset (conc : Buf α) =>
        let ilo := h - offset
        let ihi := nx - 1 - h + offset
        let jlo := h - offset
        let jhi := ny - 1 - h + offset
        let conc := forLoop 0 ny (fun j (conc : Buf α) =>
          let conc := conc.set j (ilo - 1) (conc j ilo)
          conc.set j (ihi + 1) (conc j ihi)) conc
        forLoop 0 nx (fun i (conc : Buf α) =>
          let conc := conc.set (jlo - 1) i (conc jlo i)
          conc.set (jhi + 1) i (conc jhi i)) conc) k c j i = c j i) ∧
    (∀ j i, (h - k ≤ j ∧ j < ny - h + k) → (h - k ≤ i ∧ i < nx - h + k) →
      loopN 0 (fun offset (conc : Buf α) =>
        let ilo := h - offset
        let ihi := nx - 1 - h + offset
        let jlo := h - offset
        let jhi := ny - 1 - h + offset
        let conc := forLoop 0 ny (fun j (conc : Buf α) =>
          let conc := conc.set j (ilo - 1) (conc j ilo)
          conc.set j (ihi + 1) (conc j ihi)) conc
        forLoop 0 nx (fun i (conc : Buf α) =>
          let conc := conc.set (jlo - 1) i (conc jlo i)
          conc.set (jhi + 1) i (conc jhi i)) conc) k c j i =
        c (halo_clamp h ny j) (halo_clamp h nx i)) := by
  induction k with
  | zero =>
    constructor
    · intro j i _; rfl
    · intro j i hj hi
      show c j i = _
      apply buf_congr <;> simp only [halo_clamp] <;> split_ifs <;> push_cast at * <;> omega
  | succ k ih =>
    have hk' : (k : Int) ≤ h := by push_cast at hk; omega
    have hk1 : (k : Int) + 1 ≤ h := by push_cast at hk; omega
    obtain ⟨ihout, ihin⟩ := ih hk'
    constructor
    · intro j i hji
      rw [loopN]
      simp only []
      rw [row_step_apply _ _ _ (by omega)]
      simp only [column_step_apply _ _ _ (show h - (0 + (k : Int)) - 1 ≠ nx - 1 - h + (0 + (k : Int))
        by omega)]
      split_ifs <;> first | (exfalso; omega) | (apply ihout; omega)
    · intro j i hj hi
      push_cast at hj hi
      have hne : h - (0 + (k : Int)) - 1 ≠ nx - 1 - h + (0 + (k : Int)) := by omega
      have hX : ∀ j0 i0, (h - k ≤ j0 ∧ j0 < ny - h + k) → (h - k - 1 ≤ i0 ∧ i0 < nx - h + k + 1) →
          forLoop 0 ny (fun j (conc : Buf α) =>
            let conc := conc.set j (h - (0 + (k : Int)) - 1) (conc j (h - (0 + (k : Int))))
            conc.set j (nx - 1 - h + (0 + (k : Int)) + 1) (conc j (nx - 1 - h + (0 + (k : Int)))))
            (loopN 0 (fun offset (conc : Buf α) =>
              let ilo := h - offset
              let ihi := nx - 1 - h + offset
              let jlo := h - offset
              let jhi := ny - 1 - h + offset
              let conc := forLoop 0 ny (fun j (conc : Buf α) =>
                let conc := conc.set j (ilo - 1) (conc j ilo)
                conc.set j (ihi + 1) (conc j ihi)) conc
              forLoop 0 nx (fun i (conc : Buf α) =>
                let conc := conc.set (jlo - 1) i (conc jlo i)
                conc.set (jhi + 1) i (conc jhi i)) conc) k c) j0 i0 =
            c (halo_clamp h ny j0) (halo_clamp h nx i0) := by
        intro j0 i0 hj0 hi0
        rw [column_step_apply _ _ _ hne, if_pos (by omega)]
        by_cases h1 : i0 = nx - 1 - h + (0 + (k : Int)) + 1
        · rw [if_pos h1, ihin _ _ hj0 (by omega)]
          exact buf_congr c rfl (by simp only [halo_clamp]; split_ifs <;> omega)
        · rw [if_neg h1]
          by_cases h2 : i0 = h - (0 + (k : Int)) - 1
          · rw [if_pos h2, ihin _ _ hj0 (by omega)]
            exact buf_congr c rfl (by simp only [halo_clamp]; split_ifs <;> omega)
          · rw [if_neg h2, ihin _ _ hj0 (by omega)]
      rw [loopN]
      simp only []
      rw [row_step_apply _ _ _ (by omega), if_pos (by omega)]
      by_cases h1 : j = ny - 1 - h + (0 + (k : Int)) + 1
      · rw [if_pos h1, hX _ _ (by omega) (by omega)]
        exact buf_congr c (by simp only [halo_clamp]; split_ifs <;> omega) rfl
      · rw [if_neg h1]
        by_cases h2 : j = h - (0 + (k : Int)) - 1
        · rw [if_pos h2, hX _ _ (by omega) (by omega)]
          exact buf_congr c (by simp only [halo_clamp]; split_ifs <;> omega) rfl
        · rw [if_neg h2, hX _ _ (by omega) (by omega)]

/-- C11 (cross-backend equivalence of boundary application). For every odd `nm ≥ 1`,
all `nx, ny ≥ nm`, every table `bc` and every input buffer, the OpenACC
`boundary_kernel`, which interleaves the column copy and the row copy inside each
offset iteration, produces cell for cell the buffer of the serial
`apply_boundary_conditions`, which runs all column offsets and then all row offsets
(every loop run sequentially). -/
theorem boundary_kernel_eq_serial (conc : Buf α) (bc : BCTable α) (nx ny nm : Int)
    (hodd : Odd nm) (hnm : 1 ≤ nm) (hnx : nm ≤ nx) (hny : nm ≤ ny) (j i : Int) :
    OpenACC.boundary_kernel conc nx ny nm bc j i =
      Serial.apply_boundary_conditions conc nx ny nm bc j i := by
  obtain ⟨hh, hw⟩ := halo_width_of_odd hodd hnm
  have hx : 2 * cdiv nm 2 + 1 ≤ nx := by omega
  have hy : 2 * cdiv nm 2 + 1 ≤ ny := by omega
  have hfix : OpenACC.boundary_kernel conc nx ny nm bc =
      loopN 0 (fun offset (conc : Buf α) =>
        let ilo := cdiv nm 2 - offset
        let ihi := nx - 1 - cdiv nm 2 + offset
        let jlo := cdiv nm 2 - offset
        let jhi := ny - 1 - cdiv nm 2 + offset
        let conc := forLoop 0 ny (fun j (conc : Buf α) =>
          let conc := conc.set j (ilo - 1) (conc j ilo)
          conc.set j (ihi + 1) (conc j ihi)) conc
        forLoop 0 nx (fun i (conc : Buf α) =>
          let conc := conc.set (jlo - 1) i (conc jlo i)
          conc.set (jhi + 1) i (conc jhi i)) conc) (cdiv nm 2 - 0).toNat
        (Serial.fixed_values conc nx ny nm bc) := rfl
  have hcast : (((cdiv nm 2 - 0).toNat : Nat) : Int) = cdiv nm 2 := by omega
  obtain ⟨hout, hin⟩ := interleaved_offsets_apply nx ny (cdiv nm 2) hx hy
    (cdiv nm 2 - 0).toNat (by omega) (Serial.fixed_values conc nx ny nm bc)
  rw [hfix, apply_boundary_conditions_apply _ _ _ _ _ hh hx hy]
  by_cases hg : (0 ≤ j ∧ j < ny) ∧ (0 ≤ i ∧ i < nx)
  · rw [if_pos hg, hin j i (by omega) (by omega)]
  · rw [if_neg hg, hout j i hg, fixed_values_apply]
    have hny2 : cdiv ny 2 = ny / 2 := cdiv_two_of_nonneg (by omega)
    rw [if_neg (by omega), if_neg (by omega)]

/-- Witness of `boundary_kernel_eq_serial` on a 7 x 8 grid with `nm = 5`, at a
corner cell. -/
theorem boundary_kernel_eq_serial_witness :
    (Odd (5 : Int) ∧ (1 : Int) ≤ 5 ∧ (5 : Int) ≤ 8 ∧ (5 : Int) ≤ 7) ∧
    OpenACC.boundary_kernel (fun j i => 10 * j + i) 8 7 5
        (fun a b => 100 + 2 * (a : Int) + b) 0 0 =
      Serial.apply_boundary_conditions (fun j i => 10 * j + i) 8 7 5
        (fun a b => 100 + 2 * (a : Int) + b) 0 0 :=
  ⟨⟨by decide, by decide, by decide, by decide⟩,
    boundary_kernel_eq_serial (fun j i => 10 * j + i) (fun a b => 100 + 2 * (a : Int) + b)
      8 7 5 (by decide) (by decide) (by decide) (by decide) 0 0⟩

end BoundaryKernel

/-! ## The geometry of the analytical sources -/

section SourceGeometry

/-- The OpenACC distance to the left source is the shortest Euclidean distance from
the point `(dx*i, dy*j)` of an interior cell to the canonical left segment, the points
`(dx*(nm/2), y)` with `dy*(nm/2) ≤ y ≤ dy*(ny/2)`: it is non-negative, it is the
distance to a point of the segment, and no point of the segment is closer. -/
theorem openacc_r_left_shortest (ny nm : Int) (dx dy : ℝ) (hodd : Odd nm) (hnm : 3 ≤ nm)
    (hny : nm ≤ ny) (hdx : 0 < dx) (hdy : 0 < dy) (j i : Int)
    (hj : cdiv nm 2 ≤ j ∧ j < ny - cdiv nm 2) (hi : cdiv nm 2 ≤ i) :
    0 ≤ OpenACC.r_left Real.sqrt ny dx dy nm j i ∧
    (∃ y : ℝ, (dy * ((cdiv nm 2 : Int) : ℝ) ≤ y ∧ y ≤ dy * ((cdiv ny 2 : Int) : ℝ)) ∧
      (OpenACC.r_left Real.sqrt ny dx dy nm j i) ^ 2 =
        (dx * ((i : Int) : ℝ) - dx * ((cdiv nm 2 : Int) : ℝ)) ^ 2 +
          (dy * ((j : Int) : ℝ) - y) ^ 2) ∧
    (∀ y : ℝ, dy * ((cdiv nm 2 : Int) : ℝ) ≤ y → y ≤ dy * ((cdiv ny 2 : Int) : ℝ) →
      (OpenACC.r_left Real.sqrt ny dx dy nm j i) ^ 2 ≤
        (dx * ((i : Int) : ℝ) - dx * ((cdiv nm 2 : Int) : ℝ)) ^ 2 +
          (dy * ((j : Int) : ℝ) - y) ^ 2) := by
  obtain ⟨hh, hw⟩ := halo_width_of_odd hodd (by omega)
  have hi' : ((cdiv nm 2 : Int) : ℝ) ≤ ((i : Int) : ℝ) := by exact_mod_cast hi
  have hj' : ((cdiv nm 2 : Int) : ℝ) ≤ ((j : Int) : ℝ) := by exact_mod_cast hj.1
  unfold OpenACC.r_left
  by_cases hlt : j < cdiv ny 2
  · rw [if_pos hlt]
    have hjy : ((j : Int) : ℝ) ≤ ((cdiv ny 2 : Int) : ℝ) := by exact_mod_cast hlt.le
    push_cast
    refine ⟨mul_nonneg hdx.le (by linarith), ⟨dy * (j : ℝ), ⟨?_, ?_⟩, by ring⟩, ?_⟩
    · exact mul_le_mul_of_nonneg_left hj' hdy.le
    · exact mul_le_mul_of_nonneg_left hjy hdy.le
    · intro y _ _
      nlinarith [sq_nonneg (dy * (j : ℝ) - y)]
  · rw [if_neg hlt]
    have hjy : ((cdiv ny 2 : Int) : ℝ) ≤ ((j : Int) : ℝ) := by
      exact_mod_cast (not_lt.mp hlt)
    have hny2 : cdiv ny 2 = ny / 2 := cdiv_two_of_nonneg (by omega)
    have hhy : ((cdiv nm 2 : Int) : ℝ) ≤ ((cdiv ny 2 : Int) : ℝ) := by
      have : cdiv nm 2 ≤ cdiv ny 2 := by omega
      exact_mod_cast this
    have hS : 0 ≤ dx * dx * ((i - cdiv nm 2 : Int) : ℝ) * ((i - cdiv nm 2 : Int) : ℝ) +
        dy * dy * ((j - cdiv ny 2 : Int) : ℝ) * ((j - cdiv ny 2 : Int) : ℝ) := by
      have h1 : 0 ≤ dx * dx * ((i - cdiv nm 2 : Int) : ℝ) * ((i - cdiv nm 2 : Int) : ℝ) := by
        have := mul_self_nonneg (dx * ((i - cdiv nm 2 : Int) : ℝ))
        nlinarith
      have h2 : 0 ≤ dy * dy * ((j - cdiv ny 2 : Int) : ℝ) * ((j - cdiv ny 2 : Int) : ℝ) := by
        have := mul_self_nonneg (dy * ((j - cdiv ny 2 : Int) : ℝ))
        nlinarith
      linarith
    rw [Real.sq_sqrt hS]
    push_cast
    refine ⟨Real.sqrt_nonneg _, ⟨dy * ((cdiv ny 2 : Int) : ℝ), ⟨?_, le_refl _⟩, by ring⟩, ?_⟩
    · exact mul_le_mul_of_nonneg_left hhy hdy.le
    · intro y _ hy
      have h3 : dy * ((cdiv ny 2 : Int) : ℝ) ≤ dy * ((j : Int) : ℝ) :=
        mul_le_mul_of_nonneg_left hjy hdy.le
      nlinarith [mul_nonneg (sub_nonneg.mpr hy) (sub_nonneg.mpr h3),
        sq_nonneg (dy * ((cdiv ny 2 : Int) : ℝ) - y)]

/-- For the three-wide stencil the OpenACC distance to the right source is the
shortest Euclidean distance from the point `(dx*i, dy*j)` of an interior cell to the
canonical right segment, the points `(dx*(nx-1-nm/2), y)` with
`dy*(ny/2) ≤ y ≤ dy*(ny-1-nm/2)`. -/
theorem openacc_r_right_shortest_three (nx ny : Int) (dx dy : ℝ) (hny : 3 ≤ ny)
    (hdx : 0 < dx) (hdy : 0 < dy) (j i : Int)
    (hj : cdiv 3 2 ≤ j ∧ j < ny - cdiv 3 2) (hi : i < nx - cdiv 3 2) :
    0 ≤ OpenACC.r_right Real.sqrt nx ny dx dy 3 j i ∧
    (∃ y : ℝ, (dy * ((cdiv ny 2 : Int) : ℝ) ≤ y ∧ y ≤ dy * ((ny - 1 - cdiv 3 2 : Int) : ℝ)) ∧
      (OpenACC.r_right Real.sqrt nx ny dx dy 3 j i) ^ 2 =
        (dx * ((i : Int) : ℝ) - dx * ((nx - 1 - cdiv 3 2 : Int) : ℝ)) ^ 2 +
          (dy * ((j : Int) : ℝ) - y) ^ 2) ∧
    (∀ y : ℝ, dy * ((cdiv ny 2 : Int) : ℝ) ≤ y → y ≤ dy * ((ny - 1 - cdiv 3 2 : Int) : ℝ) →
      (OpenACC.r_right Real.sqrt nx ny dx dy 3 j i) ^ 2 ≤
        (dx * ((i : Int) : ℝ) - dx * ((nx - 1 - cdiv 3 2 : Int) : ℝ)) ^ 2 +
          (dy * ((j : Int) : ℝ) - y) ^ 2) := by
  rw [cdiv_three] at hj hi ⊢
  have hny2 : cdiv ny 2 = ny / 2 := cdiv_two_of_nonneg (by omega)
  have hi' : ((i : Int) : ℝ) ≤ ((nx - 1 - 1 : Int) : ℝ) := by
    have : i ≤ nx - 1 - 1 := by omega
    exact_mod_cast this
  have hjt : ((j : Int) : ℝ) ≤ ((ny - 1 - 1 : Int) : ℝ) := by
    have : j ≤ ny - 1 - 1 := by omega
    exact_mod_cast this
  have hyt : ((cdiv ny 2 : Int) : ℝ) ≤ ((ny - 1 - 1 : Int) : ℝ) := by
    have : cdiv ny 2 ≤ ny - 1 - 1 := by omega
    exact_mod_cast this
  have e1 : ((nx - 3 + 1 - i : Int) : ℝ) = ((nx - 1 - 1 : Int) : ℝ) - ((i : Int) : ℝ) := by
    push_cast; ring
  unfold OpenACC.r_right
  by_cases hge : j ≥ cdiv ny 2
  · rw [if_pos hge, e1]
    have hjy : ((cdiv ny 2 : Int) : ℝ) ≤ ((j : Int) : ℝ) := by exact_mod_cast hge
    refine ⟨mul_nonneg hdx.le (by linarith), ⟨dy * (j : ℝ), ⟨?_, ?_⟩, by ring⟩, ?_⟩
    · exact mul_le_mul_of_nonneg_left hjy hdy.le
    · exact mul_le_mul_of_nonneg_left hjt hdy.le
    · intro y _ _
      nlinarith [sq_nonneg (dy * (j : ℝ) - y)]
  · rw [if_neg hge, e1]
    have hjy : ((j : Int) : ℝ) ≤ ((cdiv ny 2 : Int) : ℝ) := by
      exact_mod_cast (not_le.mp hge).le
    have hS : 0 ≤ dx * dx * (((nx - 1 - 1 : Int) : ℝ) - ((i : Int) : ℝ)) *
          (((nx - 1 - 1 : Int) : ℝ) - ((i : Int) : ℝ)) +
        dy * dy * ((cdiv ny 2 - j : Int) : ℝ) * ((cdiv ny 2 - j : Int) : ℝ) := by
      have h1 := mul_self_nonneg (dx * (((nx - 1 - 1 : Int) : ℝ) - ((i : Int) : ℝ)))
      have h2 := mul_self_nonneg (dy * ((cdiv ny 2 - j : Int) : ℝ))
      nlinarith
    rw [Real.sq_sqrt hS]
    push_cast
    refine ⟨Real.sqrt_nonneg _, ⟨dy * ((cdiv ny 2 : Int) : ℝ), ⟨le_refl _, ?_⟩, by ring⟩, ?_⟩
    · have h4 := mul_le_mul_of_nonneg_left hyt hdy.le
      push_cast at h4
      exact h4
    · intro y hy _
      have h3 : dy * ((j : Int) : ℝ) ≤ dy * ((cdiv ny 2 : Int) : ℝ) :=
        mul_le_mul_of_nonneg_left hjy hdy.le
      nlinarith [mul_nonneg (sub_nonneg.mpr hy) (sub_nonneg.mpr h3),
        sq_nonneg (y - dy * ((cdiv ny 2 : Int) : ℝ))]

/-- C12 fails on the code for `nm = 5`. On the 10 x 10 grid with `dx = dy = 1`, the
interior cell `(j, i) = (5, 7)` lies on the canonical right segment (its abscissa is
`dx*(nx-1-nm/2) = 7` and its ordinate `5` is between `dy*(ny/2) = 5` and
`dy*(ny-1-nm/2) = 7`), so its shortest distance to the segment is `0`; the OpenACC
`check_solution` uses `r = dx*(nx-nm+1-i) = -1`. -/
theorem openacc_r_right_five :
    OpenACC.r_right Real.sqrt 10 10 1 1 5 5 7 = -1 ∧
    ((cdiv 5 2 ≤ 5 ∧ (5 : Int) < 10 - cdiv 5 2) ∧ (cdiv 5 2 ≤ 7 ∧ (7 : Int) < 10 - cdiv 5 2)) ∧
    (1 : ℝ) * ((7 : Int) : ℝ) = 1 * ((10 - 1 - cdiv 5 2 : Int) : ℝ) ∧
    (1 : ℝ) * ((cdiv 10 2 : Int) : ℝ) ≤ 1 * ((5 : Int) : ℝ) ∧
    (1 : ℝ) * ((5 : Int) : ℝ) ≤ 1 * ((10 - 1 - cdiv 5 2 : Int) : ℝ) := by
  have h5 : cdiv 5 2 = 2 := by decide
  have h10 : cdiv 10 2 = 5 := by decide
  refine ⟨?_, by decide, ?_, ?_, ?_⟩
  · unfold OpenACC.r_right
    rw [h10, if_pos (by decide)]
    norm_num
  · rw [h5]; norm_num
  · rw [h10]
  · rw [h5]; norm_num

end SourceGeometry

/-! ## Simulated time and the ping-pong buffers -/

section TimeStepping

variable {α : Type u} [Ring α]

theorem solve_iteration_elapsed (GetTimer : Nat → α) (mask_lap : Buf α) (nx ny nm : Int)
    (bc : BCTable α) (D dt : α) (s : Serial.SolveState α) :
    (Serial.solve_iteration GetTimer mask_lap nx ny nm bc D dt s).elapsed = s.elapsed + dt :=
  rfl

theorem solve_iteration_pointers (GetTimer : Nat → α) (mask_lap : Buf α) (nx ny nm : Int)
    (bc : BCTable α) (D dt : α) (s : Serial.SolveState α) :
    (Serial.solve_iteration GetTimer mask_lap nx ny nm bc D dt s).conc_old = s.conc_new ∧
    (Serial.solve_iteration GetTimer mask_lap nx ny nm bc D dt s).conc_new = s.conc_old :=
  ⟨rfl, rfl⟩

/-- The loop of `solve_diffusion_equation`, one more iteration. -/
theorem solve_loop_succ (GetTimer : Nat → α) (mask_lap : Buf α) (nx ny nm : Int)
    (bc : BCTable α) (D dt : α) (n : Nat) (s : Serial.SolveState α) :
    Serial.solve_diffusion_equation GetTimer mask_lap nx ny nm bc D dt ((n : Int) + 1) s =
      Serial.solve_iteration GetTimer mask_lap nx ny nm bc D dt
        (Serial.solve_diffusion_equation GetTimer mask_lap nx ny nm bc D dt n s) := by
  unfold Serial.solve_diffusion_equation forLoop
  have h1 : ((n : Int) + 1 - 0).toNat = n + 1 := by omega
  have h2 : ((n : Int) - 0).toNat = n := by omega
  rw [h1, h2]
  rfl

theorem solve_loop_zero (GetTimer : Nat → α) (mask_lap : Buf α) (nx ny nm : Int)
    (bc : BCTable α) (D dt : α) (s : Serial.SolveState α) :
    Serial.solve_diffusion_equation GetTimer mask_lap nx ny nm bc D dt 0 s = s :=
  rfl

theorem solve_loop_elapsed (GetTimer : Nat → α) (mask_lap : Buf α) (nx ny nm : Int)
    (bc : BCTable α) (D dt : α) (n : Nat) (s : Serial.SolveState α) :
    (Serial.solve_diffusion_equation GetTimer mask_lap nx ny nm bc D dt n s).elapsed =
      s.elapsed + (n : α) * dt := by
  induction n with
  | zero =>
    show (Serial.solve_diffusion_equation GetTimer mask_lap nx ny nm bc D dt 0 s).elapsed = _
    rw [solve_loop_zero]; simp
  | succ n ih =>
    have e : ((n + 1 : Nat) : Int) = (n : Int) + 1 := by push_cast; rfl
    rw [e, solve_loop_succ, solve_iteration_elapsed, ih]
    push_cast
    rw [add_mul, one_mul, add_assoc]

/-- C13 (simulated time). For every `checks ≥ 0`, every `dt` and every starting value
of `*elapsed`, after the serial `solve_diffusion_equation` the value of `*elapsed` is
its starting value plus `checks * dt`, each iteration of the loop adding `dt` once;
one call of the OpenACC `solve_diffusion_equation` adds `dt` once. -/
theorem simulated_time (GetTimer : Nat → α) (mask_lap : Buf α) (nx ny nm : Int)
    (bc : BCTable α) (D dt : α) (checks : Int) (hchecks : 0 ≤ checks)
    (s : Serial.SolveState α) (A B C : Buf α) (bs : Int) (e0 : α) :
    (Serial.solve_diffusion_equation GetTimer mask_lap nx ny nm bc D dt checks s).elapsed =
        s.elapsed + (checks : α) * dt ∧
    (Serial.solve_iteration GetTimer mask_lap nx ny nm bc D dt s).elapsed = s.elapsed + dt ∧
    (OpenACC.solve_diffusion_equation A B C nx ny nm bs D dt e0).2 = e0 + dt := by
  refine ⟨?_, rfl, rfl⟩
  obtain ⟨n, rfl⟩ := Int.eq_ofNat_of_zero_le hchecks
  rw [solve_loop_elapsed]
  push_cast
  rfl

/-- Witness of `simulated_time`: three checks with `dt = 1/4` from `elapsed = 2`. -/
theorem simulated_time_witness :
    (0 : Int) ≤ 3 ∧
    (Serial.solve_diffusion_equation (fun k => (k : ℚ)) (fun _ _ => 1) 5 5 3
      (Serial.set_boundaries (fun _ _ => 0)) 1 (1 / 4) 3
      (Serial.entry_state (fun _ _ => 0) (fun _ _ => 0) (fun _ _ => 0) 2
        ⟨0, 0, 0, 0⟩ 0)).elapsed = 2 + ((3 : Int) : ℚ) * (1 / 4) :=
  ⟨by decide,
    (simulated_time (fun k => (k : ℚ)) (fun _ _ => 1) 5 5 3
      (Serial.set_boundaries (fun _ _ => 0)) 1 (1 / 4) 3 (by decide)
      (Serial.entry_state (fun _ _ => 0) (fun _ _ => 0) (fun _ _ => 0) 2 ⟨0, 0, 0, 0⟩ 0)
      (fun _ _ => 0) (fun _ _ => 0) (fun _ _ => 0) 0 0).1⟩

theorem solve_loop_pointers (GetTimer : Nat → α) (mask_lap : Buf α) (nx ny nm : Int)
    (bc : BCTable α) (D dt : α) (n : Nat) (s : Serial.SolveState α) :
    (Serial.solve_diffusion_equation GetTimer mask_lap nx ny nm bc D dt n s).conc_old =
        (if n % 2 = 0 then s.conc_old else s.conc_new) ∧
    (Serial.solve_diffusion_equation GetTimer mask_lap nx ny nm bc D dt n s).conc_new =
        (if n % 2 = 0 then s.conc_new else s.conc_old) := by
  induction n with
  | zero => exact ⟨rfl, rfl⟩
  | succ n ih =>
    have e : ((n + 1 : Nat) : Int) = (n : Int) + 1 := by push_cast; rfl
    rw [e, solve_loop_succ]
    obtain ⟨h1, h2⟩ := solve_iteration_pointers GetTimer mask_lap nx ny nm bc D dt
      (Serial.solve_diffusion_equation GetTimer mask_lap nx ny nm bc D dt n s)
    rw [h1, h2, ih.1, ih.2]
    by_cases hn : n % 2 = 0
    · have : (n + 1) % 2 ≠ 0 := by omega
      simp [hn, this]
    · have : (n + 1) % 2 = 0 := by omega
      simp [hn, this]

/-- The buffer written by the explicit-Euler update of one iteration, for distinct
pointers: it is stored where `conc_new` pointed, the buffer of `conc_old` holds its
boundary conditions, and nothing else happened to the heap. -/
theorem solve_iteration_heap (GetTimer : Nat → α) (mask_lap : Buf α) (nx ny nm : Int)
    (bc : BCTable α) (D dt : α) (s : Serial.SolveState α) (hne : s.conc_old ≠ s.conc_new) :
    (Serial.solve_iteration GetTimer mask_lap nx ny nm bc D dt s).heap s.conc_new =
        Serial.euler_update
          (Serial.apply_boundary_conditions (s.heap s.conc_old) nx ny nm bc)
          (s.heap s.conc_new)
          (Serial.compute_convolution
            (Serial.apply_boundary_conditions (s.heap s.conc_old) nx ny nm bc)
            s.conc_lap mask_lap nx ny nm)
          nx ny nm D dt ∧
    (Serial.solve_iteration GetTimer mask_lap nx ny nm bc D dt s).heap s.conc_old =
        Serial.apply_boundary_conditions (s.heap s.conc_old) nx ny nm bc := by
  have hne' : s.conc_new ≠ s.conc_old := fun h => hne h.symm
  simp [Serial.solve_iteration, Serial.swap_pointers, Function.update_noteq hne',
    Function.update_noteq hne]

/-- C17 (location of the result after the ping-pong loop). For every `checks ≥ 1`,
when the serial `solve_diffusion_equation` returns, the field written by the last
explicit-Euler update (computed from the state after `checks - 1` iterations) is
stored in the caller's `conc_new` buffer (slot `B`) if `checks` is odd and in the
caller's `conc_old` buffer (slot `A`) if `checks` is even: that slot is the one the
local pointer `conc_new` designated before the last iteration.  `swap_pointers` only
exchanges the local pointers and leaves the heap as it is; outside the interior the
written buffer keeps its own cells. -/
theorem ping_pong_location (GetTimer : Nat → α) (mask_lap : Buf α) (nx ny nm : Int)
    (bc : BCTable α) (D dt : α) (checks : Int) (hchecks : 1 ≤ checks)
    (conc_old conc_new conc_lap : Buf α) (elapsed : α) (sw : Stopwatch α) (reads : Nat) :
    (Serial.solve_diffusion_equation GetTimer mask_lap nx ny nm bc D dt checks
        (Serial.entry_state conc_old conc_new conc_lap elapsed sw reads)).heap
        (if checks % 2 = 1 then BufId.B else BufId.A) =
      Serial.euler_update
        (Serial.apply_boundary_conditions
          ((Serial.solve_diffusion_equation GetTimer mask_lap nx ny nm bc D dt (checks - 1)
            (Serial.entry_state conc_old conc_new conc_lap elapsed sw reads)).heap
            (if checks % 2 = 1 then BufId.A else BufId.B)) nx ny nm bc)
        ((Serial.solve_diffusion_equation GetTimer mask_lap nx ny nm bc D dt (checks - 1)
          (Serial.entry_state conc_old conc_new conc_lap elapsed sw reads)).heap
          (if checks % 2 = 1 then BufId.B else BufId.A))
        (Serial.compute_convolution
          (Serial.apply_boundary_conditions
            ((Serial.solve_diffusion_equation GetTimer mask_lap nx ny nm bc D dt (checks - 1)
              (Serial.entry_state conc_old conc_new conc_lap elapsed sw reads)).heap
              (if checks % 2 = 1 then BufId.A else BufId.B)) nx ny nm bc)
          (Serial.solve_diffusion_equation GetTimer mask_lap nx ny nm bc D dt (checks - 1)
            (Serial.entry_state conc_old conc_new conc_lap elapsed sw reads)).conc_lap
          mask_lap nx ny nm)
        nx ny nm D dt ∧
    (Serial.solve_diffusion_equation GetTimer mask_lap nx ny nm bc D dt (checks - 1)
        (Serial.entry_state conc_old conc_new conc_lap elapsed sw reads)).conc_new =
      (if checks % 2 = 1 then BufId.B else BufId.A) ∧
    (∀ s : Serial.SolveState α, (Serial.swap_pointers s).heap = s.heap) ∧
    (∀ j i, ¬ ((cdiv nm 2 ≤ j ∧ j < ny - cdiv nm 2) ∧ (cdiv nm 2 ≤ i ∧ i < nx - cdiv nm 2)) →
      (Serial.solve_diffusion_equation GetTimer mask_lap nx ny nm bc D dt checks
        (Serial.entry_state conc_old conc_new conc_lap elapsed sw reads)).heap
        (if checks % 2 = 1 then BufId.B else BufId.A) j i =
      (Serial.solve_diffusion_equation GetTimer mask_lap nx ny nm bc D dt (checks - 1)
        (Serial.entry_state conc_old conc_new conc_lap elapsed sw reads)).heap
        (if checks % 2 = 1 then BufId.B else BufId.A) j i) := by
  obtain ⟨n, hn⟩ : ∃ n : Nat, checks = (n : Int) + 1 :=
    ⟨(checks - 1).toNat, by omega⟩
  subst hn
  have e1 : (n : Int) + 1 - 1 = (n : Int) := by omega
  rw [e1, solve_loop_succ]
  obtain ⟨hpo, hpn⟩ := solve_loop_pointers GetTimer mask_lap nx ny nm bc D dt n
    (Serial.entry_state conc_old conc_new conc_lap elapsed sw reads)
  have hA : (Serial.entry_state conc_old conc_new conc_lap elapsed sw reads).conc_old =
      BufId.A := rfl
  have hB : (Serial.entry_state conc_old conc_new conc_lap elapsed sw reads).conc_new =
      BufId.B := rfl
  rw [hA, hB] at hpo hpn
  have hold : (Serial.solve_diffusion_equation GetTimer mask_lap nx ny nm bc D dt n
      (Serial.entry_state conc_old conc_new conc_lap elapsed sw reads)).conc_old =
      (if ((n : Int) + 1) % 2 = 1 then BufId.A else BufId.B) := by
    rw [hpo]
    by_cases h : n % 2 = 0
    · rw [if_pos h, if_pos (by omega)]
    · rw [if_neg h, if_neg (by omega)]
  have hnew : (Serial.solve_diffusion_equation GetTimer mask_lap nx ny nm bc D dt n
      (Serial.entry_state conc_old conc_new conc_lap elapsed sw reads)).conc_new =
      (if ((n : Int) + 1) % 2 = 1 then BufId.B else BufId.A) := by
    rw [hpn]
    by_cases h : n % 2 = 0
    · rw [if_pos h, if_pos (by omega)]
    · rw [if_neg h, if_neg (by omega)]
  have hne : (Serial.solve_diffusion_equation GetTimer mask_lap nx ny nm bc D dt n
      (Serial.entry_state conc_old conc_new conc_lap elapsed sw reads)).conc_old ≠
      (Serial.solve_diffusion_equation GetTimer mask_lap nx ny nm bc D dt n
        (Serial.entry_state conc_old conc_new conc_lap elapsed sw reads)).conc_new := by
    rw [hold, hnew]
    split_ifs <;> decide
  obtain ⟨hw, _⟩ := solve_iteration_heap GetTimer mask_lap nx ny nm bc D dt _ hne
  rw [hold, hnew] at hw
  refine ⟨hw, hnew, fun _ => rfl, ?_⟩
  intro j i hji
  rw [hw, euler_update_apply, if_neg hji]

/-- Witness of `ping_pong_location`: after one check the caller's `conc_new` buffer
holds the update, and its halo cell `(0, 0)` still holds the initial `9`. -/
theorem ping_pong_location_witness :
    (1 : Int) ≤ 1 ∧
    (Serial.solve_diffusion_equation (fun k => (k : ℚ)) (fun _ _ => 1) 5 5 3
        (Serial.set_boundaries (fun _ _ => 0)) 1 (1 / 4) 1
        (Serial.entry_state (fun _ _ => 0) (fun _ _ => 9) (fun _ _ => 0) 0
          ⟨0, 0, 0, 0⟩ 0)).heap
        (if (1 : Int) % 2 = 1 then BufId.B else BufId.A) 0 0 =
      (Serial.solve_diffusion_equation (fun k => (k : ℚ)) (fun _ _ => 1) 5 5 3
        (Serial.set_boundaries (fun _ _ => 0)) 1 (1 / 4) ((1 : Int) - 1)
        (Serial.entry_state (fun _ _ => 0) (fun _ _ => 9) (fun _ _ => 0) 0
          ⟨0, 0, 0, 0⟩ 0)).heap
        (if (1 : Int) % 2 = 1 then BufId.B else BufId.A) 0 0 :=
  ⟨by decide,
    (ping_pong_location (fun k => (k : ℚ)) (fun _ _ => 1) 5 5 3
      (Serial.set_boundaries (fun _ _ => 0)) 1 (1 / 4) 1 (by decide)
      (fun _ _ => 0) (fun _ _ => 9) (fun _ _ => 0) 0 ⟨0, 0, 0, 0⟩ 0).2.2.2 0 0 (by decide)⟩

end TimeStepping

/-! ## The convolution contract -/

section ConvolutionContract

variable {α : Type u}

theorem cdiv_neg_two (a : Int) : cdiv (-a) 2 = -(cdiv a 2) := by
  unfold cdiv
  exact Int.neg_tdiv a 2

/-- An accumulation loop computes a finite sum. -/
theorem loopN_eq_sum [AddCommMonoid α] (f : Int → α) (lo : Int) (n : Nat) (x : α) :
    loopN lo (fun k value => value + f k) n x = x + ∑ k in Finset.Ico lo (lo + n), f k := by
  induction n with
  | zero => simp [loopN]
  | succ n ih =>
    show loopN lo (fun k value => value + f k) n x + f (lo + n) = _
    have hs : Finset.Ico lo (lo + ((n + 1 : Nat) : Int)) =
        insert (lo + (n : Int)) (Finset.Ico lo (lo + n)) := by
      ext k
      simp only [Finset.mem_Ico, Finset.mem_insert]
      push_cast
      omega
    rw [ih, hs, Finset.sum_insert (by simp), add_assoc, add_comm (f (lo + ↑n))]

theorem forLoop_eq_sum [AddCommMonoid α] (f : Int → α) (lo hi : Int) (x : α) :
    forLoop lo hi (fun k value => value + f k) x = x + ∑ k in Finset.Ico lo hi, f k := by
  unfold forLoop
  rw [loopN_eq_sum]
  by_cases h : lo ≤ hi
  · have e : lo + (((hi - lo).toNat : Nat) : Int) = hi := by omega
    rw [e]
  · have e : (hi - lo).toNat = 0 := by omega
    rw [e]
    simp only [Nat.cast_zero, add_zero]
    rw [Finset.Ico_eq_empty (by omega), Finset.Ico_eq_empty (by omega)]

/-- The accumulation of the serial `compute_convolution` is the stencil sum of the
specification, for every `nm`. -/
theorem serial_stencil_value_eq_sum [Semiring α] (conc_old mask_lap : Buf α)
    (nm j i : Int) :
    Serial.stencil_value conc_old mask_lap nm j i = stencil_sum mask_lap conc_old nm j i := by
  unfold Serial.stencil_value stencil_sum
  have hI : Finset.Ico (cdiv (-nm) 2) (cdiv nm 2 + 1) =
      Finset.Icc (-(cdiv nm 2)) (cdiv nm 2) := by
    rw [cdiv_neg_two]
    ext k
    simp only [Finset.mem_Ico, Finset.mem_Icc]
    omega
  have inner : ∀ (mj : Int) (value : α),
      forLoop (cdiv (-nm) 2) (cdiv nm 2 + 1) (fun mi value =>
        value + mask_lap (mj + cdiv nm 2) (mi + cdiv nm 2) * conc_old (j + mj) (i + mi))
        value =
      value + ∑ mi in Finset.Icc (-(cdiv nm 2)) (cdiv nm 2),
        mask_lap (mj + cdiv nm 2) (mi + cdiv nm 2) * conc_old (j + mj) (i + mi) := by
    intro mj value
    rw [forLoop_eq_sum, hI]
  simp only [inner]
  rw [forLoop_eq_sum, hI, zero_add]

/-- A loop that only assigns the buffer behind one pointer, reading the others. -/
theorem loopN_update {ι : Type} [DecidableEq ι] (mem : ι → Buf α) (p : ι)
    (body : Int → (ι → Buf α) → (ι → Buf α)) (G : Int → Buf α → Buf α)
    (h : ∀ k X, body k (Function.update mem p X) = Function.update mem p (G k X))
    (lo : Int) (n : Nat) (X : Buf α) :
    loopN lo body n (Function.update mem p X) = Function.update mem p (loopN lo G n X) := by
  induction n with
  | zero => rfl
  | succ n ih =>
    show body (lo + n) (loopN lo body n (Function.update mem p X)) = _
    rw [ih, h]
    rfl

/-- On distinct buffers the pointer version of `compute_convolution` assigns the buffer
of `conc_lap` as the value version does and leaves the rest of the memory alone. -/
theorem compute_convolution_ptr_eq {ι : Type} [DecidableEq ι] [Semiring α]
    (mem : ι → Buf α) (conc_old conc_lap mask_lap : ι) (nx ny nm : Int)
    (h1 : conc_lap ≠ conc_old) (h2 : conc_lap ≠ mask_lap) :
    Serial.compute_convolution_ptr mem conc_old conc_lap mask_lap nx ny nm =
      Function.update mem conc_lap
        (Serial.compute_convolution (mem conc_old) (mem conc_lap) (mem mask_lap) nx ny nm) := by
  unfold Serial.compute_convolution_ptr Serial.compute_convolution forLoop
  have h1' : conc_old ≠ conc_lap := fun h => h1 h.symm
  have h2' : mask_lap ≠ conc_lap := fun h => h2 h.symm
  conv_lhs => rw [← Function.update_eq_self conc_lap mem]
  apply loopN_update
  intro j X
  apply loopN_update
  intro i X
  simp [Function.update_noteq h1', Function.update_noteq h2']

/-- C14 (convolution contract and frame). For every `nm`, `nx`, `ny` (in particular
odd `nm` and `nx, ny ≥ nm`), every mask and distinct buffers, `compute_convolution`
leaves `buf_in`, the mask and every buffer other than `buf_out` unchanged, leaves every
non-interior cell of `buf_out` unchanged, and sets every interior cell
(`nm/2 ≤ i < nx-nm/2`, `nm/2 ≤ j < ny-nm/2`) of `buf_out` to the sum over `mi, mj` in
`[-nm/2, nm/2]` of `mask[mj+nm/2][mi+nm/2] * buf_in[j+mj][i+mi]`. -/
theorem convolution_contract {ι : Type} [DecidableEq ι] [Semiring α]
    (mem : ι → Buf α) (buf_in buf_out mask : ι) (nx ny nm : Int)
    (h1 : buf_out ≠ buf_in) (h2 : buf_out ≠ mask) :
    Serial.compute_convolution_ptr mem buf_in buf_out mask nx ny nm buf_in = mem buf_in ∧
    Serial.compute_convolution_ptr mem buf_in buf_out mask nx ny nm mask = mem mask ∧
    (∀ p, p ≠ buf_out →
      Serial.compute_convolution_ptr mem buf_in buf_out mask nx ny nm p = mem p) ∧
    (∀ j i, ¬ ((cdiv nm 2 ≤ j ∧ j < ny - cdiv nm 2) ∧ (cdiv nm 2 ≤ i ∧ i < nx - cdiv nm 2)) →
      Serial.compute_convolution_ptr mem buf_in buf_out mask nx ny nm buf_out j i =
        mem buf_out j i) ∧
    (∀ j i, (cdiv nm 2 ≤ j ∧ j < ny - cdiv nm 2) → (cdiv nm 2 ≤ i ∧ i < nx - cdiv nm 2) →
      Serial.compute_convolution_ptr mem buf_in buf_out mask nx ny nm buf_out j i =
        stencil_sum (mem mask) (mem buf_in) nm j i) := by
  rw [compute_convolution_ptr_eq mem buf_in buf_out mask nx ny nm h1 h2]
  have h1' : buf_in ≠ buf_out := fun h => h1 h.symm
  have h2' : mask ≠ buf_out := fun h => h2 h.symm
  refine ⟨Function.update_noteq h1' _ _, Function.update_noteq h2' _ _,
    fun p hp => Function.update_noteq hp _ _, ?_, ?_⟩
  · intro j i hji
    rw [Function.update_same, serial_compute_convolution_apply, if_neg hji]
  · intro j i hj hi
    rw [Function.update_same, serial_compute_convolution_apply, if_pos ⟨hj, hi⟩,
      serial_stencil_value_eq_sum]

/-- Witness of `convolution_contract`: three buffers named `0` (input), `1` (output)
and `2` (mask) on a 5 x 5 grid with `nm = 3`; the input is unchanged and the interior
cell `(2, 2)` of the output receives the stencil sum. -/
theorem convolution_contract_witness :
    ((1 : Fin 3) ≠ 0 ∧ (1 : Fin 3) ≠ 2) ∧
    Serial.compute_convolution_ptr
      (fun p : Fin 3 => fun j i => (p : Int) + 10 * j + i) 0 1 2 5 5 3 0 =
        (fun p : Fin 3 => fun j i => (p : Int) + 10 * j + i) 0 ∧
    Serial.compute_convolution_ptr
      (fun p : Fin 3 => fun j i => (p : Int) + 10 * j + i) 0 1 2 5 5 3 1 2 2 =
        stencil_sum ((fun p : Fin 3 => fun j i => (p : Int) + 10 * j + i) 2)
          ((fun p : Fin 3 => fun j i => (p : Int) + 10 * j + i) 0) 3 2 2 :=
  ⟨⟨by decide, by decide⟩,
    (convolution_contract (fun p : Fin 3 => fun j i => (p : Int) + 10 * j + i) 0 1 2 5 5 3
      (by decide) (by decide)).1,
    (convolution_contract (fun p : Fin 3 => fun j i => (p : Int) + 10 * j + i) 0 1 2 5 5 3
      (by decide) (by decide)).2.2.2.2 2 2 (by decide) (by decide)⟩

end ConvolutionContract

/-! ## Locality of one step -/

section Locality

variable {α : Type u}

/-- After the initial conditions and one application of the boundary conditions, a
grid cell whose nearest interior cell lies in neither half-wall region holds the
background value. -/
theorem initial_boundary_background (conc0 : Buf α) (bc : BCTable α) (nx ny nm : Int)
    (hh : 0 ≤ cdiv nm 2) (hnx : 2 * cdiv nm 2 + 1 ≤ nx) (hny : 2 * cdiv nm 2 + 1 ≤ ny)
    (j i : Int) (hj : 0 ≤ j ∧ j < ny) (hi : 0 ≤ i ∧ i < nx)
    (hl : ¬ in_left_wall ny nm (halo_clamp (cdiv nm 2) ny j) (halo_clamp (cdiv nm 2) nx i))
    (hr : ¬ in_right_wall nx ny nm (halo_clamp (cdiv nm 2) ny j)
      (halo_clamp (cdiv nm 2) nx i)) :
    Serial.apply_boundary_conditions (Serial.apply_initial_conditions conc0 nx ny nm bc)
      nx ny nm bc j i = bc 0 0 := by
  obtain ⟨⟨hcj1, hcj2⟩, _⟩ := halo_clamp_interior hny j
  obtain ⟨⟨hci1, hci2⟩, _⟩ := halo_clamp_interior hnx i
  rw [apply_boundary_conditions_apply _ _ _ _ _ hh hnx hny, if_pos ⟨hj, hi⟩,
    fixed_values_apply, apply_initial_conditions_apply]
  unfold in_left_wall at hl
  unfold in_right_wall at hr
  rw [if_neg hr, if_neg hl, if_neg hr, if_neg hl, if_pos (by omega)]

/-- C16 (locality of one step). For odd `nm ≥ 3`, `nx, ny ≥ nm`, every mask, `D` and
`dt`, with background value `bc[0][0] = 0`, starting from `apply_initial_conditions`
and performing one iteration of the loop of `solve_diffusion_equation`
(`apply_boundary_conditions`, `compute_convolution`, explicit-Euler update), every
interior cell whose whole `nm x nm` stencil neighbourhood lies outside the two
half-wall regions has the new value `0` in the buffer written by the update. -/
theorem one_step_locality [Ring α] (GetTimer : Nat → α) (mask_lap : Buf α) (nx ny nm : Int)
    (bc : BCTable α) (D dt : α) (conc0 conc_new conc_lap : Buf α) (elapsed : α)
    (sw : Stopwatch α) (reads : Nat)
    (hodd : Odd nm) (hnm : 3 ≤ nm) (hnx : nm ≤ nx) (hny : nm ≤ ny) (hbg : bc 0 0 = 0)
    (j i : Int) (hj : cdiv nm 2 ≤ j ∧ j < ny - cdiv nm 2)
    (hi : cdiv nm 2 ≤ i ∧ i < nx - cdiv nm 2)
    (hfar : ∀ j' i', (j - cdiv nm 2 ≤ j' ∧ j' ≤ j + cdiv nm 2) →
      (i - cdiv nm 2 ≤ i' ∧ i' ≤ i + cdiv nm 2) →
      ¬ in_left_wall ny nm j' i' ∧ ¬ in_right_wall nx ny nm j' i') :
    (Serial.solve_iteration GetTimer mask_lap nx ny nm bc D dt
      (Serial.entry_state (Serial.apply_initial_conditions conc0 nx ny nm bc)
        conc_new conc_lap elapsed sw reads)).heap BufId.B j i = 0 := by
  obtain ⟨hh, hw⟩ := halo_width_of_odd hodd (by omega)
  have hx : 2 * cdiv nm 2 + 1 ≤ nx := by omega
  have hy : 2 * cdiv nm 2 + 1 ≤ ny := by omega
  have hzero : ∀ j' i', (j - cdiv nm 2 ≤ j' ∧ j' ≤ j + cdiv nm 2) →
      (i - cdiv nm 2 ≤ i' ∧ i' ≤ i + cdiv nm 2) →
      Serial.apply_boundary_conditions (Serial.apply_initial_conditions conc0 nx ny nm bc)
        nx ny nm bc j' i' = 0 := by
    intro j' i' hj' hi'
    obtain ⟨⟨hcj1, hcj2⟩, _⟩ := halo_clamp_interior hy j'
    obtain ⟨⟨hci1, hci2⟩, _⟩ := halo_clamp_interior hx i'
    have hcj : j - cdiv nm 2 ≤ halo_clamp (cdiv nm 2) ny j' ∧
        halo_clamp (cdiv nm 2) ny j' ≤ j + cdiv nm 2 := by
      simp only [halo_clamp]; split_ifs <;> omega
    have hci : i - cdiv nm 2 ≤ halo_clamp (cdiv nm 2) nx i' ∧
        halo_clamp (cdiv nm 2) nx i' ≤ i + cdiv nm 2 := by
      simp only [halo_clamp]; split_ifs <;> omega
    obtain ⟨hl, hr⟩ := hfar _ _ hcj hci
    rw [initial_boundary_background conc0 bc nx ny nm hh hx hy j' i' (by omega) (by omega)
      hl hr, hbg]
  have hne : BufId.A ≠ BufId.B := by decide
  have hs := (solve_iteration_heap GetTimer mask_lap nx ny nm bc D dt
    (Serial.entry_state (Serial.apply_initial_conditions conc0 nx ny nm bc)
      conc_new conc_lap elapsed sw reads) hne).1
  have hB : (Serial.entry_state (Serial.apply_initial_conditions conc0 nx ny nm bc)
      conc_new conc_lap elapsed sw reads).conc_new = BufId.B := rfl
  rw [hB] at hs
  rw [hs, euler_update_apply, if_pos ⟨hj, hi⟩, serial_compute_convolution_apply,
    if_pos ⟨hj, hi⟩, serial_stencil_value_eq_sum]
  have hA : (Serial.entry_state (Serial.apply_initial_conditions conc0 nx ny nm bc)
      conc_new conc_lap elapsed sw reads).heap
      (Serial.entry_state (Serial.apply_initial_conditions conc0 nx ny nm bc)
        conc_new conc_lap elapsed sw reads).conc_old =
      Serial.apply_initial_conditions conc0 nx ny nm bc := rfl
  rw [hA, hzero j i (by omega) (by omega)]
  unfold stencil_sum
  rw [Finset.sum_eq_zero, mul_zero, add_zero]
  intro mj hmj
  apply Finset.sum_eq_zero
  intro mi hmi
  rw [Finset.mem_Icc] at hmj hmi
  rw [hzero _ _ (by omega) (by omega), mul_zero]

/-- Witness of `one_step_locality`, the scenario of the specification: `nx = ny = 10`,
`nm = 3`, `dx = dy = 1/2`, `D = 1/160`, the table of `set_boundaries`, the five-point
mask. Every interior cell `(j, i)` except those with (`i ≤ 2` and `j ≤ 5`) or (`i ≥ 7`
and `j ≥ 4`) has the new value `0`. -/
theorem one_step_locality_witness :
    (Odd (3 : Int) ∧ (3 : Int) ≤ 3 ∧ (3 : Int) ≤ 10 ∧
      Serial.set_boundaries (fun _ _ => (0 : ℚ)) 0 0 = 0) ∧
    (∀ j i : Int, (1 ≤ j ∧ j < 9) → (1 ≤ i ∧ i < 9) →
      ¬ ((i ≤ 2 ∧ j ≤ 5) ∨ (i ≥ 7 ∧ j ≥ 4)) →
      (Serial.solve_iteration (fun k => (k : ℚ))
        (OpenACC.five_point_Laplacian_stencil (1 / 2) (1 / 2) (fun _ _ => 0)) 10 10 3
        (Serial.set_boundaries (fun _ _ => 0)) (1 / 160) 1
        (Serial.entry_state
          (Serial.apply_initial_conditions (fun _ _ => 7) 10 10 3
            (Serial.set_boundaries (fun _ _ => 0)))
          (fun _ _ => 5) (fun _ _ => 3) 0 ⟨0, 0, 0, 0⟩ 0)).heap BufId.B j i = 0) :=
  ⟨⟨by decide, by decide, by decide, by decide⟩, fun j i hj hi hex =>
    one_step_locality (fun k => (k : ℚ))
      (OpenACC.five_point_Laplacian_stencil (1 / 2) (1 / 2) (fun _ _ => 0)) 10 10 3
      (Serial.set_boundaries (fun _ _ => 0)) (1 / 160) 1 (fun _ _ => 7) (fun _ _ => 5)
      (fun _ _ => 3) 0 ⟨0, 0, 0, 0⟩ 0 (by decide) (by decide) (by decide) (by decide)
      (by decide) j i (by rw [cdiv_three]; omega) (by rw [cdiv_three]; omega)
      (by
        intro j' i' hj' hi'
        have h5 : cdiv 10 2 = 5 := by decide
        rw [cdiv_three] at hj' hi'
        unfold in_left_wall in_right_wall
        rw [cdiv_three, h5]
        omega)⟩

end Locality

/-! ## Order of the sweeps -/

section SweepOrder

variable {α : Type u}

/-- C18 (order dependence of the halo extension). For `nm = 5` there are a grid size
`nx, ny ≥ 5` and an input buffer for which the no-flux column copies executed with the
offsets in decreasing order give a buffer different from the one of the increasing
order: on the 5 x 5 grid with `conc[j][i] = i`, cell `(0, 0)` ends with `1` (column `1`
before offset `0` wrote it) instead of `2`. -/
theorem halo_extension_order_dependent :
    ∃ (nx ny : Int) (conc : Buf Int) (j i : Int), 5 ≤ nx ∧ 5 ≤ ny ∧
      noflux_columns_decreasing conc nx ny 5 j i = 1 ∧
      Serial.noflux_columns conc nx ny 5 j i = 2 ∧
      noflux_columns_decreasing conc nx ny 5 j i ≠ Serial.noflux_columns conc nx ny 5 j i :=
  ⟨5, 5, fun _ i => i, 0, 0, by decide⟩

theorem sweep_apply (cells : List (Int × Int)) (value : Int → Int → α) (out : Buf α)
    (j i : Int) :
    sweep cells value out j i = if (j, i) ∈ cells then value j i else out j i := by
  unfold sweep
  induction cells generalizing out with
  | nil => simp
  | cons c cells ih =>
    rw [List.foldl_cons, ih]
    by_cases h1 : (j, i) ∈ cells
    · rw [if_pos h1, if_pos (List.mem_cons_of_mem _ h1)]
    · rw [if_neg h1]
      simp only [Buf.set]
      by_cases h2 : j = c.1 ∧ i = c.2
      · have hc : (j, i) = c := Prod.ext h2.1 h2.2
        rw [if_pos h2, if_pos (by rw [hc]; exact List.mem_cons_self _ _), h2.1, h2.2]
      · rw [if_neg h2, if_neg]
        intro hmem
        rcases List.mem_cons.mp hmem with h | h
        · exact h2 ⟨congrArg Prod.fst h, congrArg Prod.snd h⟩
        · exact h1 h

theorem mem_interior_pairs (nx ny nm j i : Int) :
    (j, i) ∈ interior_pairs nx ny nm ↔
      (cdiv nm 2 ≤ j ∧ j < ny - cdiv nm 2) ∧ (cdiv nm 2 ≤ i ∧ i < nx - cdiv nm 2) := by
  unfold interior_pairs
  constructor
  · intro h
    obtain ⟨a, ha, h⟩ := List.mem_flatMap.mp h
    obtain ⟨b, hb, hab⟩ := List.mem_map.mp h
    rw [List.mem_range] at ha hb
    obtain ⟨h1, h2⟩ := Prod.mk.inj hab
    omega
  · rintro ⟨hj, hi⟩
    refine List.mem_flatMap.mpr ⟨(j - cdiv nm 2).toNat, List.mem_range.mpr (by omega),
      List.mem_map.mpr ⟨(i - cdiv nm 2).toNat, List.mem_range.mpr (by omega), ?_⟩⟩
    apply Prod.ext
    · show cdiv nm 2 + (((j - cdiv nm 2).toNat : Nat) : Int) = j
      omega
    · show cdiv nm 2 + (((i - cdiv nm 2).toNat : Nat) : Int) = i
      omega

/-- The row-major sweep over `interior_pairs` assigns the cells that a nest of the two
interior loops assigns. -/
theorem sweep_interior_pairs (value : Int → Int → α) (out : Buf α) (nx ny nm : Int)
    (cells : List (Int × Int)) (hperm : cells.Perm (interior_pairs nx ny nm)) (j i : Int) :
    sweep cells value out j i =
      if (cdiv nm 2 ≤ j ∧ j < ny - cdiv nm 2) ∧ (cdiv nm 2 ≤ i ∧ i < nx - cdiv nm 2)
      then value j i else out j i := by
  rw [sweep_apply]
  have h : (j, i) ∈ cells ↔
      (cdiv nm 2 ≤ j ∧ j < ny - cdiv nm 2) ∧ (cdiv nm 2 ≤ i ∧ i < nx - cdiv nm 2) := by
    rw [hperm.mem_iff, mem_interior_pairs]
  simp only [h]

/-- C19 (partition independence of the interior sweeps). For every `nm`, `nx`, `ny`
(in particular odd `nm` and `nx, ny ≥ nm`) and distinct input and output buffers,
performing the per-cell writes of `compute_convolution`, and those of the
explicit-Euler update `conc_new[j][i] = conc_old[j][i] + dt*D*conc_lap[j][i]`, in the
order of any permutation of the list of interior index pairs yields the output buffer
of the row-major serial loop. -/
theorem interior_sweep_order_independent [Semiring α]
    (conc_old conc_lap mask_lap conc_new : Buf α) (nx ny nm : Int) (D dt : α)
    (cells : List (Int × Int)) (hperm : cells.Perm (interior_pairs nx ny nm)) :
    sweep cells (fun j i => Serial.stencil_value conc_old mask_lap nm j i) conc_lap =
        Serial.compute_convolution conc_old conc_lap mask_lap nx ny nm ∧
    sweep cells (fun j i => conc_old j i + dt * D * conc_lap j i) conc_new =
        Serial.euler_update conc_old conc_new conc_lap nx ny nm D dt := by
  constructor
  · funext j i
    rw [sweep_interior_pairs _ _ nx ny nm cells hperm, serial_compute_convolution_apply]
  · funext j i
    rw [sweep_interior_pairs _ _ nx ny nm cells hperm, euler_update_apply]

/-- Witness of `interior_sweep_order_independent`: the interior cells of a 5 x 6 grid
(`nm = 3`) swept in reverse row-major order. -/
theorem interior_sweep_order_independent_witness :
    ((interior_pairs 6 5 3).reverse.Perm (interior_pairs 6 5 3)) ∧
    sweep (interior_pairs 6 5 3).reverse
        (fun j i => Serial.stencil_value (fun j i => 10 * j + i)
          (fun mj mi => (mj - 2 * mi : Int)) 3 j i) (fun _ _ => 7) =
      Serial.compute_convolution (fun j i => 10 * j + i) (fun _ _ => 7)
        (fun mj mi => (mj - 2 * mi : Int)) 6 5 3 :=
  ⟨List.reverse_perm _,
    (interior_sweep_order_independent (fun j i => 10 * j + i) (fun _ _ => 7)
      (fun mj mi => (mj - 2 * mi : Int)) (fun _ _ => 0) 6 5 3 1 1
      (interior_pairs 6 5 3).reverse (List.reverse_perm _)).1⟩

end SweepOrder

/-! ## The TBB boundary functions against the serial ones -/

section TBBEquivalence

variable {α : Type u}

theorem parallel_for_forLoop {σ : Type u} (lo hi : Int) (body : Int → σ → σ) (s : σ) :
    TBB.parallel_for ⟨lo, hi⟩ (fun r s => forLoop r.range_begin r.range_end body s) s =
      forLoop lo hi body s := by
  unfold TBB.parallel_for
  by_cases h : lo < hi
  · rw [if_pos h]
  · rw [if_neg h, forLoop_eq_self_of_le (by omega)]

theorem parallel_for2d_fill (value : α) (ilo ihi jlo jhi : Int) (conc : Buf α) :
    TBB.parallel_for2d ⟨⟨ilo, ihi⟩, ⟨jlo, jhi⟩⟩ (fun r conc =>
      forLoop r.cols.range_begin r.cols.range_end (fun j conc =>
        forLoop r.rows.range_begin r.rows.range_end (fun i conc => conc.set j i value) conc)
        conc) conc =
      forLoop jlo jhi (fun j conc =>
        forLoop ilo ihi (fun i conc => conc.set j i value) conc) conc := by
  unfold TBB.parallel_for2d
  by_cases h : ilo < ihi ∧ jlo < jhi
  · rw [if_pos h]
  · rw [if_neg h]
    funext j i
    rw [fill_rect (fun _ _ => value), if_neg (by omega)]

theorem set_boundaries_values [Zero α] [One α] (bc : BCTable α) :
    Serial.set_boundaries bc 0 0 = 0 ∧ Serial.set_boundaries bc 1 0 = 1 ∧
      Serial.set_boundaries bc 1 1 = 1 :=
  ⟨rfl, rfl, rfl⟩

/-- C20 (TBB backend equivalence). With the table produced by `set_boundaries`
(background `0`, both source values `1`), for every `nm`, `nx`, `ny` (in particular odd
`nm` and `nx, ny ≥ nm`) and every input buffer, the TBB `apply_initial_conditions` and
`apply_boundary_conditions`, each `parallel_for` run as one sequential loop over its
range with `rows()` indexing `i` and `cols()` indexing `j`, produce the buffers of the
serial `apply_initial_conditions` and `apply_boundary_conditions`. -/
theorem tbb_eq_serial [Zero α] [One α] (conc : Buf α) (bc : BCTable α) (nx ny nm : Int) :
    TBB.apply_initial_conditions conc nx ny nm =
        Serial.apply_initial_conditions conc nx ny nm (Serial.set_boundaries bc) ∧
    TBB.apply_boundary_conditions conc nx ny nm =
        Serial.apply_boundary_conditions conc nx ny nm (Serial.set_boundaries bc) := by
  obtain ⟨h00, h10, h11⟩ := set_boundaries_values bc
  constructor
  · unfold TBB.apply_initial_conditions Serial.apply_initial_conditions Serial.fixed_values
    simp only [parallel_for2d_fill, h00, h10, h11]
  · unfold TBB.apply_boundary_conditions Serial.apply_boundary_conditions
      Serial.noflux_rows Serial.noflux_columns Serial.fixed_values
    simp only [parallel_for2d_fill, parallel_for_forLoop, h10, h11]

end TBBEquivalence

/-! ## The truncated series of the error function -/

section ErfSeries

/-- C21 (truncated erf series). In the OpenACC `check_solution`, for `z < 1.5` the value
`poly_erf` is `(2/sqrt(pi))` times the sum over `n = 0..4` of
`(-1)^n z^(2n+1) / (n! (2n+1))`, the first five terms of the Maclaurin series of `erf`
(Horner coefficients `1, -1/3, 1/10, -1/42, 1/216`), and for `z ≥ 1.5` it is `1`; the
left value `cal` and the right value `car` both go through this expression. -/
theorem poly_erf_series {α : Type u} [LinearOrderedField α] (sqrt : α → α) (pi z : α)
    (nx ny nm : Int) (dx dy elapsed D : α) (bc : BCTable α) (j i : Int) :
    OpenACC.poly_erf sqrt pi z =
      (if z < 3 / 2 then
        2 / sqrt pi * ∑ n in Finset.range 5,
          (-1) ^ n * z ^ (2 * n + 1) / ((n.factorial : α) * (2 * (n : α) + 1))
      else 1) ∧
    OpenACC.cal sqrt pi ny dx dy nm elapsed D bc j i =
      bc 1 0 * (1 - OpenACC.poly_erf sqrt pi
        (OpenACC.r_left sqrt ny dx dy nm j i / sqrt (4 * D * elapsed))) ∧
    OpenACC.car sqrt pi nx ny dx dy nm elapsed D bc j i =
      bc 1 0 * (1 - OpenACC.poly_erf sqrt pi
        (OpenACC.r_right sqrt nx ny dx dy nm j i / sqrt (4 * D * elapsed))) := by
  refine ⟨?_, rfl, rfl⟩
  unfold OpenACC.poly_erf
  by_cases h : z < 3 / 2
  · rw [if_pos h, if_pos h]
    simp only [Finset.sum_range_succ, Finset.sum_range_zero, Nat.factorial]
    push_cast
    rw [div_eq_mul_inv, div_eq_mul_inv 2 (sqrt pi)]
    ring
  · rw [if_neg h, if_neg h]

end ErfSeries

/-! ## The range of the approximated error function -/

section ErfRange

theorem poly_erf_eq_maclaurin {α : Type u} [LinearOrderedField α] (sqrt : α → α) (pi z : α)
    (hz : z < 3 / 2) :
    OpenACC.poly_erf sqrt pi z = 2 * maclaurin_erf5 z / sqrt pi := by
  unfold OpenACC.poly_erf maclaurin_erf5
  rw [if_pos hz]
  congr 1
  ring

theorem maclaurin_erf5_hasDerivAt (x : ℝ) :
    HasDerivAt (fun z : ℝ => maclaurin_erf5 z)
      (1 - x ^ 2 + x ^ 4 / 2 - x ^ 6 / 6 + x ^ 8 / 24) x := by
  unfold maclaurin_erf5
  have h := ((((hasDerivAt_id x).sub ((hasDerivAt_pow 3 x).div_const 3)).add
    ((hasDerivAt_pow 5 x).div_const 10)).sub ((hasDerivAt_pow 7 x).div_const 42)).add
    ((hasDerivAt_pow 9 x).div_const 216)
  convert h using 1
  norm_num
  ring

theorem maclaurin_erf5_monotone : Monotone (fun z : ℝ => maclaurin_erf5 z) := by
  apply monotone_of_deriv_nonneg
  · intro x
    exact (maclaurin_erf5_hasDerivAt x).differentiableAt
  · intro x
    rw [(maclaurin_erf5_hasDerivAt x).deriv]
    nlinarith [sq_nonneg (x ^ 4 - 2 * x ^ 2 + 2), sq_nonneg (x ^ 2 - 2)]

theorem sqrt_pi_bounds : (17724 / 10000 : ℝ) ≤ Real.sqrt Real.pi ∧ 0 < Real.sqrt Real.pi := by
  have h1 : (17724 / 10000 : ℝ) ^ 2 ≤ Real.pi := by
    have := Real.pi_gt_d4
    norm_num at this ⊢
    linarith
  have h2 : (17724 / 10000 : ℝ) ≤ Real.sqrt Real.pi := Real.le_sqrt_of_sq_le h1
  exact ⟨h2, by linarith⟩

/-- C22 as stated fails: at `z = 1.48 < 1.5` the degree-9 polynomial gives
`poly_erf(z) > 1`, so the contribution `bc_source * (1 - poly_erf(z))` of a source
value `1` is negative. -/
theorem poly_erf_range_counterexample :
    (0 : ℝ) ≤ 37 / 25 ∧ 1 < OpenACC.poly_erf Real.sqrt Real.pi (37 / 25) ∧
    (1 : ℝ) * (1 - OpenACC.poly_erf Real.sqrt Real.pi (37 / 25)) < 0 := by
  have hp : 1 < OpenACC.poly_erf Real.sqrt Real.pi (37 / 25) := by
    rw [poly_erf_eq_maclaurin _ _ _ (by norm_num), lt_div_iff₀ sqrt_pi_bounds.2, one_mul]
    have h1 : Real.sqrt Real.pi < 179 / 100 := by
      rw [Real.sqrt_lt' (by norm_num)]
      have := Real.pi_lt_d2
      norm_num at this ⊢
      linarith
    have h2 : (179 / 100 : ℝ) < 2 * maclaurin_erf5 (37 / 25 : ℝ) := by
      unfold maclaurin_erf5
      norm_num
    linarith
  exact ⟨by norm_num, hp, by linarith⟩

/-- C22 (amended: the upper bound is `1.022`, and `1` away from the threshold). For
every real `z ≥ 0` the value `poly_erf(z)` computed in the OpenACC `check_solution`
lies in `[0, 1.022]`, and in `[0, 1]` when `z ≤ 1.45` or `z ≥ 1.5`; so each analytical
source contribution `bc_source * (1 - poly_erf(z))` lies between `-0.022 * bc_source`
and `bc_source` for `bc_source ≥ 0`. -/
theorem poly_erf_range (z : ℝ) (hz : 0 ≤ z) :
    (0 ≤ OpenACC.poly_erf Real.sqrt Real.pi z ∧
      OpenACC.poly_erf Real.sqrt Real.pi z ≤ 1022 / 1000) ∧
    (z ≤ 145 / 100 ∨ 3 / 2 ≤ z → OpenACC.poly_erf Real.sqrt Real.pi z ≤ 1) ∧
    (∀ bc_source : ℝ, 0 ≤ bc_source →
      -(22 / 1000) * bc_source ≤ bc_source * (1 - OpenACC.poly_erf Real.sqrt Real.pi z) ∧
      bc_source * (1 - OpenACC.poly_erf Real.sqrt Real.pi z) ≤ bc_source) := by
  obtain ⟨hs1, hs0⟩ := sqrt_pi_bounds
  have hmain : (0 ≤ OpenACC.poly_erf Real.sqrt Real.pi z ∧
      OpenACC.poly_erf Real.sqrt Real.pi z ≤ 1022 / 1000) ∧
      (z ≤ 145 / 100 ∨ 3 / 2 ≤ z → OpenACC.poly_erf Real.sqrt Real.pi z ≤ 1) := by
    by_cases h : z < 3 / 2
    · rw [poly_erf_eq_maclaurin _ _ _ h]
      have h0 : 0 ≤ maclaurin_erf5 z := by
        have := maclaurin_erf5_monotone hz
        simp only [maclaurin_erf5] at this ⊢
        norm_num at this
        exact this
      have htop : maclaurin_erf5 z ≤ maclaurin_erf5 (3 / 2 : ℝ) := maclaurin_erf5_monotone h.le
      have htopv : 2 * maclaurin_erf5 (3 / 2 : ℝ) ≤ 1022 / 1000 * (17724 / 10000) := by
        unfold maclaurin_erf5
        norm_num
      refine ⟨⟨div_nonneg (by linarith) hs0.le, ?_⟩, ?_⟩
      · rw [div_le_iff₀ hs0]
        nlinarith
      · intro hcase
        rcases hcase with hle | hge
        · have hmid : maclaurin_erf5 z ≤ maclaurin_erf5 (145 / 100 : ℝ) :=
            maclaurin_erf5_monotone hle
          have hmidv : 2 * maclaurin_erf5 (145 / 100 : ℝ) ≤ 17724 / 10000 := by
            unfold maclaurin_erf5
            norm_num
          rw [div_le_iff₀ hs0]
          linarith
        · exact absurd h (not_lt.mpr hge)
    · have e : OpenACC.poly_erf Real.sqrt Real.pi z = 1 := by
        unfold OpenACC.poly_erf
        rw [if_neg h]
      rw [e]
      exact ⟨⟨by norm_num, by norm_num⟩, fun _ => le_refl _⟩
  refine ⟨hmain.1, hmain.2, ?_⟩
  intro bc_source hbc
  obtain ⟨⟨hlo, hhi⟩, _⟩ := hmain
  constructor
  · nlinarith
  · nlinarith

/-- Witness of `poly_erf_range` at `z = 1.48`, where the value exceeds `1`. -/
theorem poly_erf_range_witness :
    (0 : ℝ) ≤ 37 / 25 ∧
    (0 ≤ OpenACC.poly_erf Real.sqrt Real.pi (37 / 25) ∧
      OpenACC.poly_erf Real.sqrt Real.pi (37 / 25) ≤ 1022 / 1000) :=
  ⟨by norm_num, (poly_erf_range (37 / 25) (by norm_num)).1⟩

end ErfRange

/-! ## Index safety -/

section IndexSafety

variable {α : Type u}

theorem loopNM_some {σ : Type u} (lo : Int) (bodyM : Int → σ → Option σ)
    (body : Int → σ → σ) (n : Nat)
    (h : ∀ m : Nat, m < n → ∀ s, bodyM (lo + m) s = some (body (lo + m) s)) (s : σ) :
    loopNM lo bodyM n s = some (loopN lo body n s) := by
  induction n with
  | zero => rfl
  | succ n ih =>
    show (loopNM lo bodyM n s).bind (bodyM (lo + n)) = some (body (lo + n) (loopN lo body n s))
    rw [ih (fun m hm => h m (by omega)), Option.some_bind, h n (by omega)]

theorem forLoopM_some {σ : Type u} (lo hi : Int) (bodyM : Int → σ → Option σ)
    (body : Int → σ → σ)
    (h : ∀ k, lo ≤ k → k < hi → ∀ s, bodyM k s = some (body k s)) (s : σ) :
    forLoopM lo hi bodyM s = some (forLoop lo hi body s) := by
  unfold forLoopM forLoop
  apply loopNM_some
  intro m hm s
  exact h _ (by omega) (by omega) s

theorem read_some (c : Buf α) (ny nx j i : Int) (hj : 0 ≤ j ∧ j < ny) (hi : 0 ≤ i ∧ i < nx) :
    c.read ny nx j i = some (c j i) := by
  unfold Buf.read
  rw [if_pos ⟨hj, hi⟩]

theorem write_some (c : Buf α) (ny nx j i : Int) (v : α) (hj : 0 ≤ j ∧ j < ny)
    (hi : 0 ≤ i ∧ i < nx) : c.write ny nx j i v = some (c.set j i v) := by
  unfold Buf.write
  rw [if_pos ⟨hj, hi⟩]

/-- C23 (index safety). For every odd `nm ≥ 1` and all `nx, ny ≥ nm`, every buffer
cell read or written by the serial `apply_boundary_conditions` and `compute_convolution`
has its row index in `[0, ny)` and its column index in `[0, nx)`, and every mask entry
read by `compute_convolution` has both indices in `[0, nm)`: with bounds-checked
indexing no access fails, and the checked functions return the buffers of the
unchecked ones. -/
theorem index_safety [Semiring α] (conc conc_old conc_lap mask_lap : Buf α)
    (bc : BCTable α) (nx ny nm : Int) (hodd : Odd nm) (hnm : 1 ≤ nm) (hnx : nm ≤ nx)
    (hny : nm ≤ ny) :
    Serial.apply_boundary_conditions_checked conc nx ny nm bc =
        some (Serial.apply_boundary_conditions conc nx ny nm bc) ∧
    Serial.compute_convolution_checked conc_old conc_lap mask_lap nx ny nm =
        some (Serial.compute_convolution conc_old conc_lap mask_lap nx ny nm) := by
  obtain ⟨hh, hw⟩ := halo_width_of_odd hodd hnm
  have hny2 : cdiv ny 2 = ny / 2 := cdiv_two_of_nonneg (by omega)
  have hneg : cdiv (-nm) 2 = -(cdiv nm 2) := cdiv_neg_two nm
  constructor
  · unfold Serial.apply_boundary_conditions_checked Serial.apply_boundary_conditions
      Serial.noflux_rows Serial.noflux_columns Serial.fixed_values
    rw [forLoopM_some 0 (cdiv ny 2) _ (fun j conc =>
      forLoop 0 (1 + cdiv nm 2) (fun i conc => conc.set j i (bc 1 0)) conc)]
    · rw [Option.some_bind,
        forLoopM_some (cdiv ny 2) ny _ (fun j conc =>
          forLoop (nx - 1 - cdiv nm 2) nx (fun i conc => conc.set j i (bc 1 1)) conc)]
      · rw [Option.some_bind,
          forLoopM_some 0 (cdiv nm 2) _ (fun offset (conc : Buf α) =>
            let ilo := cdiv nm 2 - offset
            let ihi := nx - 1 - cdiv nm 2 + offset
            forLoop 0 ny (fun j conc =>
              let conc := conc.set j (ilo - 1) (conc j ilo)
              conc.set j (ihi + 1) (conc j ihi)) conc)]
        · rw [Option.some_bind]
          apply forLoopM_some
          intro offset ho1 ho2 c
          apply forLoopM_some
          intro i hi1 hi2 c
          rw [read_some _ _ _ _ _ (by omega) (by omega), Option.some_bind,
            write_some _ _ _ _ _ _ (by omega) (by omega), Option.some_bind,
            read_some _ _ _ _ _ (by omega) (by omega), Option.some_bind,
            write_some _ _ _ _ _ _ (by omega) (by omega)]
        · intro offset ho1 ho2 c
          apply forLoopM_some
          intro j hj1 hj2 c
          rw [read_some _ _ _ _ _ (by omega) (by omega), Option.some_bind,
            write_some _ _ _ _ _ _ (by omega) (by omega), Option.some_bind,
            read_some _ _ _ _ _ (by omega) (by omega), Option.some_bind,
            write_some _ _ _ _ _ _ (by omega) (by omega)]
      · intro j hj1 hj2 c
        apply forLoopM_some
        intro i hi1 hi2 c
        exact write_some _ _ _ _ _ _ (by omega) (by omega)
    · intro j hj1 hj2 c
      apply forLoopM_some
      intro i hi1 hi2 c
      exact write_some _ _ _ _ _ _ (by omega) (by omega)
  · unfold Serial.compute_convolution_checked Serial.compute_convolution
    apply forLoopM_some
    intro j hj1 hj2 c
    apply forLoopM_some
    intro i hi1 hi2 c
    have hv : forLoopM (cdiv (-nm) 2) (cdiv nm 2 + 1) (fun mj value =>
        forLoopM (cdiv (-nm) 2) (cdiv nm 2 + 1) (fun mi value =>
          (mask_lap.read nm nm (mj + cdiv nm 2) (mi + cdiv nm 2)).bind (fun m =>
          (conc_old.read ny nx (j + mj) (i + mi)).bind (fun a =>
          some (value + m * a)))) value) (0 : α) =
        some (Serial.stencil_value conc_old mask_lap nm j i) := by
      unfold Serial.stencil_value
      apply forLoopM_some
      intro mj hmj1 hmj2 value
      apply forLoopM_some
      intro mi hmi1 hmi2 value
      rw [read_some _ _ _ _ _ (by omega) (by omega), Option.some_bind,
        read_some _ _ _ _ _ (by omega) (by omega), Option.some_bind]
    rw [hv, Option.some_bind]
    exact write_some _ _ _ _ _ _ (by omega) (by omega)

/-- Witness of `index_safety` on a 5 x 6 grid with `nm = 3`. -/
theorem index_safety_witness :
    (Odd (3 : Int) ∧ (1 : Int) ≤ 3 ∧ (3 : Int) ≤ 6 ∧ (3 : Int) ≤ 5) ∧
    Serial.apply_boundary_conditions_checked (fun j i => 10 * j + i) 6 5 3
        (fun a b => 100 + 2 * (a : Int) + b) =
      some (Serial.apply_boundary_conditions (fun j i => 10 * j + i) 6 5 3
        (fun a b => 100 + 2 * (a : Int) + b)) :=
  ⟨⟨by decide, by decide, by decide, by decide⟩,
    (index_safety (fun j i => 10 * j + i) (fun j i => 10 * j + i) (fun _ _ => 0)
      (fun mj mi => mj - 2 * mi) (fun a b => 100 + 2 * (a : Int) + b) 6 5 3
      (by decide) (by decide) (by decide) (by decide)).1⟩

end IndexSafety

/-! ## Phase timing in the OpenCL driver -/

section PhaseTiming

/-- One iteration of the loop of `main` leaves `watch.step` as it is and adds both
measured durations, the one of `device_convolution` and the one of `device_diffusion`,
to `watch.conv`. -/
theorem main_iteration_watch {δ : Type u} {α : Type u} [Ring α] (GetTimer : Nat → α)
    (ext : OpenCL.Externals δ α) (checks : Int) (dt : α) (step : Int)
    (s : OpenCL.MainState δ α) :
    (OpenCL.main_iteration GetTimer ext checks dt step s).watch.step = s.watch.step ∧
    (OpenCL.main_iteration GetTimer ext checks dt step s).watch.conv =
      s.watch.conv + (GetTimer (s.reads + 1) - GetTimer s.reads) +
        (GetTimer (s.reads + 3) - GetTimer (s.reads + 2)) := by
  unfold OpenCL.main_iteration
  by_cases h : Int.tmod step checks = 0
  · rw [if_pos h]
    exact ⟨rfl, rfl⟩
  · rw [if_neg h]
    exact ⟨rfl, rfl⟩

/-- The loop of `main` never changes `watch.step`, whatever the number of steps. -/
theorem main_loop_watch_step {δ : Type u} {α : Type u} [Ring α] (GetTimer : Nat → α)
    (ext : OpenCL.Externals δ α) (steps checks : Int) (dt : α) (s : OpenCL.MainState δ α) :
    (OpenCL.main_loop GetTimer ext steps checks dt s).watch.step = s.watch.step := by
  unfold OpenCL.main_loop forLoop
  induction (steps + 1 - 1).toNat with
  | zero => rfl
  | succ n ih =>
    rw [loopN, (main_iteration_watch GetTimer ext checks dt _ _).1, ih]

/-- The serial loop, in contrast, adds the duration of the update to `sw->step` and
the duration of the convolution alone to `sw->conv`. -/
theorem solve_iteration_watch {α : Type u} [Ring α] (GetTimer : Nat → α) (mask_lap : Buf α)
    (nx ny nm : Int) (bc : BCTable α) (D dt : α) (s : Serial.SolveState α) :
    (Serial.solve_iteration GetTimer mask_lap nx ny nm bc D dt s).sw.step =
      s.sw.step + (GetTimer (s.reads + 3) - GetTimer (s.reads + 2)) ∧
    (Serial.solve_iteration GetTimer mask_lap nx ny nm bc D dt s).sw.conv =
      s.sw.conv + (GetTimer (s.reads + 1) - GetTimer s.reads) :=
  ⟨rfl, rfl⟩

/-- C24 fails on the code. With a clock whose `k`-th reading is `k` (every call of
`GetTimer` one tick after the previous one), after one iteration of the loop of `main`
starting from a zero stopwatch, `watch.step` is still `0` although `device_diffusion`
took one tick, and `watch.conv` is `2`, the duration of `device_convolution` plus the
duration of `device_diffusion`; after three iterations `watch.step = 0` and
`watch.conv = 6`. -/
theorem opencl_step_time_not_accumulated :
    (OpenCL.main_iteration (fun k => (k : Int)) (⟨fun d _ => d, fun d _ => d, fun d _ => d,
        fun _ _ c => c, fun _ _ => 0⟩ : OpenCL.Externals Unit Int) 10000 1 1
      ⟨(), fun _ _ => 0, 0, 0, ⟨0, 0, 0, 0⟩, [], 0⟩).watch.step = 0 ∧
    (OpenCL.main_iteration (fun k => (k : Int)) (⟨fun d _ => d, fun d _ => d, fun d _ => d,
        fun _ _ c => c, fun _ _ => 0⟩ : OpenCL.Externals Unit Int) 10000 1 1
      ⟨(), fun _ _ => 0, 0, 0, ⟨0, 0, 0, 0⟩, [], 0⟩).watch.conv = 2 ∧
    (OpenCL.main_loop (fun k => (k : Int)) (⟨fun d _ => d, fun d _ => d, fun d _ => d,
        fun _ _ c => c, fun _ _ => 0⟩ : OpenCL.Externals Unit Int) 3 10000 1
      ⟨(), fun _ _ => 0, 0, 0, ⟨0, 0, 0, 0⟩, [], 0⟩).watch.step = 0 ∧
    (OpenCL.main_loop (fun k => (k : Int)) (⟨fun d _ => d, fun d _ => d, fun d _ => d,
        fun _ _ c => c, fun _ _ => 0⟩ : OpenCL.Externals Unit Int) 3 10000 1
      ⟨(), fun _ _ => 0, 0, 0, ⟨0, 0, 0, 0⟩, [], 0⟩).watch.conv = 6 := by
  decide

end PhaseTiming

/-! ## The residual sum at time zero -/

section TimeZero

variable {α : Type u}

/-- A loop whose body maps finite values to finite values, on its index range. -/
theorem loopN_fin (lo : Int) (body : Int → Fp α → Fp α) (body' : Int → α → α) (n : Nat)
    (h : ∀ k, lo ≤ k → k < lo + n → ∀ s, body k (Fp.fin s) = Fp.fin (body' k s)) (x : α) :
    loopN lo body n (Fp.fin x) = Fp.fin (loopN lo body' n x) := by
  induction n with
  | zero => rfl
  | succ n ih =>
    show body (lo + n) (loopN lo body n (Fp.fin x)) = Fp.fin (body' (lo + n) (loopN lo body' n x))
    rw [ih (fun k h1 h2 s => h k h1 (by push_cast; omega) s)]
    exact h (lo + n) (by omega) (by push_cast; omega) _

theorem forLoop_fin (lo hi : Int) (body : Int → Fp α → Fp α) (body' : Int → α → α)
    (h : ∀ k, lo ≤ k → k < hi → ∀ s, body k (Fp.fin s) = Fp.fin (body' k s)) (x : α) :
    forLoop lo hi body (Fp.fin x) = Fp.fin (forLoop lo hi body' x) := by
  unfold forLoop
  exact loopN_fin lo body body' _ (fun k h1 h2 s => h k h1 (by omega) s) x

variable [LinearOrderedField α]

theorem fp_add_fin (a b : α) : Fp.fin a + Fp.fin b = Fp.fin (a + b) := rfl

theorem fp_sub_fin (a b : α) : Fp.fin a - Fp.fin b = Fp.fin (a - b) := rfl

theorem fp_mul_fin (a b : α) : Fp.fin a * Fp.fin b = Fp.fin (a * b) := rfl

theorem fp_div_fin (a b : α) (hb : b ≠ 0) : Fp.fin a / Fp.fin b = Fp.fin (a / b) := by
  show (if b = 0 then (if a = 0 then Fp.nan else Fp.inf (decide (a < 0)))
    else Fp.fin (a / b)) = _
  rw [if_neg hb]

theorem fp_sqrt_fin (sqrt : α → α) (a : α) (ha : 0 ≤ a) :
    Fp.sqrt sqrt (Fp.fin a) = Fp.fin (sqrt a) := by
  show (if a < 0 then Fp.nan else Fp.fin (sqrt a)) = _
  rw [if_neg (not_lt.mpr ha)]

theorem sum_squares_nonneg (a b k m : α) : 0 ≤ a * a * k * k + b * b * m * m := by
  have h1 : a * a * k * k = (a * k) * (a * k) := by ring
  have h2 : b * b * m * m = (b * m) * (b * m) := by ring
  rw [h1, h2]
  exact add_nonneg (mul_self_nonneg _) (mul_self_nonneg _)

/-- The distance to the left source is the finite number of the exact model. -/
theorem ieee_r_left_fin (sqrt : α → α) (ny : Int) (dx dy : α) (nm j i : Int) :
    OpenACC.IEEE.r_left sqrt ny (Fp.fin dx) (Fp.fin dy) nm j i =
      Fp.fin (OpenACC.r_left sqrt ny dx dy nm j i) := by
  unfold OpenACC.IEEE.r_left OpenACC.r_left
  by_cases h : j < cdiv ny 2
  · rw [if_pos h, if_pos h, fp_mul_fin]
  · rw [if_neg h, if_neg h]
    simp only [fp_mul_fin, fp_add_fin]
    rw [fp_sqrt_fin sqrt _ (sum_squares_nonneg _ _ _ _)]

/-- The distance to the right source is the finite number of the exact model. -/
theorem ieee_r_right_fin (sqrt : α → α) (nx ny : Int) (dx dy : α) (nm j i : Int) :
    OpenACC.IEEE.r_right sqrt nx ny (Fp.fin dx) (Fp.fin dy) nm j i =
      Fp.fin (OpenACC.r_right sqrt nx ny dx dy nm j i) := by
  unfold OpenACC.IEEE.r_right OpenACC.r_right
  by_cases h : j ≥ cdiv ny 2
  · rw [if_pos h, if_pos h, fp_mul_fin]
  · rw [if_neg h, if_neg h]
    simp only [fp_mul_fin, fp_add_fin]
    rw [fp_sqrt_fin sqrt _ (sum_squares_nonneg _ _ _ _)]

end TimeZero

section TimeZeroClaims

end TimeZeroClaims

section TimeZeroResult

/-- Away from the special values the model with infinities and NaN computes the value
of the exact model: when `sqrt(4 * D * elapsed)` and `sqrt(M_PI)` are not zero and the
divisor `(nx-nm+1) * (ny-nm+1)` is not zero, every operation of `check_solution` has
finite operands. -/
theorem ieee_check_solution_finite {α : Type u} [LinearOrderedField α] (sqrt : α → α)
    (pi : α) (A : Buf α) (nx ny nm bs : Int) (dx dy elapsed D : α) (bc : BCTable α)
    (hpi : 0 ≤ pi) (hspi : sqrt pi ≠ 0) (ht : 0 ≤ 4 * D * elapsed)
    (hst : sqrt (4 * D * elapsed) ≠ 0)
    (hd : ((OpenACC.rss_divisor nx ny nm : Int) : α) ≠ 0) :
    OpenACC.IEEE.check_solution sqrt pi (fun j i => Fp.fin (A j i)) nx ny (Fp.fin dx)
      (Fp.fin dy) nm bs (Fp.fin elapsed) (Fp.fin D) (fun a b => Fp.fin (bc a b)) =
      Fp.fin (OpenACC.check_solution sqrt pi A nx ny dx dy nm bs elapsed D bc) := by
  have hpoly : ∀ z : α, OpenACC.IEEE.poly_erf sqrt pi (Fp.fin z) =
      Fp.fin (OpenACC.poly_erf sqrt pi z) := by
    intro z
    unfold OpenACC.IEEE.poly_erf OpenACC.poly_erf
    simp only [fp_mul_fin, fp_add_fin, fp_div_fin _ _ (by norm_num : (216 : α) ≠ 0),
      fp_sqrt_fin sqrt pi hpi, fp_div_fin _ _ hspi]
    show (if decide (z < 3 / 2) = true then _ else _) = _
    by_cases hz : z < 3 / 2
    · rw [if_pos (decide_eq_true hz), if_pos hz]
    · rw [if_neg (by simpa using hz), if_neg hz]
  have hden : Fp.sqrt sqrt (Fp.fin (4 * D * elapsed)) = Fp.fin (sqrt (4 * D * elapsed)) :=
    fp_sqrt_fin sqrt _ ht
  unfold OpenACC.IEEE.check_solution OpenACC.check_solution
  apply forLoop_fin
  intro j _ _ s
  apply forLoop_fin
  intro i _ _ s
  simp only [OpenACC.IEEE.cal, OpenACC.IEEE.car, OpenACC.cal, OpenACC.car, ieee_r_left_fin,
    ieee_r_right_fin, fp_mul_fin, hden, fp_div_fin _ _ hst, hpoly, fp_sub_fin, fp_add_fin,
    fp_div_fin _ _ hd]

end TimeZeroResult
